import Mathlib

/-!
# DevOps info service (`app_go/main.go`): a shallow embedding

The Go program is a small HTTP service.  Its helpers (`getClientIP`,
`getUptime`) and handlers are embedded as Lean functions.  Go strings are byte
sequences, so they are modelled as lists of byte values; everything the
handlers read from the outside world (clock, host facts) is passed explicitly.
The standard-library functions the program calls are modelled after the Go
standard library sources and are kept in namespaces named after their package.
-/

set_option autoImplicit false

/-! ## Go strings -/

/-- A Go string: an arbitrary sequence of bytes (values below 256). -/
abbrev GoString := List Nat

/-- The bytes of an ASCII string literal of the source. -/
def ascii (s : String) : GoString := s.data.map Char.toNat

/-- Index of the first occurrence of byte `c` (Go `IndexByteString`, with
`none` for `-1`). -/
def indexByte : GoString → Nat → Option Nat
  | [], _ => none
  | b :: s, c => if b = c then some 0 else (indexByte s c).map (· + 1)

/-- Index of the last occurrence of byte `c` (Go `LastIndexByteString`, with
`none` for `-1`). -/
def lastIndexByte : GoString → Nat → Option Nat
  | [], _ => none
  | b :: s, c =>
    match lastIndexByte s c with
    | some i => some (i + 1)
    | none => if b = c then some 0 else none

/-! ## `net/textproto` and `net/http` headers -/

namespace textproto

/-- Go `validHeaderFieldByte`: the RFC 7230 token characters. -/
def validHeaderFieldByte (c : Nat) : Bool :=
  (48 ≤ c ∧ c ≤ 57) || (65 ≤ c ∧ c ≤ 90) || (97 ≤ c ∧ c ≤ 122) ||
    (ascii "!#$%&*+-.^_|~").contains c || c = 39 || c = 96

/-- The canonicalising loop of Go `canonicalMIMEHeaderKey`: upper case for the
first letter and for every letter after a dash, lower case elsewhere. -/
def canonLoop : Bool → GoString → GoString
  | _, [] => []
  | upper, c :: s =>
    let c1 :=
      if upper ∧ 97 ≤ c ∧ c ≤ 122 then c - 32
      else if ¬ upper ∧ 65 ≤ c ∧ c ≤ 90 then c + 32
      else c
    c1 :: canonLoop (c1 = 45) s

/-- Go `textproto.CanonicalMIMEHeaderKey`: a key holding a byte that is not a
token character is returned unchanged. -/
def CanonicalMIMEHeaderKey (s : GoString) : GoString :=
  if s.all validHeaderFieldByte then canonLoop true s else s

end textproto

namespace http

/-- Go `http.Header`, a `map[string][]string`, as an association list. -/
abbrev Header := List (GoString × List GoString)

/-- Go `Header.Get`: the first value stored under the canonical form of `key`,
or the empty string. -/
def Header.Get (h : Header) (key : GoString) : GoString :=
  match h.lookup (textproto.CanonicalMIMEHeaderKey key) with
  | some (v :: _) => v
  | _ => []

/-- Go `Header.Set`: replaces the values stored under the canonical key. -/
def Header.Set (h : Header) (key value : GoString) : Header :=
  let k := textproto.CanonicalMIMEHeaderKey key
  (k, [value]) :: h.filter (fun kv => kv.1 ≠ k)

/-- The fields of Go `url.URL` the program and its router read. -/
structure URL where
  Path : GoString
  RawPath : GoString := []
  RawQuery : GoString := []
  deriving DecidableEq, Repr

/-- The fields of Go `http.Request` the program and its router read. -/
structure Request where
  Method : GoString
  URL : URL
  RequestURI : GoString := []
  Header : Header := []
  RemoteAddr : GoString := []
  deriving DecidableEq, Repr

/-- Go `validMethod` of `net/http`, the test the server applies to the method
of a request line: a non-empty sequence of token characters. -/
def validMethod (method : GoString) : Bool :=
  method ≠ [] ∧ method.all textproto.validHeaderFieldByte

end http

/-! ## `net.SplitHostPort` -/

deriving instance DecidableEq for Except

namespace net

/-- Go `net.SplitHostPort`.  The result is `(host, port)`, or the text of the
`AddrError`. -/
def SplitHostPort (hostport : GoString) : Except String (GoString × GoString) :=
  -- The port starts after the last colon.
  match lastIndexByte hostport 58 with
  | none => .error "missing port in address"
  | some i =>
    if hostport.head? = some 91 then
      -- Expect the first ']' just before the last ':'.
      match indexByte hostport 93 with
      | none => .error "missing ']' in address"
      | some end_ =>
        if end_ + 1 = hostport.length then
          -- There can't be a ':' behind the ']' now.
          .error "missing port in address"
        else if end_ + 1 = i then
          let host := (hostport.take end_).drop 1
          -- there can't be a '[' resp. ']' before positions 1 resp. end+1
          if (indexByte (hostport.drop 1) 91).isSome then
            .error "unexpected '[' in address"
          else if (indexByte (hostport.drop (end_ + 1)) 93).isSome then
            .error "unexpected ']' in address"
          else .ok (host, hostport.drop (i + 1))
        else if (hostport.drop (end_ + 1)).head? = some 58 then
          .error "too many colons in address"
        else .error "missing port in address"
    else
      let host := hostport.take i
      if (indexByte host 58).isSome then .error "too many colons in address"
      else if (indexByte hostport 91).isSome then .error "unexpected '[' in address"
      else if (indexByte hostport 93).isSome then .error "unexpected ']' in address"
      else .ok (host, hostport.drop (i + 1))

end net

/-! ## `getClientIP` (main.go, lines 114-142) -/

/-- Source `getClientIP`. -/
def getClientIP (r : http.Request) : GoString :=
  -- Check X-Forwarded-For
  let ip := r.Header.Get (ascii "X-Forwarded-For")
  if ip ≠ [] then ip
  else
    -- Check X-Real-IP
    let ip := r.Header.Get (ascii "X-Real-IP")
    if ip ≠ [] then ip
    else
      -- Fallback to RemoteAddr
      let ip := r.RemoteAddr
      if ip ≠ [] then
        let host :=
          match net.SplitHostPort ip with
          | .ok (host, _) => host
          | .error _ => ip
        -- Convert IPv6 localhost to IPv4 for consistency
        if host = ascii "::1" ∨ host = ascii "[::1]" then ascii "127.0.0.1"
        else host
      else ascii "unknown"

/-! ### The resolution rule in the words of the specification -/

/-- Loopback normalisation of the specification: `::1` and `[::1]` become
`127.0.0.1`, every other string is kept. -/
def normLoopback (h : GoString) : GoString :=
  if h = ascii "::1" then ascii "127.0.0.1"
  else if h = ascii "[::1]" then ascii "127.0.0.1"
  else h

/-- Host of a remote address in the words of the specification: the host part
when the address parses as host:port, the address itself when it does not. -/
def remoteHost (a : GoString) : GoString :=
  match net.SplitHostPort a with
  | .ok hp => hp.1
  | .error _ => a

/-! ## `float64` arithmetic

Go `float64` is IEEE 754 binary64 and every operation rounds to nearest, ties
to even.  A finite value is kept as sign, mantissa and binary exponent; the
operations below compute the exactly rounded result with integer arithmetic.
The exponent is not bounded: the magnitudes that occur in this program (zero,
or between `2^-30` and `2^34`) are far from the overflow and the subnormal
range, and neither NaN nor an infinity can arise. -/

/-- A finite float64 value `(-1)^neg * m * 2^e`. -/
structure Float64 where
  neg : Bool
  m : Nat
  e : Int
  deriving DecidableEq, Repr

namespace float64

/-- Bit length of `n`, with explicit fuel. -/
def bitLenAux : Nat → Nat → Nat
  | 0, _ => 0
  | fuel + 1, n => if n = 0 then 0 else bitLenAux fuel (n / 2) + 1

/-- Bit length of `n`: the least `k` with `n < 2^k`. -/
def bitLen (n : Nat) : Nat := bitLenAux n n

/-- The integer `k` with `2^k ≤ num/den < 2^(k+1)`, for positive `num`, `den`. -/
def ilog2 (num den : Nat) : Int :=
  let k : Int := (bitLen num : Int) - (bitLen den : Int)
  if den * 2 ^ k.toNat ≤ num * 2 ^ (-k).toNat then k else k - 1

/-- The integer nearest to `num/den`, a tie going to the even neighbour. -/
def roundHalfEven (num den : Nat) : Nat :=
  let q := num / den
  let r := num % den
  if 2 * r < den then q
  else if den < 2 * r then q + 1
  else if q % 2 = 0 then q else q + 1

/-- Rounding of the rational `num/den` (with the given sign) to 53 significant
bits, to nearest, ties to even. -/
def round (neg : Bool) (num den : Nat) : Float64 :=
  if num = 0 then ⟨neg, 0, 0⟩
  else
    let e := ilog2 num den - 52
    ⟨neg, roundHalfEven (num * 2 ^ (-e).toNat) (den * 2 ^ e.toNat), e⟩

/-- Go conversion `float64(i)` of an integer. -/
def ofInt (i : Int) : Float64 := round (decide (i < 0)) i.natAbs 1

/-- Go `a / b` on float64, for a divisor other than zero. -/
def div (a b : Float64) : Float64 :=
  round (a.neg != b.neg) (a.m * 2 ^ (a.e - b.e).toNat) (b.m * 2 ^ (b.e - a.e).toNat)

/-- The integer `k` with the sign of `f`. -/
def signed (f : Float64) (k : Nat) : Int := if f.neg then -(k : Int) else k

/-- Go `a + b` on float64. -/
def add (a b : Float64) : Float64 :=
  let e := min a.e b.e
  let n : Int := signed a (a.m * 2 ^ (a.e - e).toNat) + signed b (b.m * 2 ^ (b.e - e).toNat)
  round (decide (n < 0)) (n.natAbs * 2 ^ e.toNat) (2 ^ (-e).toNat)

/-- Go conversion `int(f)`: the fraction is discarded (truncation toward
zero).  The values of this program are far inside the `int` range. -/
def toInt (f : Float64) : Int :=
  signed f (f.m * 2 ^ f.e.toNat / 2 ^ (-f.e).toNat)

/-- The magnitude `m * 2^e` of a float64 as a rational number. -/
def val (f : Float64) : ℚ := (f.m : ℚ) * (2 : ℚ) ^ f.e

/-- The float64 `f` is a rounding to nearest, ties to even, of the rational
`x ≥ 0`: either both are zero, or `x` scaled by `2^-e` lies in
`[2^52, 2^53)`, the mantissa is an integer nearest to the scaled value, and
it is even when the scaled value is half way between two integers. -/
def IsRounding (x : ℚ) (f : Float64) : Prop :=
  (x = 0 ∧ f.m = 0) ∨
    ((2 : ℚ) ^ (52 : ℕ) ≤ x / (2 : ℚ) ^ f.e ∧ x / (2 : ℚ) ^ f.e < (2 : ℚ) ^ (53 : ℕ) ∧
      |(f.m : ℚ) - x / (2 : ℚ) ^ f.e| ≤ 1 / 2 ∧
      (|(f.m : ℚ) - x / (2 : ℚ) ^ f.e| = 1 / 2 → Even f.m))

end float64

/-! ## `time.Duration` -/

namespace time

/-- Go `time.Second`, in nanoseconds. -/
def Second : Int := 1000000000

/-- The largest Go `time.Duration` (`1<<63 - 1` nanoseconds). -/
def maxDuration : Int := 2 ^ 63 - 1

/-- Go `Duration.Seconds`: `float64(sec) + float64(nsec)/1e9` with
`sec := d / Second` and `nsec := d % Second` (Go integer division truncates
toward zero). -/
def Duration.Seconds (d : Int) : Float64 :=
  let sec := Int.tdiv d Second
  let nsec := Int.tmod d Second
  float64.add (float64.ofInt sec) (float64.div (float64.ofInt nsec) (float64.ofInt 1000000000))

end time

/-! ## `fmt.Sprintf` -/

namespace fmt

/-- The base 10 loop of Go `fmtInteger`: digits are written from the end of
the buffer toward its start. -/
def fmtDigits : Nat → Nat → GoString → GoString
  | 0, _, buf => buf
  | fuel + 1, u, buf =>
    if 10 ≤ u then
      let next := u / 10
      fmtDigits fuel next ((48 + u - next * 10) :: buf)
    else (48 + u) :: buf

/-- Go `fmtInteger` for the verb `%d` without flags: an optional minus sign and
the decimal digits. -/
def fmtInteger (i : Int) : GoString :=
  let buf := fmtDigits (i.natAbs + 1) i.natAbs []
  if i < 0 then 45 :: buf else buf

/-- An operand of `Sprintf`. -/
inductive Arg where
  | int (i : Int)
  | str (s : GoString)
  deriving DecidableEq, Repr

/-- Go `fmt.Sprintf` for formats made of plain bytes and the verbs `%d` (with
an integer operand) and `%s` (with a string operand), the only ones the
program uses.  Go's error texts for a verb without a fitting operand are not
modelled: such a verb is copied through. -/
def Sprintf : GoString → List Arg → GoString
  | [], _ => []
  | [c], _ => [c]
  | c :: v :: rest, args =>
    if c = 37 ∧ v = 100 then
      match args with
      | .int i :: args1 => fmtInteger i ++ Sprintf rest args1
      | _ => c :: Sprintf (v :: rest) args
    else if c = 37 ∧ v = 115 then
      match args with
      | .str s :: args1 => s ++ Sprintf rest args1
      | _ => c :: Sprintf (v :: rest) args
    else c :: Sprintf (v :: rest) args

end fmt

/-! ## `getUptime` (main.go, lines 94-112) -/

/-- Source `getUptime`, as a function of `delta = time.Since(startTime)` in
nanoseconds. -/
def getUptime (delta : Int) : Int × GoString :=
  let totalSeconds := float64.toInt (time.Duration.Seconds delta)
  let hours := Int.tdiv totalSeconds 3600
  let minutes := Int.tdiv (Int.tmod totalSeconds 3600) 60
  let hoursStr := if hours = 1 then ascii "hour" else ascii "hours"
  let minutesStr := if minutes = 1 then ascii "minute" else ascii "minutes"
  let human := fmt.Sprintf (ascii "%d %s, %d %s")
    [.int hours, .str hoursStr, .int minutes, .str minutesStr]
  (totalSeconds, human)

/-! ### The human string in the words of the specification -/

/-- Decimal numeral of a natural number as ASCII bytes. -/
def decimal (n : Nat) : GoString :=
  if n = 0 then [48] else ((Nat.digits 10 n).reverse.map (· + 48))

/-- The string `"<H> hour(s), <M> minute(s)"` of the specification for a whole
number of seconds `s`. -/
def humanSpec (s : Nat) : GoString :=
  let H := s / 3600
  let M := (s % 3600) / 60
  decimal H ++ ascii " " ++ (if H = 1 then ascii "hour" else ascii "hours") ++ ascii ", " ++
    decimal M ++ ascii " " ++ (if M = 1 then ascii "minute" else ascii "minutes")

/-! ## `unicode/utf8` -/

namespace utf8

/-- Go `utf8.RuneError`, U+FFFD. -/
def RuneError : Nat := 0xFFFD

/-- Go `utf8.DecodeRuneInString`: the first rune of `s` and its width in
bytes; `(RuneError, 1)` for an invalid encoding and `(RuneError, 0)` for the
empty string.  Masks and shifts of the source are written as remainders and
products. -/
def DecodeRune (s : GoString) : Nat × Nat :=
  match s with
  | [] => (RuneError, 0)
  | s0 :: t =>
    if s0 < 0x80 then (s0, 1)
    else if s0 < 0xC2 ∨ 0xF4 < s0 then (RuneError, 1)
    else
      let sz := if s0 < 0xE0 then 2 else if s0 < 0xF0 then 3 else 4
      let lo := if s0 = 0xE0 then 0xA0 else if s0 = 0xF0 then 0x90 else 0x80
      let hi := if s0 = 0xED then 0x9F else if s0 = 0xF4 then 0x8F else 0xBF
      if s.length < sz then (RuneError, 1)
      else
        match t with
        | [] => (RuneError, 1)
        | s1 :: t1 =>
          if s1 < lo ∨ hi < s1 then (RuneError, 1)
          else if sz ≤ 2 then (s0 % 32 * 64 + s1 % 64, 2)
          else
            match t1 with
            | [] => (RuneError, 1)
            | s2 :: t2 =>
              if s2 < 0x80 ∨ 0xBF < s2 then (RuneError, 1)
              else if sz ≤ 3 then (s0 % 16 * 4096 + s1 % 64 * 64 + s2 % 64, 3)
              else
                match t2 with
                | [] => (RuneError, 1)
                | s3 :: _ =>
                  if s3 < 0x80 ∨ 0xBF < s3 then (RuneError, 1)
                  else (s0 % 8 * 262144 + s1 % 64 * 4096 + s2 % 64 * 64 + s3 % 64, 4)

/-- Go `utf8.EncodeRune` (`utf8.AppendRune`): the UTF-8 bytes of a rune, those
of U+FFFD for a surrogate or a value above U+10FFFF. -/
def EncodeRune (r : Nat) : GoString :=
  if r ≤ 0x7F then [r]
  else if r ≤ 0x7FF then [0xC0 + r / 64, 0x80 + r % 64]
  else if 0x10FFFF < r ∨ (0xD800 ≤ r ∧ r ≤ 0xDFFF) then [0xEF, 0xBF, 0xBD]
  else if r ≤ 0xFFFF then [0xE0 + r / 4096, 0x80 + r / 64 % 64, 0x80 + r % 64]
  else [0xF0 + r / 262144, 0x80 + r / 4096 % 64, 0x80 + r / 64 % 64, 0x80 + r % 64]

/-- Validity loop of Go `utf8.ValidString`, with explicit fuel. -/
def validLoop : Nat → GoString → Bool
  | _, [] => true
  | 0, _ :: _ => false
  | fuel + 1, b :: rest =>
    let d := DecodeRune (b :: rest)
    if d.1 = RuneError ∧ d.2 = 1 then false else validLoop fuel ((b :: rest).drop d.2)

/-- Go `utf8.ValidString`: the string is a sequence of well-formed UTF-8
encodings. -/
def ValidString (s : GoString) : Bool := validLoop s.length s

end utf8

/-! ## `encoding/json`: encoding -/

namespace json

/-- Lower-case hexadecimal digit (Go `hex = "0123456789abcdef"`). -/
def hex (n : Nat) : Nat := if n < 10 then 48 + n else 87 + n

/-- Go `htmlSafeSet`: the ASCII bytes an encoder with HTML escaping (the
default of `json.NewEncoder`) copies unchanged. -/
def htmlSafe (b : Nat) : Bool :=
  0x20 ≤ b ∧ b < 0x80 ∧ b ≠ 34 ∧ b ≠ 92 ∧ b ≠ 60 ∧ b ≠ 62 ∧ b ≠ 38

/-- Escape sequence Go `appendString` writes for an ASCII byte outside
`htmlSafeSet`. -/
def escapeByte (b : Nat) : GoString :=
  if b = 92 ∨ b = 34 then [92, b]
  else if b = 8 then ascii "\\b"
  else if b = 12 then ascii "\\f"
  else if b = 10 then ascii "\\n"
  else if b = 13 then ascii "\\r"
  else if b = 9 then ascii "\\t"
  else ascii "\\u00" ++ [hex (b / 16), hex (b % 16)]

/-- One iteration of the loop of Go `appendString` (HTML escaping on) at the
byte `b` followed by `rest`: the text written and the number of bytes of the
string it stands for.  A safe ASCII byte is copied and any other ASCII byte
escaped; a byte that does not start a well-formed UTF-8 encoding is written
as `\ufffd`; U+2028 and U+2029 are escaped; any other rune is copied. -/
def appendStep (b : Nat) (rest : GoString) : GoString × Nat :=
  if b < 0x80 then
    if htmlSafe b then ([b], 1) else (escapeByte b, 1)
  else
    let d := utf8.DecodeRune (b :: rest)
    if d.1 = utf8.RuneError ∧ d.2 = 1 then (ascii "\\ufffd", 1)
    else if d.1 = 0x2028 ∨ d.1 = 0x2029 then (ascii "\\u202" ++ [hex (d.1 % 16)], d.2)
    else ((b :: rest).take d.2, d.2)

/-- The loop of Go `appendString`, with explicit fuel: the text between the
quotes. -/
def appendStringLoop : Nat → GoString → GoString
  | _, [] => []
  | 0, _ :: _ => []
  | fuel + 1, b :: rest =>
    (appendStep b rest).1 ++ appendStringLoop fuel ((b :: rest).drop (appendStep b rest).2)

/-- The bytes that stand for the first rune of `b :: rest` once invalid bytes
are replaced, and the number of bytes they stand for: the encoding of U+FFFD
for a byte that does not start a well-formed encoding, the bytes of the rune
otherwise. -/
def replaceStep (b : Nat) (rest : GoString) : GoString × Nat :=
  let d := utf8.DecodeRune (b :: rest)
  if d.1 = utf8.RuneError ∧ d.2 = 1 then ([0xEF, 0xBF, 0xBD], 1)
  else ((b :: rest).take d.2, d.2)

/-- The string in which every byte that is not part of a well-formed UTF-8
encoding is replaced by the encoding of U+FFFD (with explicit fuel): what
the encoder's replacement of such bytes by `\ufffd` stands for. -/
def replaceInvalidLoop : Nat → GoString → GoString
  | _, [] => []
  | 0, _ :: _ => []
  | fuel + 1, b :: rest =>
    (replaceStep b rest).1 ++ replaceInvalidLoop fuel ((b :: rest).drop (replaceStep b rest).2)

/-- The string with every invalid byte replaced by U+FFFD. -/
def replaceInvalid (s : GoString) : GoString := replaceInvalidLoop s.length s

/-- Go `appendString`: a string as a JSON string literal. -/
def appendString (s : GoString) : GoString :=
  [34] ++ appendStringLoop s.length s ++ [34]

/-- Go encoder for `int` fields (`strconv.AppendInt`, base 10). -/
def appendInt (i : Int) : GoString := fmt.fmtInteger i

/-- Members of a JSON object joined by commas. -/
def joinMembers : List (String × GoString) → GoString
  | [] => []
  | [(k, v)] => [34] ++ ascii k ++ [34, 58] ++ v
  | (k, v) :: ms => [34] ++ ascii k ++ [34, 58] ++ v ++ [44] ++ joinMembers ms

/-- Go struct encoder: the fields in declaration order under their `json`
tag names. -/
def encodeStruct (fields : List (String × GoString)) : GoString :=
  [123] ++ joinMembers fields ++ [125]

/-- Elements of a JSON array joined by commas. -/
def joinElems : List GoString → GoString
  | [] => []
  | [v] => v
  | v :: vs => v ++ [44] ++ joinElems vs

/-- Go slice encoder for a non-nil slice. -/
def encodeArray (elems : List GoString) : GoString :=
  [91] ++ joinElems elems ++ [93]

end json

/-! ## The response types of the program (main.go, lines 14-75) -/

/-- Source `ErrorResponse`. -/
structure ErrorResponse where
  Error : GoString
  Message : GoString
  deriving DecidableEq, Repr

/-- Source `Service`. -/
structure Service where
  Name : GoString
  Version : GoString
  Description : GoString
  Framework : GoString
  deriving DecidableEq, Repr

/-- Source `System`. -/
structure System where
  Hostname : GoString
  Platform : GoString
  PlatformVersion : GoString
  Architecture : GoString
  CPUCount : Int
  GoVersion : GoString
  deriving DecidableEq, Repr

/-- Source `Runtime`. -/
structure Runtime where
  UptimeSeconds : Int
  UptimeHuman : GoString
  CurrentTime : GoString
  Timezone : GoString
  deriving DecidableEq, Repr

/-- Source `Request`. -/
structure Request where
  ClientIP : GoString
  UserAgent : GoString
  Method : GoString
  Path : GoString
  deriving DecidableEq, Repr

/-- Source `Endpoint`. -/
structure Endpoint where
  Path : GoString
  Method : GoString
  Description : GoString
  deriving DecidableEq, Repr

/-- Source `ServiceInfo`.  The slice `Endpoints` is a list; the nil slice is
not distinguished from the empty one. -/
structure ServiceInfo where
  Service : Service
  System : System
  Runtime : Runtime
  Request : Request
  Endpoints : List Endpoint
  deriving DecidableEq, Repr

/-- Source `HealthResponse`. -/
structure HealthResponse where
  Status : GoString
  Timestamp : GoString
  UptimeSeconds : Int
  deriving DecidableEq, Repr

namespace json

/-- JSON text of an `ErrorResponse`. -/
def encodeErrorResponse (x : ErrorResponse) : GoString :=
  encodeStruct [("error", appendString x.Error), ("message", appendString x.Message)]

/-- JSON text of a `Service`. -/
def encodeService (x : Service) : GoString :=
  encodeStruct [("name", appendString x.Name), ("version", appendString x.Version),
    ("description", appendString x.Description), ("framework", appendString x.Framework)]

/-- JSON text of a `System`. -/
def encodeSystem (x : System) : GoString :=
  encodeStruct [("hostname", appendString x.Hostname), ("platform", appendString x.Platform),
    ("platform_version", appendString x.PlatformVersion),
    ("architecture", appendString x.Architecture), ("cpu_count", appendInt x.CPUCount),
    ("go_version", appendString x.GoVersion)]

/-- JSON text of a `Runtime`. -/
def encodeRuntime (x : Runtime) : GoString :=
  encodeStruct [("uptime_seconds", appendInt x.UptimeSeconds),
    ("uptime_human", appendString x.UptimeHuman), ("current_time", appendString x.CurrentTime),
    ("timezone", appendString x.Timezone)]

/-- JSON text of a `Request`. -/
def encodeRequest (x : Request) : GoString :=
  encodeStruct [("client_ip", appendString x.ClientIP), ("user_agent", appendString x.UserAgent),
    ("method", appendString x.Method), ("path", appendString x.Path)]

/-- JSON text of an `Endpoint`. -/
def encodeEndpoint (x : Endpoint) : GoString :=
  encodeStruct [("path", appendString x.Path), ("method", appendString x.Method),
    ("description", appendString x.Description)]

/-- JSON text of a `ServiceInfo`. -/
def encodeServiceInfo (x : ServiceInfo) : GoString :=
  encodeStruct [("service", encodeService x.Service), ("system", encodeSystem x.System),
    ("runtime", encodeRuntime x.Runtime), ("request", encodeRequest x.Request),
    ("endpoints", encodeArray (x.Endpoints.map encodeEndpoint))]

/-- JSON text of a `HealthResponse`. -/
def encodeHealthResponse (x : HealthResponse) : GoString :=
  encodeStruct [("status", appendString x.Status), ("timestamp", appendString x.Timestamp),
    ("uptime_seconds", appendInt x.UptimeSeconds)]

end json

/-! ## `encoding/json`: decoding -/

namespace json

/-- A parsed JSON value; a number keeps its literal. -/
inductive Value where
  | null
  | bool (b : Bool)
  | number (lit : GoString)
  | string (s : GoString)
  | array (elems : List Value)
  | object (members : List (GoString × Value))
  deriving Repr

/-- Skips JSON white space (space, tab, carriage return, line feed). -/
def skipWS : GoString → GoString
  | [] => []
  | c :: s => if c = 32 ∨ c = 9 ∨ c = 13 ∨ c = 10 then skipWS s else c :: s

/-- Value of a hexadecimal digit. -/
def hexVal (c : Nat) : Option Nat :=
  if 48 ≤ c ∧ c ≤ 57 then some (c - 48)
  else if 97 ≤ c ∧ c ≤ 102 then some (c - 87)
  else if 65 ≤ c ∧ c ≤ 70 then some (c - 55)
  else none

/-- Go `getu4`: the code unit of a leading `\uXXXX`, if the text starts with
one. -/
def getu4 (s : GoString) : Option Nat :=
  match s with
  | 92 :: 117 :: a :: b :: c :: d :: _ =>
    match hexVal a, hexVal b, hexVal c, hexVal d with
    | some x, some y, some z, some w => some (x * 4096 + y * 256 + z * 16 + w)
    | _, _, _, _ => none
  | _ => none

/-- Go `utf16.DecodeRune`: the rune of a surrogate pair, U+FFFD if the two
code units are not one. -/
def utf16DecodeRune (r1 r2 : Nat) : Nat :=
  if 0xD800 ≤ r1 ∧ r1 < 0xDC00 ∧ 0xDC00 ≤ r2 ∧ r2 < 0xE000 then
    (r1 - 0xD800) * 1024 + (r2 - 0xDC00) + 0x10000
  else utf8.RuneError

/-- Puts decoded bytes in front of the result of the rest of a string
literal. -/
def consBytes (bs : GoString) (r : Option (GoString × GoString)) :
    Option (GoString × GoString) :=
  r.map (fun p => (bs ++ p.1, p.2))

/-- One step of Go `unquoteBytes` at a byte `c` other than the closing quote,
`rest` being the text after `c`: the decoded bytes and the text after what was
read.  An escape is decoded (a `\u` escape that is half of a surrogate pair
without its other half becomes U+FFFD); a raw byte sequence that is not
well-formed UTF-8 becomes U+FFFD; `none` stands for a control byte or a
malformed escape, which the scanner rejects. -/
def unquoteStep (c : Nat) (rest : GoString) : Option (GoString × GoString) :=
  if c = 92 then
    match rest with
    | [] => none
    | e :: rest1 =>
      if e = 34 ∨ e = 92 ∨ e = 47 then some ([e], rest1)
      else if e = 98 then some ([8], rest1)
      else if e = 102 then some ([12], rest1)
      else if e = 110 then some ([10], rest1)
      else if e = 114 then some ([13], rest1)
      else if e = 116 then some ([9], rest1)
      else if e = 117 then
        match getu4 (c :: rest) with
        | none => none
        | some rr =>
          let rest2 := rest1.drop 4
          if 0xD800 ≤ rr ∧ rr < 0xE000 then
            match getu4 rest2 with
            | some rr1 =>
              if utf16DecodeRune rr rr1 ≠ utf8.RuneError then
                some (utf8.EncodeRune (utf16DecodeRune rr rr1), rest2.drop 6)
              else some (utf8.EncodeRune utf8.RuneError, rest2)
            | none => some (utf8.EncodeRune utf8.RuneError, rest2)
          else some (utf8.EncodeRune rr, rest2)
      else none
  else if c < 0x20 then none
  else if c < 0x80 then some ([c], rest)
  else
    let d := utf8.DecodeRune (c :: rest)
    some (utf8.EncodeRune d.1, (c :: rest).drop d.2)

/-- A JSON string literal after its opening quote: the scanner's acceptance
and Go `unquoteBytes` in one pass.  The result is the decoded string and the
text after the closing quote. -/
def unquote : Nat → GoString → Option (GoString × GoString)
  | _, [] => none
  | 0, _ :: _ => none
  | fuel + 1, c :: rest =>
    if c = 34 then some ([], rest)
    else
      match unquoteStep c rest with
      | none => none
      | some (bs, rest1) => consBytes bs (unquote fuel rest1)

/-- Decimal digit test. -/
def isDigit (c : Nat) : Bool := 48 ≤ c ∧ c ≤ 57

/-- Optional exponent of a JSON number: the literal read so far and the text
still to read. -/
def scanExp (lit s : GoString) : Option (GoString × GoString) :=
  match s with
  | c :: t =>
    if c = 101 ∨ c = 69 then
      let sign := match t with
        | x :: _ => if x = 43 ∨ x = 45 then [x] else []
        | [] => []
      let t1 := t.drop sign.length
      let ds := t1.takeWhile isDigit
      if ds = [] then none else some (lit ++ [c] ++ sign ++ ds, t1.dropWhile isDigit)
    else some (lit, s)
  | [] => some (lit, s)

/-- Optional fraction of a JSON number, followed by the optional exponent. -/
def scanFrac (lit s : GoString) : Option (GoString × GoString) :=
  match s with
  | 46 :: t =>
    let ds := t.takeWhile isDigit
    if ds = [] then none else scanExp (lit ++ [46] ++ ds) (t.dropWhile isDigit)
  | _ => scanExp lit s

/-- A JSON number literal at the start of the text: the literal and the text
after it. -/
def scanNumber (s : GoString) : Option (GoString × GoString) :=
  let sign : GoString := if s.head? = some 45 then [45] else []
  match s.drop sign.length with
  | [] => none
  | c :: t =>
    if c = 48 then scanFrac (sign ++ [48]) t
    else if 49 ≤ c ∧ c ≤ 57 then
      scanFrac (sign ++ c :: t.takeWhile isDigit) (t.dropWhile isDigit)
    else none

mutual
/-- One JSON value at the start of the text (after white space) and the text
after it. -/
def parseValue : Nat → GoString → Option (Value × GoString)
  | 0, _ => none
  | fuel + 1, s =>
    match skipWS s with
    | [] => none
    | c :: rest =>
      if c = 123 then
        match skipWS rest with
        | 125 :: rest1 => some (.object [], rest1)
        | _ => (parseMembers fuel rest).map (fun p => (.object p.1, p.2))
      else if c = 91 then
        match skipWS rest with
        | 93 :: rest1 => some (.array [], rest1)
        | _ => (parseElems fuel rest).map (fun p => (.array p.1, p.2))
      else if c = 34 then (unquote rest.length rest).map (fun p => (.string p.1, p.2))
      else if c = 116 then
        if rest.take 3 = ascii "rue" then some (.bool true, rest.drop 3) else none
      else if c = 102 then
        if rest.take 4 = ascii "alse" then some (.bool false, rest.drop 4) else none
      else if c = 110 then
        if rest.take 3 = ascii "ull" then some (.null, rest.drop 3) else none
      else (scanNumber (c :: rest)).map (fun p => (.number p.1, p.2))
/-- The members of an object after its opening brace, up to and including the
closing brace. -/
def parseMembers : Nat → GoString → Option (List (GoString × Value) × GoString)
  | 0, _ => none
  | fuel + 1, s =>
    match skipWS s with
    | 34 :: rest =>
      match unquote rest.length rest with
      | none => none
      | some (key, rest1) =>
        match skipWS rest1 with
        | 58 :: rest2 =>
          match parseValue fuel rest2 with
          | none => none
          | some (v, rest3) =>
            match skipWS rest3 with
            | 44 :: rest4 => (parseMembers fuel rest4).map (fun p => ((key, v) :: p.1, p.2))
            | 125 :: rest4 => some ([(key, v)], rest4)
            | _ => none
        | _ => none
    | _ => none
/-- The elements of an array after its opening bracket, up to and including
the closing bracket. -/
def parseElems : Nat → GoString → Option (List Value × GoString)
  | 0, _ => none
  | fuel + 1, s =>
    match parseValue fuel s with
    | none => none
    | some (v, rest) =>
      match skipWS rest with
      | 44 :: rest1 => (parseElems fuel rest1).map (fun p => (v :: p.1, p.2))
      | 93 :: rest1 => some ([v], rest1)
      | _ => none
end

/-- The text after a value inside an encoded document starts with a comma,
a closing brace, a closing bracket or the final line feed. -/
def Delim (rest : GoString) : Prop :=
  rest.head? = some 44 ∨ rest.head? = some 125 ∨ rest.head? = some 93 ∨ rest.head? = some 10

/-- The text `enc` is read as the value `v`: with fuel for its length and
whatever delimited text follows it, the parser returns `v` and that text. -/
def ParsesTo (enc : GoString) (v : Value) : Prop :=
  ∀ (fuel : Nat) (rest : GoString), enc.length ≤ fuel → Delim rest →
    parseValue fuel (enc ++ rest) = some (v, rest)

/-- A whole JSON document (Go `checkValid` and the value it holds): one value
with white space around it. -/
def parseDocument (data : GoString) : Option Value :=
  match parseValue (data.length + 1) data with
  | some (v, rest) => if skipWS rest = [] then some v else none
  | none => none

/-- Go `foldName`: the key under which field names are compared without
regard to case.  ASCII letters go to upper case; the two non-ASCII runes that
fold to an ASCII letter (U+017F to `S`, U+212A to `K`) go to that letter. -/
def foldName : GoString → GoString
  | [] => []
  | 0xC5 :: 0xBF :: s => 83 :: foldName s
  | 0xE2 :: 0x84 :: 0xAA :: s => 75 :: foldName s
  | c :: s => (if 97 ≤ c ∧ c ≤ 122 then c - 32 else c) :: foldName s

/-- Whether an object key selects the field with the given `json` tag. -/
def keyIs (key : GoString) (name : String) : Bool :=
  foldName key = foldName (ascii name)

/-- Value of a string of decimal digits. -/
def digitsVal (ds : GoString) : Nat := ds.foldl (fun acc c => acc * 10 + (c - 48)) 0

/-- Go `strconv.ParseInt(lit, 10, 64)` on a JSON number literal: an integer
literal inside the int64 range. -/
def parseInt64 (lit : GoString) : Option Int :=
  match lit with
  | 45 :: ds =>
    if ds ≠ [] ∧ ds.all isDigit ∧ digitsVal ds ≤ 2 ^ 63 then some (-(digitsVal ds : Int))
    else none
  | ds =>
    if ds ≠ [] ∧ ds.all isDigit ∧ digitsVal ds < 2 ^ 63 then some (digitsVal ds : Int)
    else none

/-- Decoding into a `string` field: JSON null leaves the field as it is, any
other non-string value is an error. -/
def decodeString (v : Value) (old : GoString) : Option GoString :=
  match v with
  | .string s => some s
  | .null => some old
  | _ => none

/-- Decoding into an `int` field. -/
def decodeInt (v : Value) (old : Int) : Option Int :=
  match v with
  | .number lit => parseInt64 lit
  | .null => some old
  | _ => none

/-- Decoding of an object into a struct: the members are applied in order,
each to the field its key selects. -/
def decodeMembers {T : Type} (step : GoString → Value → T → Option T) :
    List (GoString × Value) → T → Option T
  | [], t => some t
  | (k, v) :: ms, t =>
    match step k v t with
    | some t1 => decodeMembers step ms t1
    | none => none

/-- Decoding into a struct: an object is applied member by member, JSON null
leaves the struct as it is. -/
def decodeStruct {T : Type} (step : GoString → Value → T → Option T) (v : Value) (old : T) :
    Option T :=
  match v with
  | .object ms => decodeMembers step ms old
  | .null => some old
  | _ => none

/-- Field selection for `ErrorResponse`; an unknown key is skipped. -/
def stepErrorResponse (k : GoString) (v : Value) (t : ErrorResponse) : Option ErrorResponse :=
  if keyIs k "error" then (decodeString v t.Error).map (fun x => { t with Error := x })
  else if keyIs k "message" then (decodeString v t.Message).map (fun x => { t with Message := x })
  else some t

/-- Field selection for `Service`. -/
def stepService (k : GoString) (v : Value) (t : Service) : Option Service :=
  if keyIs k "name" then (decodeString v t.Name).map (fun x => { t with Name := x })
  else if keyIs k "version" then (decodeString v t.Version).map (fun x => { t with Version := x })
  else if keyIs k "description" then
    (decodeString v t.Description).map (fun x => { t with Description := x })
  else if keyIs k "framework" then
    (decodeString v t.Framework).map (fun x => { t with Framework := x })
  else some t

/-- Field selection for `System`. -/
def stepSystem (k : GoString) (v : Value) (t : System) : Option System :=
  if keyIs k "hostname" then (decodeString v t.Hostname).map (fun x => { t with Hostname := x })
  else if keyIs k "platform" then
    (decodeString v t.Platform).map (fun x => { t with Platform := x })
  else if keyIs k "platform_version" then
    (decodeString v t.PlatformVersion).map (fun x => { t with PlatformVersion := x })
  else if keyIs k "architecture" then
    (decodeString v t.Architecture).map (fun x => { t with Architecture := x })
  else if keyIs k "cpu_count" then (decodeInt v t.CPUCount).map (fun x => { t with CPUCount := x })
  else if keyIs k "go_version" then
    (decodeString v t.GoVersion).map (fun x => { t with GoVersion := x })
  else some t

/-- Field selection for `Runtime`. -/
def stepRuntime (k : GoString) (v : Value) (t : Runtime) : Option Runtime :=
  if keyIs k "uptime_seconds" then
    (decodeInt v t.UptimeSeconds).map (fun x => { t with UptimeSeconds := x })
  else if keyIs k "uptime_human" then
    (decodeString v t.UptimeHuman).map (fun x => { t with UptimeHuman := x })
  else if keyIs k "current_time" then
    (decodeString v t.CurrentTime).map (fun x => { t with CurrentTime := x })
  else if keyIs k "timezone" then
    (decodeString v t.Timezone).map (fun x => { t with Timezone := x })
  else some t

/-- Field selection for `Request`. -/
def stepRequest (k : GoString) (v : Value) (t : Request) : Option Request :=
  if keyIs k "client_ip" then (decodeString v t.ClientIP).map (fun x => { t with ClientIP := x })
  else if keyIs k "user_agent" then
    (decodeString v t.UserAgent).map (fun x => { t with UserAgent := x })
  else if keyIs k "method" then (decodeString v t.Method).map (fun x => { t with Method := x })
  else if keyIs k "path" then (decodeString v t.Path).map (fun x => { t with Path := x })
  else some t

/-- Field selection for `Endpoint`. -/
def stepEndpoint (k : GoString) (v : Value) (t : Endpoint) : Option Endpoint :=
  if keyIs k "path" then (decodeString v t.Path).map (fun x => { t with Path := x })
  else if keyIs k "method" then (decodeString v t.Method).map (fun x => { t with Method := x })
  else if keyIs k "description" then
    (decodeString v t.Description).map (fun x => { t with Description := x })
  else some t

/-- The zero value of `Endpoint`. -/
def zeroEndpoint : Endpoint := ⟨[], [], []⟩

/-- Decoding of the elements of an array into a slice of `Endpoint`: element
`i` is decoded into the element the slice already has at `i`, or into a zero
value. -/
def decodeEndpointElems : List Value → List Endpoint → Option (List Endpoint)
  | [], _ => some []
  | v :: vs, old =>
    match decodeStruct stepEndpoint v (old.headD zeroEndpoint) with
    | none => none
    | some e => (decodeEndpointElems vs old.tail).map (fun es => e :: es)

/-- Decoding into a `[]Endpoint` field: JSON null gives the nil slice. -/
def decodeEndpoints (v : Value) (old : List Endpoint) : Option (List Endpoint) :=
  match v with
  | .array vs => decodeEndpointElems vs old
  | .null => some []
  | _ => none

/-- Field selection for `ServiceInfo`. -/
def stepServiceInfo (k : GoString) (v : Value) (t : ServiceInfo) : Option ServiceInfo :=
  if keyIs k "service" then
    (decodeStruct stepService v t.Service).map (fun x => { t with Service := x })
  else if keyIs k "system" then
    (decodeStruct stepSystem v t.System).map (fun x => { t with System := x })
  else if keyIs k "runtime" then
    (decodeStruct stepRuntime v t.Runtime).map (fun x => { t with Runtime := x })
  else if keyIs k "request" then
    (decodeStruct stepRequest v t.Request).map (fun x => { t with Request := x })
  else if keyIs k "endpoints" then
    (decodeEndpoints v t.Endpoints).map (fun x => { t with Endpoints := x })
  else some t

/-- Field selection for `HealthResponse`. -/
def stepHealthResponse (k : GoString) (v : Value) (t : HealthResponse) :
    Option HealthResponse :=
  if keyIs k "status" then (decodeString v t.Status).map (fun x => { t with Status := x })
  else if keyIs k "timestamp" then
    (decodeString v t.Timestamp).map (fun x => { t with Timestamp := x })
  else if keyIs k "uptime_seconds" then
    (decodeInt v t.UptimeSeconds).map (fun x => { t with UptimeSeconds := x })
  else some t

/-- Go `json.Unmarshal(data, &v)` for a struct `v`: the data must be one valid
JSON document; `none` stands for a returned error. -/
def Unmarshal {T : Type} (step : GoString → Value → T → Option T) (data : GoString) (v : T) :
    Option T :=
  match parseDocument data with
  | some val => decodeStruct step val v
  | none => none


/-- The `ErrorResponse` with the invalid bytes of its strings replaced. -/
def coerceErrorResponse (x : ErrorResponse) : ErrorResponse :=
  ⟨replaceInvalid x.Error, replaceInvalid x.Message⟩

/-- The `Service` with the invalid bytes of its strings replaced. -/
def coerceService (x : Service) : Service :=
  ⟨replaceInvalid x.Name, replaceInvalid x.Version, replaceInvalid x.Description,
    replaceInvalid x.Framework⟩

/-- The `System` with the invalid bytes of its strings replaced. -/
def coerceSystem (x : System) : System :=
  ⟨replaceInvalid x.Hostname, replaceInvalid x.Platform, replaceInvalid x.PlatformVersion,
    replaceInvalid x.Architecture, x.CPUCount, replaceInvalid x.GoVersion⟩

/-- The `Runtime` with the invalid bytes of its strings replaced. -/
def coerceRuntime (x : Runtime) : Runtime :=
  ⟨x.UptimeSeconds, replaceInvalid x.UptimeHuman, replaceInvalid x.CurrentTime,
    replaceInvalid x.Timezone⟩

/-- The `Request` with the invalid bytes of its strings replaced. -/
def coerceRequest (x : Request) : Request :=
  ⟨replaceInvalid x.ClientIP, replaceInvalid x.UserAgent, replaceInvalid x.Method,
    replaceInvalid x.Path⟩

/-- The `Endpoint` with the invalid bytes of its strings replaced. -/
def coerceEndpoint (x : Endpoint) : Endpoint :=
  ⟨replaceInvalid x.Path, replaceInvalid x.Method, replaceInvalid x.Description⟩

/-- The `ServiceInfo` with the invalid bytes of its strings replaced. -/
def coerceServiceInfo (x : ServiceInfo) : ServiceInfo :=
  ⟨coerceService x.Service, coerceSystem x.System, coerceRuntime x.Runtime,
    coerceRequest x.Request, x.Endpoints.map coerceEndpoint⟩

/-- The `HealthResponse` with the invalid bytes of its strings replaced. -/
def coerceHealthResponse (x : HealthResponse) : HealthResponse :=
  ⟨replaceInvalid x.Status, replaceInvalid x.Timestamp, x.UptimeSeconds⟩

/-- The JSON value the text of an `Endpoint` is read as. -/
def valueOfEndpoint (x : Endpoint) : Value :=
  .object [(ascii "path", .string (replaceInvalid x.Path)),
    (ascii "method", .string (replaceInvalid x.Method)),
    (ascii "description", .string (replaceInvalid x.Description))]

/-- A Go `int` (64 bits). -/
def IsInt64 (i : Int) : Prop := -(2 : Int) ^ 63 ≤ i ∧ i < (2 : Int) ^ 63

end json

/-- Every string of the `ServiceInfo` is well-formed UTF-8. -/
def ServiceInfo.ValidStrings (x : ServiceInfo) : Prop :=
  utf8.ValidString x.Service.Name = true ∧ utf8.ValidString x.Service.Version = true ∧
  utf8.ValidString x.Service.Description = true ∧ utf8.ValidString x.Service.Framework = true ∧
  utf8.ValidString x.System.Hostname = true ∧ utf8.ValidString x.System.Platform = true ∧
  utf8.ValidString x.System.PlatformVersion = true ∧
  utf8.ValidString x.System.Architecture = true ∧ utf8.ValidString x.System.GoVersion = true ∧
  utf8.ValidString x.Runtime.UptimeHuman = true ∧ utf8.ValidString x.Runtime.CurrentTime = true ∧
  utf8.ValidString x.Runtime.Timezone = true ∧
  utf8.ValidString x.Request.ClientIP = true ∧ utf8.ValidString x.Request.UserAgent = true ∧
  utf8.ValidString x.Request.Method = true ∧ utf8.ValidString x.Request.Path = true ∧
  ∀ e ∈ x.Endpoints, utf8.ValidString e.Path = true ∧ utf8.ValidString e.Method = true ∧
    utf8.ValidString e.Description = true

/-- The zero value of `ServiceInfo` (`var info ServiceInfo`). -/
def zeroServiceInfo : ServiceInfo :=
  ⟨⟨[], [], [], []⟩, ⟨[], [], [], [], 0, []⟩, ⟨0, [], [], []⟩, ⟨[], [], [], []⟩, []⟩

/-- The zero value of `HealthResponse`. -/
def zeroHealthResponse : HealthResponse := ⟨[], [], 0⟩

/-- The zero value of `ErrorResponse`. -/
def zeroErrorResponse : ErrorResponse := ⟨[], []⟩

/-! ## The response writer and the process environment -/

namespace http

/-- An `http.ResponseWriter` that records what the handler does (the behaviour
of the server's writer and of `httptest.ResponseRecorder`): the live header
map, the status line once it is written together with the headers sent with
it, and the body.  Writes do not fail. -/
structure ResponseWriter where
  header : Header := []
  written : Option (Nat × Header) := none
  body : GoString := []
  deriving DecidableEq, Repr

/-- Go `w.Header().Set(key, value)`. -/
def ResponseWriter.SetHeader (w : ResponseWriter) (key value : GoString) : ResponseWriter :=
  { w with header := w.header.Set key value }

/-- Go `w.WriteHeader(code)`: only the first call counts. -/
def ResponseWriter.WriteHeader (w : ResponseWriter) (code : Nat) : ResponseWriter :=
  match w.written with
  | some _ => w
  | none => { w with written := some (code, w.header) }

/-- Go `w.Write(b)`: writes the header with status 200 first if none is
written yet. -/
def ResponseWriter.Write (w : ResponseWriter) (b : GoString) : ResponseWriter :=
  let w1 := w.WriteHeader 200
  { w1 with body := w1.body ++ b }

/-- Status code of the response the client receives. -/
def ResponseWriter.Code (w : ResponseWriter) : Nat :=
  match w.written with
  | some (code, _) => code
  | none => 200

/-- Headers of the response the client receives. -/
def ResponseWriter.SentHeader (w : ResponseWriter) : Header :=
  match w.written with
  | some (_, h) => h
  | none => w.header

/-- Go `http.Error`: resets the content type to plain text, writes the status
and the message followed by a line feed. -/
def Error (w : ResponseWriter) (error : GoString) (code : Nat) : ResponseWriter :=
  let w := { w with header := w.header.filter (fun kv => kv.1 ≠ ascii "Content-Length") }
  let w := w.SetHeader (ascii "Content-Type") (ascii "text/plain; charset=utf-8")
  let w := w.SetHeader (ascii "X-Content-Type-Options") (ascii "nosniff")
  let w := w.WriteHeader code
  w.Write (error ++ [10])

end http

namespace json

/-- Go `json.NewEncoder(w).Encode(v)`, given the outcome of marshalling `v`:
the JSON text followed by a line feed is written to `w`; the second component
is the returned error. -/
def Encode (w : http.ResponseWriter) (marshalled : Except String GoString) :
    http.ResponseWriter × Option String :=
  match marshalled with
  | .ok b => (w.Write (b ++ [10]), none)
  | .error e => (w, some e)

end json

/-- What the process reads from its surroundings while it serves one request. -/
structure Env where
  /-- Go `time.Since(startTime)` in nanoseconds, as read by `getUptime`. -/
  delta : Int
  /-- Go `time.Now().UTC().Format(time.RFC3339)`. -/
  now : GoString
  /-- Go `os.Hostname()`, empty when it fails. -/
  hostname : GoString
  /-- Go `runtime.GOOS`. -/
  GOOS : GoString
  /-- Go `runtime.GOARCH`. -/
  GOARCH : GoString
  /-- Go `runtime.NumCPU()`. -/
  NumCPU : Int
  /-- Go `runtime.Version()`. -/
  Version : GoString
  deriving DecidableEq, Repr

/-- The ranges the Go types give the numbers of the environment: the elapsed
time is a non-negative `time.Duration` (the start time carries a monotonic
clock reading) and the CPU count is an `int`. -/
def Env.WellFormed (env : Env) : Prop :=
  0 ≤ env.delta ∧ env.delta ≤ time.maxDuration ∧ json.IsInt64 env.NumCPU

/-- Every string `mainHandler` reads from the request is well-formed UTF-8. -/
def http.Request.ValidStrings (r : http.Request) : Prop :=
  utf8.ValidString (r.Header.Get (ascii "X-Forwarded-For")) = true ∧
  utf8.ValidString (r.Header.Get (ascii "X-Real-IP")) = true ∧
  utf8.ValidString (r.Header.Get (ascii "User-Agent")) = true ∧
  utf8.ValidString r.RemoteAddr = true ∧
  utf8.ValidString r.Method = true ∧
  utf8.ValidString r.URL.Path = true

/-- Every string read from the environment is well-formed UTF-8. -/
def Env.ValidStrings (env : Env) : Prop :=
  utf8.ValidString env.now = true ∧ utf8.ValidString env.hostname = true ∧
  utf8.ValidString env.GOOS = true ∧ utf8.ValidString env.GOARCH = true ∧
  utf8.ValidString env.Version = true

/-! ## The handlers (main.go, lines 79-220) -/

/-- Source `getSystemInfo`. -/
def getSystemInfo (env : Env) : System :=
  { Hostname := env.hostname
    Platform := env.GOOS
    PlatformVersion := env.GOOS ++ ascii " " ++ env.GOARCH
    Architecture := env.GOARCH
    CPUCount := env.NumCPU
    GoVersion := env.Version }

/-- Source `notFoundHandler`. -/
def notFoundHandler (w : http.ResponseWriter) (_r : http.Request) : http.ResponseWriter :=
  let w := w.SetHeader (ascii "Content-Type") (ascii "application/json")
  let w := w.WriteHeader 404
  let response : ErrorResponse :=
    { Error := ascii "Not Found", Message := ascii "Endpoint does not exist" }
  match json.Encode w (.ok (json.encodeErrorResponse response)) with
  | (w, some _) => http.Error w (ascii "Internal Server Error") 500
  | (w, none) => w

/-- The `ServiceInfo` value `mainHandler` builds. -/
def mainInfo (env : Env) (r : http.Request) : ServiceInfo :=
  let uptime := getUptime env.delta
  let userAgent := r.Header.Get (ascii "User-Agent")
  let userAgent := if userAgent = [] then ascii "unknown" else userAgent
  { Service :=
      { Name := ascii "devops-info-service"
        Version := ascii "1.0.0"
        Description := ascii "DevOps course info service"
        Framework := ascii "Go" }
    System := getSystemInfo env
    Runtime :=
      { UptimeSeconds := uptime.1
        UptimeHuman := uptime.2
        CurrentTime := env.now
        Timezone := ascii "UTC" }
    Request :=
      { ClientIP := getClientIP r
        UserAgent := userAgent
        Method := r.Method
        Path := r.URL.Path }
    Endpoints :=
      [ { Path := ascii "/", Method := ascii "GET", Description := ascii "Service information" },
        { Path := ascii "/health", Method := ascii "GET", Description := ascii "Health check" } ] }

/-- Source `mainHandler`. -/
def mainHandler (env : Env) (w : http.ResponseWriter) (r : http.Request) : http.ResponseWriter :=
  let info := mainInfo env r
  let w := w.SetHeader (ascii "Content-Type") (ascii "application/json")
  match json.Encode w (.ok (json.encodeServiceInfo info)) with
  | (w, some _) => http.Error w (ascii "Internal Server Error") 500
  | (w, none) => w

/-- The `HealthResponse` value `healthHandler` builds. -/
def healthInfo (env : Env) : HealthResponse :=
  { Status := ascii "healthy"
    Timestamp := env.now
    UptimeSeconds := (getUptime env.delta).1 }

/-- Source `healthHandler`. -/
def healthHandler (env : Env) (w : http.ResponseWriter) (_r : http.Request) :
    http.ResponseWriter :=
  let response := healthInfo env
  let w := w.SetHeader (ascii "Content-Type") (ascii "application/json")
  match json.Encode w (.ok (json.encodeHealthResponse response)) with
  | (w, some _) => http.Error w (ascii "Internal Server Error") 500
  | (w, none) => w

/-- The function registered for the pattern `/` in `main` (main.go, lines
226-232). -/
def rootFunc (env : Env) (w : http.ResponseWriter) (r : http.Request) : http.ResponseWriter :=
  if r.URL.Path = ascii "/" then mainHandler env w r else notFoundHandler w r

/-! ## Routing: `http.DefaultServeMux` with the two patterns of `main` -/

namespace path

/-- The path elements between slashes. -/
def splitSlash : GoString → GoString → List GoString
  | [], cur => [cur.reverse]
  | c :: s, cur => if c = 47 then cur.reverse :: splitSlash s [] else splitSlash s (c :: cur)

/-- Processing of the elements of a rooted path: empty elements and `.` are
dropped, `..` removes the element before it (and is dropped at the root). -/
def cleanElems : List GoString → List GoString → List GoString
  | [], out => out.reverse
  | e :: es, out =>
    if e = [] ∨ e = ascii "." then cleanElems es out
    else if e = ascii ".." then cleanElems es out.tail
    else cleanElems es (e :: out)

/-- Go `path.Clean` on a rooted path (one that starts with a slash): the
shortest equivalent path. -/
def Clean (p : GoString) : GoString :=
  [47] ++ (ascii "/").intercalate (cleanElems (splitSlash p []) [])

end path

namespace url

/-- Go `ishex` of `net/url`. -/
def ishex (c : Nat) : Bool :=
  (48 ≤ c ∧ c ≤ 57) || (97 ≤ c ∧ c ≤ 102) || (65 ≤ c ∧ c ≤ 70)

/-- Go `unhex` of `net/url`. -/
def unhex (c : Nat) : Nat :=
  if 48 ≤ c ∧ c ≤ 57 then c - 48
  else if 97 ≤ c ∧ c ≤ 102 then c - 97 + 10
  else if 65 ≤ c ∧ c ≤ 70 then c - 65 + 10
  else 0

/-- Go `shouldEscape(c, encodePath)`: letters, digits, the marks `-_.~` and
the reserved characters other than `?` stay as they are in a path. -/
def shouldEscape (c : Nat) : Bool :=
  if (97 ≤ c ∧ c ≤ 122) ∨ (65 ≤ c ∧ c ≤ 90) ∨ (48 ≤ c ∧ c ≤ 57) then false
  else if c ∈ ascii "-_.~" then false
  else if c ∈ ascii "$&+,/:;=?@" then decide (c = 63)
  else true

/-- The digit of value `n` in Go `upperhex`. -/
def upperhex (n : Nat) : Nat := (ascii "0123456789ABCDEF").getD n 0

/-- Go `escape(s, encodePath)`: every byte that should be escaped becomes `%`
and two upper case hexadecimal digits. -/
def escape : GoString → GoString
  | [] => []
  | c :: s =>
    if shouldEscape c then 37 :: upperhex (c / 16) :: upperhex (c % 16) :: escape s
    else c :: escape s

/-- Go `unescape(s, encodePath)`: every `%XY` becomes the byte it stands for;
`none` is the `EscapeError` for a `%` that two hexadecimal digits do not
follow. -/
def unescape : GoString → Option GoString
  | [] => some []
  | c :: s =>
    if c = 37 then
      match s with
      | a :: b :: t =>
        if ishex a ∧ ishex b then (unescape t).map (fun o => (unhex a * 16 + unhex b) :: o)
        else none
      | _ => none
    else (unescape s).map (fun o => c :: o)

/-- Go `validEncoded(s, encodePath)`. -/
def validEncoded (s : GoString) : Bool :=
  s.all fun c =>
    c = 39 || (ascii "!$&()*+,;=:@").contains c || (ascii "[]").contains c || c = 37 ||
      !shouldEscape c

end url

namespace http

/-- Go `URL.EscapedPath`: `RawPath` when it is a valid encoding of `Path`, and
the default encoding of `Path` otherwise. -/
def URL.EscapedPath (u : URL) : GoString :=
  if u.RawPath ≠ [] ∧ url.validEncoded u.RawPath = true ∧ url.unescape u.RawPath = some u.Path then
    u.RawPath
  else if u.Path = ascii "*" then ascii "*"
  else url.escape u.Path

/-- Go `cleanPath` of `net/http`: the canonical form of a request path; a
trailing slash is kept. -/
def cleanPath (p : GoString) : GoString :=
  if p = [] then ascii "/"
  else
    let p := if p.head? ≠ some 47 then 47 :: p else p
    let np := path.Clean p
    if p.getLast? = some 47 ∧ np ≠ ascii "/" then np ++ [47] else np

/-- Go `pathUnescape` of `net/http`: the unescaped text, or the text itself
when it is not validly escaped. -/
def pathUnescape (p : GoString) : GoString := (url.unescape p).getD p

/-- Go `firstSegment`: the first segment of a path, unescaped, and the rest.
The first byte is dropped whatever it is. -/
def firstSegment (p : GoString) : GoString × GoString :=
  if p = ascii "/" then (ascii "/", [])
  else
    let p := p.drop 1
    let i := (indexByte p 47).getD p.length
    (pathUnescape (p.take i), p.drop i)

/-- The two leaves of the routing tree `main` builds: the patterns `/health`
and `/`. -/
inductive Node where
  /-- The pattern `/health`, a literal segment. -/
  | health
  /-- The pattern `/`, a nameless multi wildcard: it matches every rest. -/
  | root
  deriving DecidableEq, Repr

/-- Go `routingNode.match` on the tree of the two patterns.  Neither pattern
names a host or a method, so the host and the method of the request do not
matter.  The empty path reaches no leaf; the first segment `health` with
nothing after it reaches the leaf of `/health`; everything else falls to the
multi wildcard of `/`. -/
def matchPath (p : GoString) : Option Node :=
  if p = [] then none
  else if (firstSegment p).1 = ascii "health" ∧ (firstSegment p).2 = [] then some .health
  else some .root

/-- Go `exactMatch`: a match with `/health` is exact; a match with `/` is exact
when the wildcard matched the empty text, that is when the path ends in a
slash and has as many slashes as the pattern has segments (one). -/
def exactMatch (n : Option Node) (p : GoString) : Bool :=
  match n with
  | none => false
  | some .health => true
  | some .root =>
    if p ≠ [] ∧ p.getLast? ≠ some 47 then false
    else decide (1 = p.count 47)

/-- Go `ServeMux.matchOrRedirect`: the leaf the path reaches, or, when the
match is not exact, `u` is given and the path with a slash appended is matched
exactly, the URL to redirect to. -/
def matchOrRedirect (p : GoString) (u : Option URL) : Option Node × Option URL :=
  let n := matchPath p
  match u with
  | some u =>
    if exactMatch n p = false ∧ p.getLast? ≠ some 47 ∧
        exactMatch (matchPath (p ++ [47])) (p ++ [47]) = true then
      (none, some { Path := cleanPath u.Path ++ [47], RawQuery := u.RawQuery })
    else (n, none)
  | none => (n, none)

/-- What the mux does with a request. -/
inductive Target where
  /-- The handler registered for the pattern `/health`. -/
  | health
  /-- The function registered for the pattern `/`. -/
  | root
  /-- Go `RedirectHandler` for the URL `u`. -/
  | redirect (u : URL)
  /-- Go `NotFoundHandler`, when no pattern matches. -/
  | notFound
  deriving DecidableEq, Repr

/-- The handler of a leaf. -/
def Target.ofNode : Option Node → Target
  | none => .notFound
  | some .health => .health
  | some .root => .root

/-- Go `ServeMux.findHandler` (the routing tree of Go 1.22 and later) for the
two patterns registered in `main`.  The escaped path of a `CONNECT` request is
matched as it is; the escaped path of every other request is cleaned first,
and the request is redirected to the cleaned path when that differs. -/
def findHandler (r : Request) : Target :=
  let escapedPath := r.URL.EscapedPath
  if r.Method = ascii "CONNECT" then
    match (matchOrRedirect escapedPath (some r.URL)).2 with
    | some u => .redirect u
    | none => Target.ofNode (matchOrRedirect escapedPath none).1
  else
    let p := cleanPath escapedPath
    match matchOrRedirect p (some r.URL) with
    | (_, some u) => .redirect u
    | (n, none) =>
      if p ≠ escapedPath then .redirect { Path := p, RawQuery := r.URL.RawQuery }
      else Target.ofNode n

/-- Go `http.NotFound`: the plain text 404 of the library. -/
def NotFound (w : ResponseWriter) : ResponseWriter :=
  Error w (ascii "404 page not found") 404

/-- The status `ServeMux` redirects with, a constant of the net/http release
the program is built with: `StatusMovedPermanently` in the older releases,
`StatusTemporaryRedirect` in the newer ones. -/
inductive RedirectStatus where
  | MovedPermanently
  | TemporaryRedirect
  deriving DecidableEq, Repr

/-- The status code. -/
def RedirectStatus.code : RedirectStatus → Nat
  | .MovedPermanently => 301
  | .TemporaryRedirect => 307

end http

/-- The service as registered in `main`: the response of
`http.DefaultServeMux` to a request (Go `ServeMux.ServeHTTP`).  The request
URI `*` is answered with 400; otherwise the handler `findHandler` selects
runs.  Of the answers the mux gives itself only the status is modelled for
the redirect (not its `Location` header and HTML body) and for the 400 (not
its `Connection` header). -/
def serve (redirect : http.RedirectStatus) (env : Env) (r : http.Request) :
    http.ResponseWriter :=
  let w : http.ResponseWriter := {}
  if r.RequestURI = ascii "*" then w.WriteHeader 400
  else
    match http.findHandler r with
    | .health => healthHandler env w r
    | .root => rootFunc env w r
    | .redirect _ => w.WriteHeader redirect.code
    | .notFound => http.NotFound w

/-! ## Sample inputs -/

/-- A sample environment: 125 s of uptime on a four-core Linux host. -/
def sampleEnv : Env :=
  { delta := 125 * 1000000000
    now := ascii "2026-01-01T00:00:00Z"
    hostname := ascii "host-1"
    GOOS := ascii "linux"
    GOARCH := ascii "amd64"
    NumCPU := 4
    Version := ascii "go1.22.0" }

/-- A sample request: `POST /` from 192.0.2.1 with a user agent. -/
def sampleRequest : http.Request :=
  { Method := ascii "POST"
    URL := { Path := ascii "/" }
    RequestURI := ascii "/"
    Header := [(ascii "User-Agent", [ascii "curl/8.5.0"])]
    RemoteAddr := ascii "192.0.2.1:1234" }

/-- The sample request with a user agent that is not well-formed UTF-8 (the
single byte 0xFF, which an HTTP header value may carry). -/
def badAgentRequest : http.Request :=
  { sampleRequest with Header := [(ascii "User-Agent", [[0xFF]])] }

/-! # Theorems -/

/-! ## Client address resolution -/

theorem canonical_forwarded_for :
    textproto.CanonicalMIMEHeaderKey (ascii "X-Forwarded-For") = ascii "X-Forwarded-For" := by
  decide

theorem canonical_real_ip :
    textproto.CanonicalMIMEHeaderKey (ascii "X-Real-IP") = ascii "X-Real-Ip" := by
  decide

/-- C1: a non-empty `X-Forwarded-For` value is returned unchanged, whatever the
`X-Real-IP` header and the remote address are; with `X-Forwarded-For:
203.0.113.5` the result is `203.0.113.5` for every other header, every
remote address and every method and URL. -/
theorem getClientIP_forwarded_for :
    (∀ r : http.Request, r.Header.Get (ascii "X-Forwarded-For") ≠ [] →
      getClientIP r = r.Header.Get (ascii "X-Forwarded-For")) ∧
    (∀ (m : GoString) (u : http.URL) (uri : GoString) (h : http.Header) (addr : GoString),
      getClientIP
        { Method := m, URL := u, RequestURI := uri,
          Header := (ascii "X-Forwarded-For", [ascii "203.0.113.5"]) :: h,
          RemoteAddr := addr } = ascii "203.0.113.5") := by
  constructor
  · intro r h
    simp [getClientIP, h]
  · intro m u uri h addr
    have hget : http.Header.Get ((ascii "X-Forwarded-For", [ascii "203.0.113.5"]) :: h)
        (ascii "X-Forwarded-For") = ascii "203.0.113.5" := by
      simp [http.Header.Get, canonical_forwarded_for, List.lookup]
    have hne : ascii "203.0.113.5" ≠ [] := by decide
    simp [getClientIP, hget, hne]

theorem getClientIP_forwarded_for_witness :
    getClientIP
      { Method := ascii "GET", URL := { Path := ascii "/" },
        Header := [(ascii "X-Forwarded-For", [ascii "203.0.113.5"]),
                   (ascii "X-Real-Ip", [ascii "198.51.100.7"])],
        RemoteAddr := ascii "192.0.2.1:1234" } = ascii "203.0.113.5" :=
  getClientIP_forwarded_for.1 _ (by decide)

/-- C8: with `X-Forwarded-For` absent or empty, a non-empty `X-Real-IP` value
is returned unchanged, whatever the remote address is. -/
theorem getClientIP_real_ip (r : http.Request)
    (hxff : r.Header.Get (ascii "X-Forwarded-For") = [])
    (hxri : r.Header.Get (ascii "X-Real-IP") ≠ []) :
    getClientIP r = r.Header.Get (ascii "X-Real-IP") := by
  simp [getClientIP, hxff, hxri]

theorem getClientIP_real_ip_witness :
    getClientIP
      { Method := ascii "GET", URL := { Path := ascii "/" },
        Header := [(ascii "X-Real-Ip", [ascii "198.51.100.7"])],
        RemoteAddr := ascii "[::1]:54321" } = ascii "198.51.100.7" :=
  getClientIP_real_ip _ (by decide) (by decide)

theorem indexByte_split (s : GoString) (c i : Nat) (h : indexByte s c = some i) :
    s = s.take i ++ c :: s.drop (i + 1) := by
  induction s generalizing i with
  | nil => simp [indexByte] at h
  | cons b s ih =>
    simp only [indexByte] at h
    split_ifs at h with hb
    · simp at h; subst h; simp [hb]
    · cases hi : indexByte s c with
      | none => simp [hi] at h
      | some j =>
        simp [hi] at h
        subst h
        have := ih j hi
        simp
        exact this

theorem lastIndexByte_split (s : GoString) (c i : Nat) (h : lastIndexByte s c = some i) :
    s = s.take i ++ c :: s.drop (i + 1) := by
  induction s generalizing i with
  | nil => simp [lastIndexByte] at h
  | cons b s ih =>
    simp only [lastIndexByte] at h
    cases hi : lastIndexByte s c with
    | none =>
      simp [hi] at h
      obtain ⟨hb, h0⟩ := h
      subst h0; simp [hb]
    | some j =>
      simp [hi] at h
      subst h
      have := ih j hi
      simp
      exact this

theorem lastIndexByte_lt (s : GoString) (c i : Nat) (h : lastIndexByte s c = some i) :
    i < s.length := by
  have hs := lastIndexByte_split s c i h
  by_contra hc
  have h1 : s.take i = s := List.take_of_length_le (by omega)
  have h2 : s.drop (i + 1) = [] := List.drop_of_length_le (by omega)
  rw [h1, h2] at hs
  have := congrArg List.length hs
  simp at this

theorem drop_of_split (s : GoString) (c i : Nat) (hi : i < s.length)
    (h : s = s.take i ++ c :: s.drop (i + 1)) : s.drop i = c :: s.drop (i + 1) := by
  have h2 : (s.take i ++ c :: s.drop (i + 1)).drop i = c :: s.drop (i + 1) := by
    rw [List.drop_append_of_le_length (by simp; omega)]
    simp
  rw [← h] at h2
  exact h2

/-- The host and port `net.SplitHostPort` returns are the two sides of the
last colon of the address, the host without its square brackets. -/
theorem SplitHostPort_ok (a h p : GoString) (hs : net.SplitHostPort a = .ok (h, p)) :
    a = h ++ ascii ":" ++ p ∨ a = ascii "[" ++ h ++ ascii "]:" ++ p := by
  unfold net.SplitHostPort at hs
  cases hl : lastIndexByte a 58 with
  | none => simp [hl] at hs
  | some i =>
    have hsplit := lastIndexByte_split a 58 i hl
    have hilt := lastIndexByte_lt a 58 i hl
    simp only [hl] at hs
    by_cases hb : a.head? = some 91
    · simp only [hb, if_true] at hs
      cases he : indexByte a 93 with
      | none => simp [he] at hs
      | some e =>
        simp only [he] at hs
        by_cases h4 : e + 1 = a.length
        · simp [h4] at hs
        · simp only [h4, if_false] at hs
          by_cases h5 : e + 1 = i
          · simp only [h5, if_true] at hs
            split_ifs at hs
            simp at hs
            obtain ⟨hh, hp⟩ := hs
            right
            have hsplit2 := indexByte_split a 93 e he
            have hdrop := drop_of_split a 58 i hilt hsplit
            rw [h5] at hsplit2
            rw [hdrop] at hsplit2
            -- take e a = 91 :: drop 1 (take e a)
            have hte : a.take e = 91 :: (a.take e).drop 1 := by
              cases a with
              | nil => simp at hb
              | cons x t =>
                simp at hb
                subst hb
                cases e with
                | zero => simp [indexByte] at he
                | succ e => simp
            rw [hte] at hsplit2
            rw [← hh, ← hp]
            simpa [ascii] using hsplit2
          · simp only [h5, if_false] at hs
            split_ifs at hs
    · simp only [hb, if_false] at hs
      split_ifs at hs
      simp at hs
      obtain ⟨hh, hp⟩ := hs
      left
      rw [← hh, ← hp]
      simpa [ascii] using hsplit

/-- C2: with both forwarding headers absent or empty and a non-empty remote
address `a`, the result is `normLoopback (remoteHost a)`: the host part of
`a` when `a` parses as host:port (the text before the last colon, without
square brackets: the port is stripped), `a` itself when the parse fails,
with `::1` and `[::1]` replaced by `127.0.0.1`.  The remote address
`[::1]:54321` gives `127.0.0.1`. -/
theorem getClientIP_remote_addr :
    (∀ r : http.Request, r.Header.Get (ascii "X-Forwarded-For") = [] →
      r.Header.Get (ascii "X-Real-IP") = [] → r.RemoteAddr ≠ [] →
      getClientIP r = normLoopback (remoteHost r.RemoteAddr)) ∧
    (∀ a h p : GoString, net.SplitHostPort a = .ok (h, p) →
      remoteHost a = h ∧ (a = h ++ ascii ":" ++ p ∨ a = ascii "[" ++ h ++ ascii "]:" ++ p)) ∧
    (∀ (a : GoString) (e : String), net.SplitHostPort a = .error e → remoteHost a = a) ∧
    (∀ (m : GoString) (u : http.URL) (uri : GoString),
      getClientIP { Method := m, URL := u, RequestURI := uri, Header := [],
                    RemoteAddr := ascii "[::1]:54321" } = ascii "127.0.0.1") := by
  refine ⟨?_, ?_, ?_, ?_⟩
  · intro r h1 h2 h3
    simp only [getClientIP, h1, h2, h3, normLoopback, remoteHost]
    cases hs : net.SplitHostPort r.RemoteAddr with
    | error e => simp; split_ifs <;> simp_all
    | ok hp =>
      obtain ⟨a, b⟩ := hp
      simp; split_ifs <;> simp_all
  · intro a h p hs
    exact ⟨by simp [remoteHost, hs], SplitHostPort_ok a h p hs⟩
  · intro a e hs
    simp [remoteHost, hs]
  · intro m u uri
    have : net.SplitHostPort (ascii "[::1]:54321") = .ok (ascii "::1", ascii "54321") := by decide
    simp [getClientIP, http.Header.Get, this]
    decide

theorem getClientIP_remote_addr_witness :
    getClientIP
      { Method := ascii "GET", URL := { Path := ascii "/" }, RemoteAddr := ascii "192.0.2.1:1234" }
      = ascii "192.0.2.1" :=
  (getClientIP_remote_addr.1 _ (by decide) (by decide) (by decide)).trans (by decide)

/-- C3 (the code at the failing input): with no forwarding header and the
remote address `:8080`, which parses as host:port with an empty host,
`getClientIP` returns the empty string, not a non-empty string and not
`unknown`. -/
theorem getClientIP_empty_host :
    net.SplitHostPort (ascii ":8080") = .ok ([], ascii "8080") ∧
    getClientIP { Method := ascii "GET", URL := { Path := ascii "/" },
                  RemoteAddr := ascii ":8080" } = [] := by decide

/-! ## The human uptime string -/

theorem decimal_step (u : Nat) (h : 10 ≤ u) :
    decimal u = decimal (u / 10) ++ [48 + u % 10] := by
  have h0 : u ≠ 0 := by omega
  have h1 : u / 10 ≠ 0 := by omega
  simp only [decimal, h0, h1, if_false]
  rw [Nat.digits_def' (by norm_num) (by omega)]
  simp [Nat.add_comm]

theorem decimal_small (u : Nat) (h : u < 10) : decimal u = [48 + u] := by
  by_cases h0 : u = 0
  · subst h0; simp [decimal]
  · simp only [decimal, h0, if_false]
    rw [Nat.digits_def' (by norm_num) (by omega)]
    have h1 : u / 10 = 0 := by omega
    have h2 : u % 10 = u := by omega
    simp [h1, h2, Nat.add_comm]

theorem fmtDigits_eq (fuel u : Nat) (buf : GoString) (h : u < fuel) :
    fmt.fmtDigits fuel u buf = decimal u ++ buf := by
  induction fuel generalizing u buf with
  | zero => omega
  | succ n ih =>
    simp only [fmt.fmtDigits]
    split_ifs with h10
    · rw [ih (u / 10) _ (by omega), decimal_step u h10]
      have : 48 + u - u / 10 * 10 = 48 + u % 10 := by omega
      simp [this]
    · rw [decimal_small u (by omega)]
      simp

theorem fmtInteger_natCast (n : Nat) : fmt.fmtInteger (n : Int) = decimal n := by
  simp [fmt.fmtInteger, fmtDigits_eq]

theorem Sprintf_uptime (h m : Int) (hs ms : GoString) :
    fmt.Sprintf (ascii "%d %s, %d %s") [.int h, .str hs, .int m, .str ms] =
      fmt.fmtInteger h ++ ascii " " ++ hs ++ ascii ", " ++ fmt.fmtInteger m ++ ascii " " ++ ms := by
  simp [fmt.Sprintf, ascii]

/-- C4: whenever the seconds count `s` returned by `getUptime` is not negative,
the human string is the decimal of `H = s / 3600`, a space, `hour` if `H = 1`
and `hours` otherwise, a comma and a space, the decimal of
`M = s % 3600 / 60`, a space, and `minute` if `M = 1` and `minutes` otherwise
(`humanSpec`); 3660 s, 300 s and 7200 s give `1 hour, 1 minute`,
`0 hours, 5 minutes` and `2 hours, 0 minutes`. -/
theorem getUptime_human :
    (∀ delta : Int, 0 ≤ (getUptime delta).1 →
      (getUptime delta).2 = humanSpec (getUptime delta).1.toNat) ∧
    getUptime (3660 * 1000000000) = (3660, ascii "1 hour, 1 minute") ∧
    getUptime (300 * 1000000000) = (300, ascii "0 hours, 5 minutes") ∧
    getUptime (7200 * 1000000000) = (7200, ascii "2 hours, 0 minutes") := by
  refine ⟨?_, by decide, by decide, by decide⟩
  intro delta h
  simp only [getUptime] at h ⊢
  generalize float64.toInt (time.Duration.Seconds delta) = s at h ⊢
  obtain ⟨n, rfl⟩ := Int.eq_ofNat_of_zero_le h
  rw [Sprintf_uptime]
  have h1 : Int.tdiv (n : Int) 3600 = ((n / 3600 : Nat) : Int) := by simp [Int.tdiv]
  have h2 : Int.tdiv (Int.tmod (n : Int) 3600) 60 = ((n % 3600 / 60 : Nat) : Int) := by
    have : Int.tmod (n : Int) 3600 = ((n % 3600 : Nat) : Int) := by simp [Int.tmod]
    rw [this]; simp [Int.tdiv]
  simp only [h1, h2, fmtInteger_natCast, humanSpec, Int.toNat_ofNat]
  have e1 : (((n / 3600 : Nat) : Int) = 1) ↔ (n / 3600 = 1) := by norm_cast
  have e2 : (((n % 3600 / 60 : Nat) : Int) = 1) ↔ (n % 3600 / 60 = 1) := by norm_cast
  simp only [e1, e2]

theorem getUptime_human_witness :
    0 ≤ (getUptime (125 * 1000000000)).1 ∧
      (getUptime (125 * 1000000000)).2 = humanSpec (getUptime (125 * 1000000000)).1.toNat :=
  ⟨by decide, getUptime_human.1 (125 * 1000000000) (by decide)⟩

/-! ## float64 rounding -/

namespace float64

theorem bitLenAux_zero (fuel : Nat) : bitLenAux fuel 0 = 0 := by
  cases fuel <;> simp [bitLenAux]

theorem bitLenAux_spec (fuel n : Nat) (h : n ≤ fuel) :
    n < 2 ^ bitLenAux fuel n ∧ (0 < n → 2 ^ bitLenAux fuel n ≤ 2 * n) := by
  induction fuel generalizing n with
  | zero =>
    have : n = 0 := by omega
    subst this
    simp [bitLenAux]
  | succ f ih =>
    by_cases hn : n = 0
    · subst hn; simp [bitLenAux]
    · simp only [bitLenAux, hn, if_false]
      have ih1 := ih (n / 2) (by omega)
      constructor
      · have := ih1.1
        rw [pow_succ]
        omega
      · intro _
        by_cases h2 : n / 2 = 0
        · rw [h2, bitLenAux_zero]
          simp; omega
        · have := ih1.2 (by omega)
          rw [pow_succ]
          omega

theorem bitLen_spec (n : Nat) (hn : 0 < n) :
    n < 2 ^ bitLen n ∧ 2 ^ bitLen n ≤ 2 * n := by
  have := bitLenAux_spec n n le_rfl
  exact ⟨this.1, this.2 hn⟩

theorem two_zpow_toNat (k : Int) :
    ((2 : ℚ) ^ k.toNat) / (2 : ℚ) ^ (-k).toNat = (2 : ℚ) ^ k := by
  rcases le_or_lt 0 k with h | h
  · have h1 : (-k).toNat = 0 := by omega
    rw [h1]
    simp
    conv_rhs => rw [← Int.toNat_of_nonneg h]
    rw [zpow_natCast]
  · have h1 : k.toNat = 0 := by omega
    rw [h1]
    have h2 : k = -((-k).toNat : Int) := by omega
    conv_rhs => rw [h2]
    rw [zpow_neg, zpow_natCast]
    simp

theorem ilog2_spec (num den : Nat) (hn : 0 < num) (hd : 0 < den) :
    (2 : ℚ) ^ (ilog2 num den) ≤ (num : ℚ) / den ∧
      (num : ℚ) / den < (2 : ℚ) ^ (ilog2 num den + 1) := by
  obtain ⟨ha1, ha2⟩ := bitLen_spec num hn
  obtain ⟨hb1, hb2⟩ := bitLen_spec den hd
  have hdq : (0 : ℚ) < den := by exact_mod_cast hd
  have hnq : (0 : ℚ) < num := by exact_mod_cast hn
  have ha1q : (num : ℚ) < 2 ^ bitLen num := by exact_mod_cast ha1
  have ha2q : (2 : ℚ) ^ bitLen num ≤ 2 * num := by exact_mod_cast ha2
  have hb1q : (den : ℚ) < 2 ^ bitLen den := by exact_mod_cast hb1
  have hb2q : (2 : ℚ) ^ bitLen den ≤ 2 * den := by exact_mod_cast hb2
  set k : Int := (bitLen num : Int) - (bitLen den : Int) with hk
  have hkpow : (2 : ℚ) ^ k = 2 ^ bitLen num / 2 ^ bitLen den := by
    rw [hk, zpow_sub₀ (by norm_num), zpow_natCast, zpow_natCast]
  have hpa : (0 : ℚ) < 2 ^ bitLen num := by positivity
  have hpb : (0 : ℚ) < 2 ^ bitLen den := by positivity
  have htest : (den * 2 ^ k.toNat ≤ num * 2 ^ (-k).toNat) ↔ (2 : ℚ) ^ k ≤ (num : ℚ) / den := by
    rw [← two_zpow_toNat k, le_div_iff₀ hdq, div_mul_eq_mul_div, div_le_iff₀ (by positivity)]
    constructor
    · intro h
      have : ((den * 2 ^ k.toNat : Nat) : ℚ) ≤ ((num * 2 ^ (-k).toNat : Nat) : ℚ) := by
        exact_mod_cast h
      push_cast at this
      linarith
    · intro h
      have : ((den * 2 ^ k.toNat : Nat) : ℚ) ≤ ((num * 2 ^ (-k).toNat : Nat) : ℚ) := by
        push_cast
        linarith
      exact_mod_cast this
  unfold ilog2
  simp only []
  rw [← hk]
  split_ifs with ht
  · refine ⟨htest.1 ht, ?_⟩
    rw [zpow_add₀ (by norm_num), hkpow, div_lt_iff₀ hdq]
    have : (2 : ℚ) ^ bitLen num / 2 ^ bitLen den * 2 ^ (1 : Int) * den
        = 2 ^ bitLen num * (2 * den / 2 ^ bitLen den) := by
      field_simp
      ring
    rw [this]
    have h1 : (1 : ℚ) ≤ 2 * den / 2 ^ bitLen den := by
      rw [le_div_iff₀ hpb]; linarith
    nlinarith
  · have ht2 : (num : ℚ) / den < 2 ^ k := by
      by_contra hc
      exact ht (htest.2 (not_lt.1 hc))
    refine ⟨?_, by simpa using ht2⟩
    rw [zpow_sub₀ (by norm_num), hkpow, le_div_iff₀ hdq]
    have : (2 : ℚ) ^ bitLen num / 2 ^ bitLen den / 2 ^ (1 : Int) * den
        = (2 ^ bitLen num / 2) * (den / 2 ^ bitLen den) := by
      field_simp
      ring
    rw [this]
    have h1 : (den : ℚ) / 2 ^ bitLen den ≤ 1 := by
      rw [div_le_iff₀ hpb]; linarith
    have h2 : (0 : ℚ) ≤ den / 2 ^ bitLen den := by positivity
    nlinarith


theorem roundHalfEven_spec (num den : Nat) (hd : 0 < den) :
    |((roundHalfEven num den : Nat) : ℚ) - (num : ℚ) / den| ≤ 1 / 2 ∧
      (|((roundHalfEven num den : Nat) : ℚ) - (num : ℚ) / den| = 1 / 2 →
        Even (roundHalfEven num den)) := by
  have hdq : (0 : ℚ) < den := by exact_mod_cast hd
  have hdm := Nat.div_add_mod num den
  have hr : num % den < den := Nat.mod_lt _ hd
  have hy : (num : ℚ) / den = (num / den : Nat) + ((num % den : Nat) : ℚ) / den := by
    have : (num : ℚ) = den * (num / den : Nat) + (num % den : Nat) := by exact_mod_cast hdm.symm
    field_simp
    linarith
  set q := num / den with hq
  set r := num % den with hrdef
  have ht0 : (0 : ℚ) ≤ (r : ℚ) / den := by positivity
  unfold roundHalfEven
  simp only []
  rw [← hq, ← hrdef, hy]
  split_ifs with h1 h2 h3
  · have : (r : ℚ) / den < 1 / 2 := by
      rw [div_lt_iff₀ hdq]
      have : ((2 * r : Nat) : ℚ) < den := by exact_mod_cast h1
      push_cast at this; linarith
    have e : (q : ℚ) - (q + r / den) = -((r : ℚ) / den) := by ring
    rw [e, abs_neg, abs_of_nonneg ht0]
    exact ⟨by linarith, fun h => by linarith⟩
  · have : (1 : ℚ) / 2 < (r : ℚ) / den := by
      rw [lt_div_iff₀ hdq]
      have : ((den : Nat) : ℚ) < ((2 * r : Nat) : ℚ) := by exact_mod_cast h2
      push_cast at this; linarith
    have hlt : (r : ℚ) / den < 1 := by
      rw [div_lt_one hdq]; exact_mod_cast hr
    have e : ((q + 1 : Nat) : ℚ) - (q + r / den) = 1 - (r : ℚ) / den := by push_cast; ring
    rw [e, abs_of_nonneg (by linarith)]
    exact ⟨by linarith, fun h => by linarith⟩
  · have hh : (r : ℚ) / den = 1 / 2 := by
      have : 2 * r = den := by omega
      rw [div_eq_iff (ne_of_gt hdq)]
      have : ((2 * r : Nat) : ℚ) = den := by exact_mod_cast this
      push_cast at this; linarith
    have e : (q : ℚ) - (q + r / den) = -((r : ℚ) / den) := by ring
    rw [e, abs_neg, abs_of_nonneg ht0, hh]
    exact ⟨le_refl _, fun _ => Nat.even_iff.2 h3⟩
  · have hh : (r : ℚ) / den = 1 / 2 := by
      have : 2 * r = den := by omega
      rw [div_eq_iff (ne_of_gt hdq)]
      have : ((2 * r : Nat) : ℚ) = den := by exact_mod_cast this
      push_cast at this; linarith
    have e : ((q + 1 : Nat) : ℚ) - (q + r / den) = 1 - (r : ℚ) / den := by push_cast; ring
    rw [e, hh]
    have : |(1 : ℚ) - 1 / 2| = 1 / 2 := by norm_num [abs_of_nonneg]
    rw [this]
    refine ⟨le_refl _, fun _ => ?_⟩
    rw [Nat.even_iff]
    omega

theorem round_neg (neg : Bool) (num den : Nat) : (round neg num den).neg = neg := by
  unfold round
  split_ifs <;> rfl

theorem round_spec (neg : Bool) (num den : Nat) (hd : 0 < den) :
    IsRounding ((num : ℚ) / den) (round neg num den) := by
  by_cases hn : num = 0
  · left
    subst hn
    simp [round]
  · right
    have hnpos : 0 < num := Nat.pos_of_ne_zero hn
    obtain ⟨hl1, hl2⟩ := ilog2_spec num den hnpos hd
    have hdq : (0 : ℚ) < den := by exact_mod_cast hd
    simp only [round, hn, if_false]
    set e : Int := ilog2 num den - 52 with he
    have hpe : (0 : ℚ) < 2 ^ e := by positivity
    have hscaled : (((num * 2 ^ (-e).toNat : Nat) : ℚ)) / ((den * 2 ^ e.toNat : Nat) : ℚ)
        = (num : ℚ) / den / 2 ^ e := by
      rw [← two_zpow_toNat e]
      push_cast
      field_simp
    have hspec := roundHalfEven_spec (num * 2 ^ (-e).toNat) (den * 2 ^ e.toNat) (by positivity)
    rw [hscaled] at hspec
    have h52 : (2 : ℚ) ^ (ilog2 num den) = 2 ^ (52 : ℕ) * 2 ^ e := by
      rw [he, ← zpow_natCast, ← zpow_add₀ (by norm_num)]
      congr 1; push_cast; ring
    have h53 : (2 : ℚ) ^ (ilog2 num den + 1) = 2 ^ (53 : ℕ) * 2 ^ e := by
      rw [he, ← zpow_natCast, ← zpow_add₀ (by norm_num)]
      congr 1; push_cast; ring
    refine ⟨?_, ?_, hspec.1, hspec.2⟩
    · rw [le_div_iff₀ hpe, ← h52]; exact hl1
    · rw [div_lt_iff₀ hpe, ← h53]; exact hl2


theorem val_nonneg (f : Float64) : 0 ≤ val f := by
  unfold val; positivity

theorem nearest_int (m N : Nat) (y : ℚ) (h : |(m : ℚ) - y| ≤ 1 / 2) :
    |(m : ℚ) - y| ≤ |(N : ℚ) - y| := by
  by_cases hN : N = m
  · subst hN; exact le_refl _
  · have h1 : (1 : ℚ) ≤ |(N : ℚ) - m| := by
      have : (1 : ℤ) ≤ |(N : ℤ) - m| := by
        have : (N : ℤ) - m ≠ 0 := by omega
        exact Int.one_le_abs this
      have h2 : ((1 : ℤ) : ℚ) ≤ ((|(N : ℤ) - m| : ℤ) : ℚ) := by exact_mod_cast this
      simpa using h2
    have h2 : |(N : ℚ) - m| ≤ |(N : ℚ) - y| + |(m : ℚ) - y| := by
      have := abs_sub_le (N : ℚ) y m
      rw [abs_sub_comm y (m : ℚ)] at this
      exact this
    linarith

theorem IsRounding.m_le {x : ℚ} {f : Float64}
    (h : (2 : ℚ) ^ (52 : ℕ) ≤ x / (2 : ℚ) ^ f.e ∧ x / (2 : ℚ) ^ f.e < (2 : ℚ) ^ (53 : ℕ) ∧
      |(f.m : ℚ) - x / (2 : ℚ) ^ f.e| ≤ 1 / 2 ∧
      (|(f.m : ℚ) - x / (2 : ℚ) ^ f.e| = 1 / 2 → Even f.m)) :
    (2 : ℚ) ^ (52 : ℕ) ≤ f.m ∧ (f.m : ℚ) ≤ 2 ^ (53 : ℕ) := by
  obtain ⟨h1, h2, h3, _⟩ := h
  rw [abs_le] at h3
  constructor
  · have : ((2 ^ 52 : Nat) : ℚ) < (f.m : ℚ) + 1 := by push_cast; linarith
    have : 2 ^ 52 < f.m + 1 := by exact_mod_cast this
    have : 2 ^ 52 ≤ f.m := by omega
    exact_mod_cast this
  · have : (f.m : ℚ) < ((2 ^ 53 + 1 : Nat) : ℚ) := by push_cast; linarith
    have : f.m < 2 ^ 53 + 1 := by exact_mod_cast this
    have : f.m ≤ 2 ^ 53 := by omega
    exact_mod_cast this

theorem IsRounding.mono {x y : ℚ} {f g : Float64} (hf : IsRounding x f) (hg : IsRounding y g)
    (hxy : x ≤ y) : val f ≤ val g := by
  rcases hf with ⟨_, hm⟩ | hf
  · unfold val at *
    rw [hm]; simp; positivity
  rcases hg with ⟨hy0, _⟩ | hg
  · exfalso
    have hpe : (0 : ℚ) < 2 ^ f.e := by positivity
    have := hf.1
    rw [le_div_iff₀ hpe] at this
    have : (0 : ℚ) < 2 ^ (52 : ℕ) * 2 ^ f.e := by positivity
    linarith
  have hfm := IsRounding.m_le hf
  have hgm := IsRounding.m_le hg
  obtain ⟨hf1, hf2, hf3, hf4⟩ := hf
  obtain ⟨hg1, hg2, hg3, hg4⟩ := hg
  have hpf : (0 : ℚ) < 2 ^ f.e := by positivity
  have hpg : (0 : ℚ) < 2 ^ g.e := by positivity
  unfold val
  rcases lt_trichotomy f.e g.e with hlt | heq | hgt
  · -- f.e < g.e
    have h1 : (2 : ℚ) ^ (f.e + 1) ≤ 2 ^ g.e := zpow_le_zpow_right₀ (by norm_num) (by omega)
    rw [zpow_add₀ (by norm_num)] at h1
    have h2 : (f.m : ℚ) * 2 ^ f.e ≤ 2 ^ (53 : ℕ) * 2 ^ f.e :=
      mul_le_mul_of_nonneg_right hfm.2 hpf.le
    have h3 : (2 : ℚ) ^ (52 : ℕ) * 2 ^ g.e ≤ g.m * 2 ^ g.e :=
      mul_le_mul_of_nonneg_right hgm.1 hpg.le
    have h4 : (2 : ℚ) ^ (53 : ℕ) * 2 ^ f.e = 2 ^ (52 : ℕ) * (2 ^ f.e * 2 ^ (1 : Int)) := by
      norm_num; ring
    have h5 : (2 : ℚ) ^ (52 : ℕ) * (2 ^ f.e * 2 ^ (1 : Int)) ≤ 2 ^ (52 : ℕ) * 2 ^ g.e :=
      mul_le_mul_of_nonneg_left h1 (by positivity)
    linarith
  · -- same exponent
    rw [heq] at hf1 hf2 hf3 hf4 ⊢
    have hyy : x / 2 ^ g.e ≤ y / 2 ^ g.e := div_le_div_of_nonneg_right hxy hpg.le
    have hmm : f.m ≤ g.m := by
      by_contra hc
      have hc1 : g.m + 1 ≤ f.m := by omega
      have hc2 : (g.m : ℚ) + 1 ≤ f.m := by exact_mod_cast hc1
      rw [abs_le] at hf3 hg3
      -- f.m ≤ x' + 1/2 ≤ y' + 1/2 ≤ g.m + 1
      have e1 : (f.m : ℚ) = g.m + 1 := by linarith
      have e2 : x / 2 ^ g.e = y / 2 ^ g.e := by linarith
      have e3 : (f.m : ℚ) - x / 2 ^ g.e = 1 / 2 := by linarith
      have e4 : (g.m : ℚ) - y / 2 ^ g.e = -(1 / 2) := by linarith
      have evf : Even f.m := hf4 (by rw [e3]; norm_num [abs_of_nonneg])
      have evg : Even g.m := hg4 (by rw [e4, abs_neg]; norm_num [abs_of_nonneg])
      have e5 : f.m = g.m + 1 := by exact_mod_cast e1
      rw [Nat.even_iff] at evf evg
      omega
    have : (f.m : ℚ) ≤ g.m := by exact_mod_cast hmm
    exact mul_le_mul_of_nonneg_right this hpg.le
  · -- f.e > g.e is impossible
    exfalso
    have h1 : (2 : ℚ) ^ (g.e + 1) ≤ 2 ^ f.e := zpow_le_zpow_right₀ (by norm_num) (by omega)
    rw [zpow_add₀ (by norm_num)] at h1
    rw [le_div_iff₀ hpf] at hf1
    rw [div_lt_iff₀ hpg] at hg2
    have h5 : (2 : ℚ) ^ (52 : ℕ) * (2 ^ g.e * 2 ^ (1 : Int)) ≤ 2 ^ (52 : ℕ) * 2 ^ f.e :=
      mul_le_mul_of_nonneg_left h1 (by positivity)
    have h4 : (2 : ℚ) ^ (53 : ℕ) * 2 ^ g.e = 2 ^ (52 : ℕ) * (2 ^ g.e * 2 ^ (1 : Int)) := by
      norm_num; ring
    linarith

theorem IsRounding.nearest {x : ℚ} {f : Float64} (hf : IsRounding x f) (M : Nat) (E : Int)
    (hM : M ≤ 2 ^ 53) : |val f - x| ≤ |(M : ℚ) * 2 ^ E - x| := by
  rcases hf with ⟨hx, hm⟩ | hf
  · unfold val; rw [hm, hx]; simp
  have hfm := IsRounding.m_le hf
  obtain ⟨hf1, hf2, hf3, hf4⟩ := hf
  have hpf : (0 : ℚ) < 2 ^ f.e := by positivity
  -- scale by 2 ^ f.e
  have hscale : ∀ z : ℚ, |z - x| = |z / 2 ^ f.e - x / 2 ^ f.e| * 2 ^ f.e := by
    intro z
    rw [← sub_div, abs_div, abs_of_pos hpf, div_mul_cancel₀ _ (ne_of_gt hpf)]
  rw [hscale (val f), hscale ((M : ℚ) * 2 ^ E)]
  apply mul_le_mul_of_nonneg_right _ hpf.le
  have hv : val f / 2 ^ f.e = f.m := by
    unfold val; field_simp
  rw [hv]
  rcases le_or_lt f.e E with hle | hlt
  · -- the candidate is an integer multiple of the grid
    have : (M : ℚ) * 2 ^ E / 2 ^ f.e = ((M * 2 ^ (E - f.e).toNat : Nat) : ℚ) := by
      push_cast
      rw [mul_div_assoc, ← zpow_sub₀ (by norm_num), ← zpow_natCast]
      congr 2
      omega
    rw [this]
    exact nearest_int _ _ _ hf3
  · -- the candidate lies below the binade
    have hw : (M : ℚ) * 2 ^ E / 2 ^ f.e ≤ 2 ^ (52 : ℕ) := by
      rw [div_le_iff₀ hpf]
      have h1 : (2 : ℚ) ^ (E + 1) ≤ 2 ^ f.e := zpow_le_zpow_right₀ (by norm_num) (by omega)
      rw [zpow_add₀ (by norm_num)] at h1
      have hMq : (M : ℚ) ≤ 2 ^ (53 : ℕ) := by exact_mod_cast hM
      have hpE : (0 : ℚ) < 2 ^ E := by positivity
      have h2 : (M : ℚ) * 2 ^ E ≤ 2 ^ (53 : ℕ) * 2 ^ E := mul_le_mul_of_nonneg_right hMq hpE.le
      have h3 : (2 : ℚ) ^ (52 : ℕ) * (2 ^ E * 2 ^ (1 : Int)) ≤ 2 ^ (52 : ℕ) * 2 ^ f.e :=
        mul_le_mul_of_nonneg_left h1 (by positivity)
      have h4 : (2 : ℚ) ^ (53 : ℕ) * 2 ^ E = 2 ^ (52 : ℕ) * (2 ^ E * 2 ^ (1 : Int)) := by
        norm_num; ring
      linarith
    have hn := nearest_int f.m (2 ^ 52) (x / 2 ^ f.e) hf3
    have hc : (((2 ^ 52 : Nat)) : ℚ) = (2 : ℚ) ^ (52 : ℕ) := by norm_num
    rw [hc] at hn
    have h5 : |(2 : ℚ) ^ (52 : ℕ) - x / 2 ^ f.e| = x / 2 ^ f.e - 2 ^ (52 : ℕ) := by
      rw [abs_sub_comm, abs_of_nonneg (by linarith)]
    have h6 : |(M : ℚ) * 2 ^ E / 2 ^ f.e - x / 2 ^ f.e| = x / 2 ^ f.e - (M : ℚ) * 2 ^ E / 2 ^ f.e := by
      rw [abs_sub_comm, abs_of_nonneg (by linarith)]
    rw [h6]
    rw [h5] at hn
    linarith

/-- A value with at most 53 significant bits is its own rounding. -/
theorem IsRounding.exact {x : ℚ} {f : Float64} (hf : IsRounding x f) (M : Nat) (E : Int)
    (hM : M ≤ 2 ^ 53) (hx : x = (M : ℚ) * 2 ^ E) : val f = x := by
  have := hf.nearest M E hM
  rw [← hx] at this
  simp at this
  linarith [sub_eq_zero.1 this]


theorem ofInt_natCast (n : Nat) : ofInt (n : Int) = round false n 1 := by
  have h : decide ((n : Int) < 0) = false := by
    rw [decide_eq_false_iff_not]; omega
  simp only [ofInt, h, Int.natAbs_ofNat]

theorem ofInt_spec (n : Nat) : IsRounding (n : ℚ) (ofInt (n : Int)) := by
  rw [ofInt_natCast]
  have := round_spec false n 1 (by norm_num)
  simpa using this

theorem ofInt_neg (n : Nat) : (ofInt (n : Int)).neg = false := by
  rw [ofInt_natCast, round_neg]

theorem val_ofInt (n : Nat) (h : n ≤ 2 ^ 53) : val (ofInt (n : Int)) = n :=
  (ofInt_spec n).exact n 0 h (by simp)

theorem div_spec (a b : Float64) (hb : 0 < b.m) : IsRounding (val a / val b) (div a b) := by
  unfold div
  have h := round_spec (a.neg != b.neg) (a.m * 2 ^ (a.e - b.e).toNat)
    (b.m * 2 ^ (b.e - a.e).toNat) (by positivity)
  have hbq : (0 : ℚ) < b.m := by exact_mod_cast hb
  have e : ((a.m * 2 ^ (a.e - b.e).toNat : Nat) : ℚ) / ((b.m * 2 ^ (b.e - a.e).toNat : Nat) : ℚ)
      = val a / val b := by
    have h2 := two_zpow_toNat (a.e - b.e)
    have h3 : -(a.e - b.e) = b.e - a.e := by ring
    rw [h3] at h2
    unfold val
    push_cast
    rw [mul_div_mul_comm, h2, zpow_sub₀ (by norm_num), mul_div_mul_comm]
  rw [e] at h
  exact h

theorem div_neg (a b : Float64) (ha : a.neg = false) (hb : b.neg = false) :
    (div a b).neg = false := by
  unfold div
  rw [round_neg, ha, hb]; rfl

theorem add_eq (a b : Float64) (ha : a.neg = false) (hb : b.neg = false) :
    add a b = round false
      ((a.m * 2 ^ (a.e - min a.e b.e).toNat + b.m * 2 ^ (b.e - min a.e b.e).toNat) *
        2 ^ (min a.e b.e).toNat) (2 ^ (-(min a.e b.e)).toNat) := by
  unfold add signed
  simp only [ha, hb]
  have hnn : (0 : Int) ≤ ((a.m * 2 ^ (a.e - min a.e b.e).toNat : Nat) : Int) +
      ((b.m * 2 ^ (b.e - min a.e b.e).toNat : Nat) : Int) := by positivity
  simp only [Bool.false_eq_true, if_false]
  have h1 : decide ((((a.m * 2 ^ (a.e - min a.e b.e).toNat : Nat) : Int) +
      ((b.m * 2 ^ (b.e - min a.e b.e).toNat : Nat) : Int)) < 0) = false := by
    rw [decide_eq_false_iff_not]; omega
  rw [h1]
  have h2 : ((((a.m * 2 ^ (a.e - min a.e b.e).toNat : Nat) : Int) +
      ((b.m * 2 ^ (b.e - min a.e b.e).toNat : Nat) : Int))).natAbs =
      a.m * 2 ^ (a.e - min a.e b.e).toNat + b.m * 2 ^ (b.e - min a.e b.e).toNat := by
    rw [← Nat.cast_add, Int.natAbs_ofNat]
  rw [h2]

theorem add_spec (a b : Float64) (ha : a.neg = false) (hb : b.neg = false) :
    IsRounding (val a + val b) (add a b) := by
  rw [add_eq a b ha hb]
  set e := min a.e b.e with he
  have h := round_spec false
    ((a.m * 2 ^ (a.e - e).toNat + b.m * 2 ^ (b.e - e).toNat) * 2 ^ e.toNat)
    (2 ^ (-e).toNat) (by positivity)
  have hval : (((a.m * 2 ^ (a.e - e).toNat + b.m * 2 ^ (b.e - e).toNat) * 2 ^ e.toNat : Nat) : ℚ) /
      ((2 ^ (-e).toNat : Nat) : ℚ) = val a + val b := by
    push_cast
    rw [mul_div_assoc, two_zpow_toNat e]
    have ea : ((2 : ℚ) ^ (a.e - e).toNat) = 2 ^ (a.e - e) := by
      rw [← zpow_natCast]; congr 1
      have : e ≤ a.e := min_le_left _ _
      omega
    have eb : ((2 : ℚ) ^ (b.e - e).toNat) = 2 ^ (b.e - e) := by
      rw [← zpow_natCast]; congr 1
      have : e ≤ b.e := min_le_right _ _
      omega
    rw [ea, eb]
    unfold val
    rw [add_mul, mul_assoc, mul_assoc, ← zpow_add₀ (by norm_num), ← zpow_add₀ (by norm_num)]
    simp
  rw [hval] at h
  exact h

theorem add_neg (a b : Float64) (ha : a.neg = false) (hb : b.neg = false) :
    (add a b).neg = false := by
  rw [add_eq a b ha hb, round_neg]

theorem nat_div_bounds (a b : Nat) (hb : 0 < b) :
    ((a / b : Nat) : ℚ) ≤ (a : ℚ) / b ∧ (a : ℚ) / b < ((a / b : Nat) : ℚ) + 1 := by
  have hbq : (0 : ℚ) < b := by exact_mod_cast hb
  constructor
  · rw [le_div_iff₀ hbq]
    have := Nat.div_mul_le_self a b
    exact_mod_cast this
  · rw [div_lt_iff₀ hbq]
    have h1 := Nat.div_add_mod a b
    have h2 := Nat.mod_lt a hb
    have h3 : a < (a / b + 1) * b := by
      calc a = b * (a / b) + a % b := h1.symm
        _ < b * (a / b) + b := by omega
        _ = (a / b + 1) * b := by ring
    exact_mod_cast h3

theorem toInt_spec (f : Float64) (hf : f.neg = false) :
    0 ≤ toInt f ∧ ((toInt f : Int) : ℚ) ≤ val f ∧ val f < ((toInt f : Int) : ℚ) + 1 := by
  unfold toInt signed
  simp only [hf, Bool.false_eq_true, if_false]
  have hbpos : 0 < 2 ^ (-f.e).toNat := by positivity
  have hv : val f = ((f.m * 2 ^ f.e.toNat : Nat) : ℚ) / ((2 ^ (-f.e).toNat : Nat) : ℚ) := by
    unfold val
    push_cast
    rw [mul_div_assoc, two_zpow_toNat]
  have := nat_div_bounds (f.m * 2 ^ f.e.toNat) (2 ^ (-f.e).toNat) hbpos
  rw [Int.cast_natCast, hv]
  exact ⟨by positivity, this.1, this.2⟩

end float64

/-! ## Uptime seconds -/

open float64

theorem Seconds_natCast (n : Nat) :
    time.Duration.Seconds (n : Int) =
      add (ofInt ((n / 1000000000 : Nat) : Int))
        (div (ofInt ((n % 1000000000 : Nat) : Int)) (ofInt 1000000000)) := by
  simp [time.Duration.Seconds, time.Second, Int.tdiv, Int.tmod]

theorem ofInt_billion : ofInt 1000000000 = ⟨false, 8388608000000000, -23⟩ := by decide

theorem val_billion : val (ofInt 1000000000) = 1000000000 := by
  rw [ofInt_billion]
  unfold val
  norm_num

/-- The float64 quotient `float64(nsec)/1e9` is the rounding of `nsec / 10^9`. -/
theorem fraction_spec (r : Nat) (hr : r < 1000000000) :
    IsRounding ((r : ℚ) / 1000000000) (div (ofInt (r : Int)) (ofInt 1000000000)) := by
  have h := div_spec (ofInt (r : Int)) (ofInt 1000000000) (by rw [ofInt_billion]; norm_num)
  rw [val_billion, val_ofInt r (by omega)] at h
  exact h

theorem fraction_neg (r : Nat) : (div (ofInt (r : Int)) (ofInt 1000000000)).neg = false :=
  div_neg _ _ (ofInt_neg r) (by rw [ofInt_billion])

theorem fraction_max :
    div (ofInt 999999999) (ofInt 1000000000) = ⟨false, 9007199245733793, -53⟩ := by decide

theorem fraction_le (r : Nat) (hr : r < 1000000000) :
    val (div (ofInt (r : Int)) (ofInt 1000000000)) ≤ 9007199245733793 / 2 ^ (53 : ℕ) := by
  have h1 := fraction_spec r hr
  have h2 := fraction_spec 999999999 (by norm_num)
  have hm := h1.mono h2 (by
    apply div_le_div_of_nonneg_right _ (by norm_num)
    have : r ≤ 999999999 := by omega
    exact_mod_cast this)
  have e : ((999999999 : Nat) : Int) = 999999999 := by norm_num
  rw [e, fraction_max] at hm
  have : val ⟨false, 9007199245733793, -53⟩ = 9007199245733793 / 2 ^ (53 : ℕ) := by
    unfold val; norm_num
  rw [this] at hm
  exact hm

theorem Seconds_spec (n : Nat) (hs : n / 1000000000 ≤ 2 ^ 53) :
    IsRounding (((n / 1000000000 : Nat) : ℚ) +
        val (div (ofInt ((n % 1000000000 : Nat) : Int)) (ofInt 1000000000)))
      (time.Duration.Seconds (n : Int)) := by
  rw [Seconds_natCast]
  have h := add_spec (ofInt ((n / 1000000000 : Nat) : Int))
    (div (ofInt ((n % 1000000000 : Nat) : Int)) (ofInt 1000000000)) (ofInt_neg _) (fraction_neg _)
  rw [val_ofInt _ hs] at h
  exact h

theorem Seconds_neg (n : Nat) : (time.Duration.Seconds (n : Int)).neg = false := by
  rw [Seconds_natCast]
  exact add_neg _ _ (ofInt_neg _) (fraction_neg _)

/-- The float64 number of seconds lies between the whole seconds and the next
whole second. -/
theorem Seconds_bounds (n : Nat) (hs : n / 1000000000 + 1 ≤ 2 ^ 53) :
    ((n / 1000000000 : Nat) : ℚ) ≤ val (time.Duration.Seconds (n : Int)) ∧
      val (time.Duration.Seconds (n : Int)) ≤ ((n / 1000000000 : Nat) : ℚ) + 1 := by
  have hV := Seconds_spec n (by omega)
  have hq0 := val_nonneg (div (ofInt ((n % 1000000000 : Nat) : Int)) (ofInt 1000000000))
  have hq1 := fraction_le (n % 1000000000) (Nat.mod_lt _ (by norm_num))
  have hlt : (9007199245733793 : ℚ) / 2 ^ (53 : ℕ) ≤ 1 := by norm_num
  constructor
  · have h := (ofInt_spec (n / 1000000000)).mono hV (by linarith)
    rw [val_ofInt _ (by omega)] at h
    exact h
  · have h := hV.mono (ofInt_spec (n / 1000000000 + 1))
      (by rw [Nat.cast_add, Nat.cast_one]; linarith)
    rw [val_ofInt _ hs, Nat.cast_add, Nat.cast_one] at h
    exact h

/-- Truncation of a non-negative float64 is monotone. -/
theorem toInt_mono (f g : Float64) (hf : f.neg = false) (hg : g.neg = false)
    (h : val f ≤ val g) : toInt f ≤ toInt g := by
  obtain ⟨_, hf1, _⟩ := toInt_spec f hf
  obtain ⟨_, _, hg2⟩ := toInt_spec g hg
  have : ((toInt f : Int) : ℚ) < ((toInt g + 1 : Int) : ℚ) := by push_cast; linarith
  have : toInt f < toInt g + 1 := by exact_mod_cast this
  omega

theorem toInt_ge (f : Float64) (hf : f.neg = false) (k : Nat) (h : (k : ℚ) ≤ val f) :
    (k : Int) ≤ toInt f := by
  obtain ⟨_, _, h2⟩ := toInt_spec f hf
  have : (((k : Int)) : ℚ) < ((toInt f + 1 : Int) : ℚ) := by push_cast; linarith
  have : (k : Int) < toInt f + 1 := by exact_mod_cast this
  omega

theorem toInt_le (f : Float64) (hf : f.neg = false) (k : Nat) (h : val f ≤ (k : ℚ)) :
    toInt f ≤ (k : Int) := by
  obtain ⟨_, h1, _⟩ := toInt_spec f hf
  have : ((toInt f : Int) : ℚ) ≤ (((k : Int)) : ℚ) := by push_cast; linarith
  exact_mod_cast this

theorem toInt_lt (f : Float64) (hf : f.neg = false) (k : Nat) (h : val f < (k : ℚ) + 1) :
    toInt f ≤ (k : Int) := by
  obtain ⟨_, h1, _⟩ := toInt_spec f hf
  have : ((toInt f : Int) : ℚ) < (((k : Int) + 1 : Int) : ℚ) := by push_cast; linarith
  have : toInt f < (k : Int) + 1 := by exact_mod_cast this
  omega

/-- Below `2^24` seconds the float64 sum stays under the next whole second. -/
theorem Seconds_lt (n : Nat) (hs : n / 1000000000 < 2 ^ 24) :
    val (time.Duration.Seconds (n : Int)) < ((n / 1000000000 : Nat) : ℚ) + 1 := by
  have hV := Seconds_spec n (by omega)
  have hb := Seconds_bounds n (by omega)
  have hq0 := val_nonneg (div (ofInt ((n % 1000000000 : Nat) : Int)) (ofInt 1000000000))
  have hq1 := fraction_le (n % 1000000000) (Nat.mod_lt _ (by norm_num))
  generalize val (div (ofInt ((n % 1000000000 : Nat) : Int)) (ofInt 1000000000)) = q at *
  generalize n / 1000000000 = s at *
  rcases lt_or_eq_of_le hb.2 with hlt | heq
  · exact hlt
  · exfalso
    have hM : (s + 1) * 2 ^ 29 - 1 ≤ 2 ^ 53 := by
      have : (s + 1) * 2 ^ 29 ≤ 2 ^ 24 * 2 ^ 29 := Nat.mul_le_mul_right _ (by omega)
      norm_num at this ⊢
      omega
    have hnear := hV.nearest ((s + 1) * 2 ^ 29 - 1) (-29) hM
    have hz : (((s + 1) * 2 ^ 29 - 1 : Nat) : ℚ) * 2 ^ (-29 : Int) =
        (s : ℚ) + 1 - 1 / 2 ^ (29 : ℕ) := by
      have h1 : 1 ≤ (s + 1) * 2 ^ 29 := Nat.succ_le_of_lt (by positivity)
      rw [Nat.cast_sub h1]
      push_cast
      rw [zpow_neg]
      norm_num
      ring
    rw [hz, heq] at hnear
    have e1 : |(s : ℚ) + 1 - ((s : ℚ) + q)| = 1 - q := by
      rw [abs_of_nonneg (by norm_num at hq1 ⊢; linarith)]
      ring
    rw [e1] at hnear
    rcases abs_cases ((s : ℚ) + 1 - 1 / 2 ^ (29 : ℕ) - ((s : ℚ) + q)) with ⟨h1, _⟩ | ⟨h1, _⟩
    · rw [h1] at hnear
      norm_num at hnear
      linarith
    · rw [h1] at hnear
      norm_num at hnear hq1
      linarith

theorem fraction_next :
    div (ofInt 999999998) (ofInt 1000000000) = ⟨false, 9007199236726593, -53⟩ := by decide

theorem fraction_le_next (r : Nat) (hr : r ≤ 999999998) :
    val (div (ofInt (r : Int)) (ofInt 1000000000)) ≤ 9007199236726593 / 2 ^ (53 : ℕ) := by
  have h1 := fraction_spec r (by omega)
  have h2 := fraction_spec 999999998 (by norm_num)
  have hm := h1.mono h2 (by
    apply div_le_div_of_nonneg_right _ (by norm_num)
    exact_mod_cast hr)
  have e : ((999999998 : Nat) : Int) = 999999998 := by norm_num
  rw [e, fraction_next] at hm
  have : val ⟨false, 9007199236726593, -53⟩ = 9007199236726593 / 2 ^ (53 : ℕ) := by
    unfold val; norm_num
  rw [this] at hm
  exact hm

/-- Below `2^25` seconds the float64 sum stays under the next whole second
unless the nanoseconds are 999999999. -/
theorem Seconds_lt_next (n : Nat) (hs : n / 1000000000 < 2 ^ 25)
    (hr : n % 1000000000 ≤ 999999998) :
    val (time.Duration.Seconds (n : Int)) < ((n / 1000000000 : Nat) : ℚ) + 1 := by
  have hV := Seconds_spec n (by omega)
  have hb := Seconds_bounds n (by omega)
  have hq0 := val_nonneg (div (ofInt ((n % 1000000000 : Nat) : Int)) (ofInt 1000000000))
  have hq1 := fraction_le_next (n % 1000000000) hr
  generalize val (div (ofInt ((n % 1000000000 : Nat) : Int)) (ofInt 1000000000)) = q at *
  generalize n / 1000000000 = s at *
  rcases lt_or_eq_of_le hb.2 with hlt | heq
  · exact hlt
  · exfalso
    have hM : (s + 1) * 2 ^ 28 - 1 ≤ 2 ^ 53 := by
      have : (s + 1) * 2 ^ 28 ≤ 2 ^ 25 * 2 ^ 28 := Nat.mul_le_mul_right _ (by omega)
      norm_num at this ⊢
      omega
    have hnear := hV.nearest ((s + 1) * 2 ^ 28 - 1) (-28) hM
    have hz : (((s + 1) * 2 ^ 28 - 1 : Nat) : ℚ) * 2 ^ (-28 : Int) =
        (s : ℚ) + 1 - 1 / 2 ^ (28 : ℕ) := by
      have h1 : 1 ≤ (s + 1) * 2 ^ 28 := Nat.succ_le_of_lt (by positivity)
      rw [Nat.cast_sub h1]
      push_cast
      rw [zpow_neg]
      norm_num
      ring
    rw [hz, heq] at hnear
    have e1 : |(s : ℚ) + 1 - ((s : ℚ) + q)| = 1 - q := by
      rw [abs_of_nonneg (by norm_num at hq1 ⊢; linarith)]
      ring
    rw [e1] at hnear
    rcases abs_cases ((s : ℚ) + 1 - 1 / 2 ^ (28 : ℕ) - ((s : ℚ) + q)) with ⟨h1, _⟩ | ⟨h1, _⟩
    · rw [h1] at hnear
      norm_num at hnear
      linarith
    · rw [h1] at hnear
      norm_num at hnear hq1
      linarith

/-- C6: for elapsed durations `0 ≤ d1 ≤ d2` (both at most the largest
duration) the seconds counts satisfy `0 ≤ seconds d1 ≤ seconds d2`. -/
theorem getUptime_seconds_monotone (d1 d2 : Int) (h0 : 0 ≤ d1) (h12 : d1 ≤ d2)
    (hmax : d2 ≤ time.maxDuration) :
    0 ≤ (getUptime d1).1 ∧ (getUptime d1).1 ≤ (getUptime d2).1 := by
  obtain ⟨n1, rfl⟩ := Int.eq_ofNat_of_zero_le h0
  obtain ⟨n2, rfl⟩ := Int.eq_ofNat_of_zero_le (le_trans h0 h12)
  have hn : n1 ≤ n2 := by exact_mod_cast h12
  have hn2 : n2 < 2 ^ 63 := by
    unfold time.maxDuration at hmax
    have : (n2 : Int) < 2 ^ 63 := by omega
    exact_mod_cast this
  have hs2 : n2 / 1000000000 + 1 ≤ 2 ^ 53 := by
    have : n2 / 1000000000 < 2 ^ 40 := by
      apply Nat.div_lt_of_lt_mul
      norm_num at hn2 ⊢; omega
    norm_num at this ⊢; omega
  have hs12 : n1 / 1000000000 ≤ n2 / 1000000000 := Nat.div_le_div_right hn
  have hs1 : n1 / 1000000000 + 1 ≤ 2 ^ 53 := by omega
  simp only [getUptime]
  refine ⟨(toInt_spec _ (Seconds_neg n1)).1, ?_⟩
  apply toInt_mono _ _ (Seconds_neg n1) (Seconds_neg n2)
  rcases lt_or_eq_of_le hs12 with hlt | heq
  · have b1 := (Seconds_bounds n1 hs1).2
    have b2 := (Seconds_bounds n2 hs2).1
    have : ((n1 / 1000000000 : Nat) : ℚ) + 1 ≤ ((n2 / 1000000000 : Nat) : ℚ) := by
      have : n1 / 1000000000 + 1 ≤ n2 / 1000000000 := hlt
      exact_mod_cast this
    linarith
  · have hV1 := Seconds_spec n1 (by omega)
    have hV2 := Seconds_spec n2 (by omega)
    apply hV1.mono hV2
    rw [heq]
    have hr : n1 % 1000000000 ≤ n2 % 1000000000 := by omega
    have hq := (fraction_spec (n1 % 1000000000) (Nat.mod_lt _ (by norm_num))).mono
      (fraction_spec (n2 % 1000000000) (Nat.mod_lt _ (by norm_num)))
      (by apply div_le_div_of_nonneg_right _ (by norm_num); exact_mod_cast hr)
    linarith

theorem getUptime_seconds_monotone_witness :
    0 ≤ (getUptime 1999999999).1 ∧ (getUptime 1999999999).1 ≤ (getUptime 2000000000).1 :=
  getUptime_seconds_monotone 1999999999 2000000000 (by decide) (by decide) (by decide)

/-- For every elapsed duration shorter than `2^24` seconds and 999999999
nanoseconds the seconds count is the duration divided by `10^9`. -/
theorem getUptime_seconds_exact (d : Int) (h0 : 0 ≤ d) (hlt : d < 16777216999999999) :
    (getUptime d).1 = d / 1000000000 := by
  obtain ⟨n, rfl⟩ := Int.eq_ofNat_of_zero_le h0
  have hn : n < 16777216999999999 := by exact_mod_cast hlt
  simp only [getUptime]
  have h1 := toInt_ge _ (Seconds_neg n) _ (Seconds_bounds n (by omega)).1
  have h2 : toInt (time.Duration.Seconds (n : Int)) ≤ ((n / 1000000000 : Nat) : Int) := by
    by_cases hs : n / 1000000000 < 2 ^ 24
    · exact toInt_lt _ (Seconds_neg n) _ (Seconds_lt n hs)
    · exact toInt_lt _ (Seconds_neg n) _ (Seconds_lt_next n (by omega) (by omega))
  omega

set_option maxRecDepth 100000

/-- C5: after `2^24` seconds and 999999999 nanoseconds (16777216999999999 ns,
about 194 days), a duration far below the largest one, the seconds count
`int(delta.Seconds())` is `2^24 + 1` although the duration divided by `10^9`,
the elapsed time truncated to whole seconds, is `2^24`: the float64 sum of
`Duration.Seconds` rounds up to the next whole second. -/
theorem getUptime_seconds_rounds_up :
    (0 : Int) ≤ 16777216999999999 ∧ 16777216999999999 ≤ time.maxDuration ∧
    (16777216999999999 : Int) / 1000000000 = 16777216 ∧
    (getUptime 16777216999999999).1 = 16777217 := by
  refine ⟨by norm_num, by norm_num [time.maxDuration], by norm_num, ?_⟩
  have h1 : (getUptime (2 ^ 24 * 1000000000 + 999999999)).1 = 2 ^ 24 + 1 := by decide
  norm_num at h1
  exact h1

/-! ## UTF-8 -/

namespace utf8

theorem DecodeRune_ascii (b : Nat) (t : GoString) (h : b < 0x80) : DecodeRune (b :: t) = (b, 1) := by
  simp [DecodeRune, h]

theorem EncodeRune_two (s0 s1 : Nat) (h0 : 0xC2 ≤ s0) (h0' : s0 < 0xE0) (h1 : 0x80 ≤ s1)
    (h1' : s1 ≤ 0xBF) : EncodeRune (s0 % 32 * 64 + s1 % 64) = [s0, s1] := by
  unfold EncodeRune
  have c1 : ¬ (s0 % 32 * 64 + s1 % 64 ≤ 0x7F) := by omega
  have c2 : s0 % 32 * 64 + s1 % 64 ≤ 0x7FF := by omega
  rw [if_neg c1, if_pos c2]
  congr 1
  · omega
  · congr 1; omega

theorem EncodeRune_three (s0 s1 s2 : Nat) (h0 : 0xE0 ≤ s0) (h0' : s0 < 0xF0)
    (hlo : (if s0 = 0xE0 then 0xA0 else 0x80) ≤ s1) (hhi : s1 ≤ (if s0 = 0xED then 0x9F else 0xBF))
    (h2 : 0x80 ≤ s2) (h2' : s2 ≤ 0xBF) :
    EncodeRune (s0 % 16 * 4096 + s1 % 64 * 64 + s2 % 64) = [s0, s1, s2] := by
  unfold EncodeRune
  have hlo' : 0x80 ≤ s1 := by split_ifs at hlo <;> omega
  have hhi' : s1 ≤ 0xBF := by split_ifs at hhi <;> omega
  have c1 : ¬ (s0 % 16 * 4096 + s1 % 64 * 64 + s2 % 64 ≤ 0x7F) := by
    split_ifs at hlo <;> omega
  have c2 : ¬ (s0 % 16 * 4096 + s1 % 64 * 64 + s2 % 64 ≤ 0x7FF) := by
    split_ifs at hlo <;> omega
  have c3 : ¬ (0x10FFFF < s0 % 16 * 4096 + s1 % 64 * 64 + s2 % 64 ∨
      (0xD800 ≤ s0 % 16 * 4096 + s1 % 64 * 64 + s2 % 64 ∧
        s0 % 16 * 4096 + s1 % 64 * 64 + s2 % 64 ≤ 0xDFFF)) := by
    split_ifs at hhi <;> omega
  have c4 : s0 % 16 * 4096 + s1 % 64 * 64 + s2 % 64 ≤ 0xFFFF := by omega
  rw [if_neg c1, if_neg c2, if_neg c3, if_pos c4]
  congr 1
  · omega
  · congr 1
    · omega
    · congr 1; omega

theorem EncodeRune_four (s0 s1 s2 s3 : Nat) (h0 : 0xF0 ≤ s0) (h0' : s0 ≤ 0xF4)
    (hlo : (if s0 = 0xF0 then 0x90 else 0x80) ≤ s1) (hhi : s1 ≤ (if s0 = 0xF4 then 0x8F else 0xBF))
    (h2 : 0x80 ≤ s2) (h2' : s2 ≤ 0xBF) (h3 : 0x80 ≤ s3) (h3' : s3 ≤ 0xBF) :
    EncodeRune (s0 % 8 * 262144 + s1 % 64 * 4096 + s2 % 64 * 64 + s3 % 64) = [s0, s1, s2, s3] := by
  unfold EncodeRune
  have hlo' : 0x80 ≤ s1 := by split_ifs at hlo <;> omega
  have hhi' : s1 ≤ 0xBF := by split_ifs at hhi <;> omega
  have c1 : ¬ (s0 % 8 * 262144 + s1 % 64 * 4096 + s2 % 64 * 64 + s3 % 64 ≤ 0x7F) := by
    split_ifs at hlo <;> omega
  have c2 : ¬ (s0 % 8 * 262144 + s1 % 64 * 4096 + s2 % 64 * 64 + s3 % 64 ≤ 0x7FF) := by
    split_ifs at hlo <;> omega
  have c3 : ¬ (0x10FFFF < s0 % 8 * 262144 + s1 % 64 * 4096 + s2 % 64 * 64 + s3 % 64 ∨
      (0xD800 ≤ s0 % 8 * 262144 + s1 % 64 * 4096 + s2 % 64 * 64 + s3 % 64 ∧
        s0 % 8 * 262144 + s1 % 64 * 4096 + s2 % 64 * 64 + s3 % 64 ≤ 0xDFFF)) := by
    split_ifs at hlo hhi <;> omega
  have c4 : ¬ (s0 % 8 * 262144 + s1 % 64 * 4096 + s2 % 64 * 64 + s3 % 64 ≤ 0xFFFF) := by
    split_ifs at hlo <;> omega
  rw [if_neg c1, if_neg c2, if_neg c3, if_neg c4]
  congr 1
  · omega
  · congr 1
    · omega
    · congr 1
      · omega
      · congr 1; omega


theorem DecodeRune_two (s0 s1 : Nat) (t : GoString) (h0 : 0xC2 ≤ s0) (h0' : s0 < 0xE0)
    (h1 : 0x80 ≤ s1) (h1' : s1 ≤ 0xBF) :
    DecodeRune (s0 :: s1 :: t) = (s0 % 32 * 64 + s1 % 64, 2) := by
  have a1 : ¬ s0 < 0x80 := by omega
  have a2 : ¬ (s0 < 0xC2 ∨ 0xF4 < s0) := by omega
  have a3 : s0 ≠ 0xE0 := by omega
  have a4 : s0 ≠ 0xF0 := by omega
  have a5 : s0 ≠ 0xED := by omega
  have a6 : s0 ≠ 0xF4 := by omega
  have a7 : ¬ (s1 < 0x80 ∨ 0xBF < s1) := by omega
  simp [DecodeRune, a1, a2, a3, a4, a5, a6, a7, h0']

theorem DecodeRune_three (s0 s1 s2 : Nat) (t : GoString) (h0 : 0xE0 ≤ s0) (h0' : s0 < 0xF0)
    (hlo : (if s0 = 0xE0 then 0xA0 else 0x80) ≤ s1) (hhi : s1 ≤ (if s0 = 0xED then 0x9F else 0xBF))
    (h2 : 0x80 ≤ s2) (h2' : s2 ≤ 0xBF) :
    DecodeRune (s0 :: s1 :: s2 :: t) = (s0 % 16 * 4096 + s1 % 64 * 64 + s2 % 64, 3) := by
  have a1 : ¬ s0 < 0x80 := by omega
  have a2 : ¬ (s0 < 0xC2 ∨ 0xF4 < s0) := by omega
  have a3 : ¬ s0 < 0xE0 := by omega
  have a4 : s0 ≠ 0xF0 := by omega
  have a6 : s0 ≠ 0xF4 := by omega
  have a7 : ¬ (s2 < 0x80 ∨ 0xBF < s2) := by omega
  have a8 : ¬ (s1 < (if s0 = 0xE0 then 0xA0 else 0x80) ∨
      (if s0 = 0xED then 0x9F else 0xBF) < s1) := by omega
  simp only [DecodeRune, a1, a2, a3, a4, a6, a7, h0', if_false, if_true]
  simp [a8, a7]

theorem DecodeRune_four (s0 s1 s2 s3 : Nat) (t : GoString) (h0 : 0xF0 ≤ s0) (h0' : s0 ≤ 0xF4)
    (hlo : (if s0 = 0xF0 then 0x90 else 0x80) ≤ s1) (hhi : s1 ≤ (if s0 = 0xF4 then 0x8F else 0xBF))
    (h2 : 0x80 ≤ s2) (h2' : s2 ≤ 0xBF) (h3 : 0x80 ≤ s3) (h3' : s3 ≤ 0xBF) :
    DecodeRune (s0 :: s1 :: s2 :: s3 :: t) =
      (s0 % 8 * 262144 + s1 % 64 * 4096 + s2 % 64 * 64 + s3 % 64, 4) := by
  have a1 : ¬ s0 < 0x80 := by omega
  have a2 : ¬ (s0 < 0xC2 ∨ 0xF4 < s0) := by omega
  have a3 : ¬ s0 < 0xE0 := by omega
  have a4 : ¬ s0 < 0xF0 := by omega
  have a5 : s0 ≠ 0xE0 := by omega
  have a6 : s0 ≠ 0xED := by omega
  have a7 : ¬ (s2 < 0x80 ∨ 0xBF < s2) := by omega
  have a9 : ¬ (s3 < 0x80 ∨ 0xBF < s3) := by omega
  have a8 : ¬ (s1 < (if s0 = 0xF0 then 0x90 else 0x80) ∨
      (if s0 = 0xF4 then 0x8F else 0xBF) < s1) := by omega
  simp only [DecodeRune, a1, a2, a3, a4, a5, a6, a7, a9, if_false, if_true]
  simp [a8, a7, a9]

/-- The shapes of the first rune of a non-empty string. -/
theorem DecodeRune_cases (s0 : Nat) (t : GoString) :
    DecodeRune (s0 :: t) = (RuneError, 1) ∨
    (s0 < 0x80 ∧ DecodeRune (s0 :: t) = (s0, 1)) ∨
    (∃ s1 t1, t = s1 :: t1 ∧ 0xC2 ≤ s0 ∧ s0 < 0xE0 ∧ 0x80 ≤ s1 ∧ s1 ≤ 0xBF) ∨
    (∃ s1 s2 t2, t = s1 :: s2 :: t2 ∧ 0xE0 ≤ s0 ∧ s0 < 0xF0 ∧
      (if s0 = 0xE0 then 0xA0 else 0x80) ≤ s1 ∧ s1 ≤ (if s0 = 0xED then 0x9F else 0xBF) ∧
      0x80 ≤ s2 ∧ s2 ≤ 0xBF) ∨
    (∃ s1 s2 s3 t3, t = s1 :: s2 :: s3 :: t3 ∧ 0xF0 ≤ s0 ∧ s0 ≤ 0xF4 ∧
      (if s0 = 0xF0 then 0x90 else 0x80) ≤ s1 ∧ s1 ≤ (if s0 = 0xF4 then 0x8F else 0xBF) ∧
      0x80 ≤ s2 ∧ s2 ≤ 0xBF ∧ 0x80 ≤ s3 ∧ s3 ≤ 0xBF) := by
  by_cases a1 : s0 < 0x80
  · right; left; exact ⟨a1, DecodeRune_ascii s0 t a1⟩
  by_cases a2 : s0 < 0xC2 ∨ 0xF4 < s0
  · left; simp [DecodeRune, a1, a2]
  rcases t with _ | ⟨s1, t1⟩
  · left
    simp only [DecodeRune, a1, a2, if_false]
    split_ifs <;> rfl
  by_cases hb1 : s1 < (if s0 = 0xE0 then 0xA0 else if s0 = 0xF0 then 0x90 else 0x80) ∨
      (if s0 = 0xED then 0x9F else if s0 = 0xF4 then 0x8F else 0xBF) < s1
  · left
    simp only [DecodeRune, a1, a2, if_false]
    split_ifs <;> rfl
  by_cases a3 : s0 < 0xE0
  · right; right; left
    refine ⟨s1, t1, rfl, by omega, a3, ?_, ?_⟩
    · split_ifs at hb1 <;> omega
    · split_ifs at hb1 <;> omega
  rcases t1 with _ | ⟨s2, t2⟩
  · left
    simp only [DecodeRune, a1, a2, a3, if_false]
    split_ifs <;> first | rfl | simp_all
  by_cases hb2 : s2 < 0x80 ∨ 0xBF < s2
  · left
    simp only [DecodeRune, a1, a2, a3, if_false]
    split_ifs <;> first | rfl | simp_all
  by_cases a4 : s0 < 0xF0
  · right; right; right; left
    refine ⟨s1, s2, t2, rfl, by omega, a4, ?_, ?_, by omega, by omega⟩
    · split_ifs at hb1 ⊢ <;> omega
    · split_ifs at hb1 ⊢ <;> omega
  rcases t2 with _ | ⟨s3, t3⟩
  · left
    simp only [DecodeRune, a1, a2, a3, a4, if_false]
    split_ifs <;> first | rfl | simp_all
  by_cases hb3 : s3 < 0x80 ∨ 0xBF < s3
  · left
    simp only [DecodeRune, a1, a2, a3, a4, if_false]
    split_ifs <;> first | rfl | simp_all
  right; right; right; right
  refine ⟨s1, s2, s3, t3, rfl, by omega, by omega, ?_, ?_, by omega, by omega, by omega, by omega⟩
  · split_ifs at hb1 ⊢ <;> omega
  · split_ifs at hb1 ⊢ <;> omega


theorem EncodeRune_ascii (b : Nat) (h : b < 0x80) : EncodeRune b = [b] := by
  have : b ≤ 0x7F := by omega
  simp [EncodeRune, this]

/-- A well-formed first rune is the encoding of its code point, and decoding
reads no further than its bytes. -/
theorem DecodeRune_valid (s0 : Nat) (t : GoString)
    (hv : ¬ ((DecodeRune (s0 :: t)).1 = RuneError ∧ (DecodeRune (s0 :: t)).2 = 1)) :
    1 ≤ (DecodeRune (s0 :: t)).2 ∧ (DecodeRune (s0 :: t)).2 ≤ (s0 :: t).length ∧
      EncodeRune (DecodeRune (s0 :: t)).1 = (s0 :: t).take (DecodeRune (s0 :: t)).2 ∧
      ∀ X : GoString, DecodeRune ((s0 :: t).take (DecodeRune (s0 :: t)).2 ++ X) =
        DecodeRune (s0 :: t) := by
  rcases DecodeRune_cases s0 t with h | ⟨h0, h⟩ | ⟨s1, t1, rfl, h0, h0', h1, h1'⟩ |
    ⟨s1, s2, t2, rfl, h0, h0', hlo, hhi, h2, h2'⟩ |
    ⟨s1, s2, s3, t3, rfl, h0, h0', hlo, hhi, h2, h2', h3, h3'⟩
  · exfalso; apply hv; rw [h]; exact ⟨rfl, rfl⟩
  · rw [h]
    refine ⟨le_refl _, by simp, ?_, ?_⟩
    · simp [EncodeRune_ascii s0 h0]
    · intro X; simp [DecodeRune_ascii s0 X h0]
  · rw [DecodeRune_two s0 s1 t1 h0 h0' h1 h1']
    refine ⟨by norm_num, by simp, ?_, ?_⟩
    · simp [EncodeRune_two s0 s1 h0 h0' h1 h1']
    · intro X; simp [DecodeRune_two s0 s1 X h0 h0' h1 h1']
  · rw [DecodeRune_three s0 s1 s2 t2 h0 h0' hlo hhi h2 h2']
    refine ⟨by norm_num, by simp, ?_, ?_⟩
    · simp [EncodeRune_three s0 s1 s2 h0 h0' hlo hhi h2 h2']
    · intro X; simp [DecodeRune_three s0 s1 s2 X h0 h0' hlo hhi h2 h2']
  · rw [DecodeRune_four s0 s1 s2 s3 t3 h0 h0' hlo hhi h2 h2' h3 h3']
    refine ⟨by norm_num, by simp, ?_, ?_⟩
    · simp [EncodeRune_four s0 s1 s2 s3 h0 h0' hlo hhi h2 h2' h3 h3']
    · intro X; simp [DecodeRune_four s0 s1 s2 s3 X h0 h0' hlo hhi h2 h2' h3 h3']

/-- A decoded rune is never a surrogate and never above U+10FFFF. -/
theorem DecodeRune_range (s0 : Nat) (t : GoString) :
    (DecodeRune (s0 :: t)).1 ≤ 0x10FFFF ∧
      ¬ (0xD800 ≤ (DecodeRune (s0 :: t)).1 ∧ (DecodeRune (s0 :: t)).1 < 0xE000) := by
  rcases DecodeRune_cases s0 t with h | ⟨h0, h⟩ | ⟨s1, t1, rfl, h0, h0', h1, h1'⟩ |
    ⟨s1, s2, t2, rfl, h0, h0', hlo, hhi, h2, h2'⟩ |
    ⟨s1, s2, s3, t3, rfl, h0, h0', hlo, hhi, h2, h2', h3, h3'⟩
  · rw [h]; simp [RuneError]
  · rw [h]; simp; omega
  · rw [DecodeRune_two s0 s1 t1 h0 h0' h1 h1']; simp; omega
  · rw [DecodeRune_three s0 s1 s2 t2 h0 h0' hlo hhi h2 h2']
    simp
    split_ifs at hlo hhi <;> omega
  · rw [DecodeRune_four s0 s1 s2 s3 t3 h0 h0' hlo hhi h2 h2' h3 h3']
    simp
    split_ifs at hlo hhi <;> omega

end utf8

namespace json

theorem unquote_quote (g : Nat) (X : GoString) : unquote (g + 1) (34 :: X) = some ([], X) := by
  rw [unquote]
  rfl

theorem unquote_step (g c : Nat) (X bs Y : GoString) (h1 : c ≠ 34)
    (h : unquoteStep c X = some (bs, Y)) :
    unquote (g + 1) (c :: X) = consBytes bs (unquote g Y) := by
  rw [unquote]
  simp only [h1, if_false, h]

theorem hexVal_hex (n : Nat) (h : n < 16) : hexVal (hex n) = some n := by
  unfold hex hexVal
  split_ifs <;> (congr 1; omega)

theorem unquoteStep_plain (c : Nat) (X : GoString) (h : htmlSafe c = true) :
    c ≠ 34 ∧ unquoteStep c X = some ([c], X) := by
  simp only [htmlSafe, decide_eq_true_eq, Bool.and_eq_true, Bool.decide_and] at h
  have h2 : c ≠ 92 := by tauto
  have h3 : ¬ c < 0x20 := by omega
  have h4 : c < 0x80 := by tauto
  refine ⟨by tauto, ?_⟩
  simp only [unquoteStep, h2, h3, h4, if_false, if_true]

theorem unquoteStep_u (rr : Nat) (X : GoString) (a b c d : Nat)
    (hget : getu4 (92 :: 117 :: a :: b :: c :: d :: X) = some rr)
    (hs : ¬ (0xD800 ≤ rr ∧ rr < 0xE000)) :
    unquoteStep 92 (117 :: a :: b :: c :: d :: X) = some (utf8.EncodeRune rr, X) := by
  simp only [unquoteStep, if_true, hget]
  simp [hs]

theorem getu4_eq (a b c d x y z w : Nat) (X : GoString) (ha : hexVal a = some x)
    (hb : hexVal b = some y) (hc : hexVal c = some z) (hd : hexVal d = some w) :
    getu4 (92 :: 117 :: a :: b :: c :: d :: X) = some (x * 4096 + y * 256 + z * 16 + w) := by
  simp [getu4, ha, hb, hc, hd]

/-- The decoder reads an escape the encoder writes for an ASCII byte back as
that byte. -/
theorem unquoteStep_escape (b : Nat) (hb : b < 0x80) :
    ∃ tl, escapeByte b = 92 :: tl ∧ ∀ X, unquoteStep 92 (tl ++ X) = some ([b], X) := by
  unfold escapeByte
  split_ifs with h1 h2 h3 h4 h5 h6
  · refine ⟨[b], rfl, fun X => ?_⟩
    rcases h1 with h | h <;> subst h <;> simp [unquoteStep]
  · subst h2; exact ⟨[98], rfl, fun X => by simp [unquoteStep]⟩
  · subst h3; exact ⟨[102], rfl, fun X => by simp [unquoteStep]⟩
  · subst h4; exact ⟨[110], rfl, fun X => by simp [unquoteStep]⟩
  · subst h5; exact ⟨[114], rfl, fun X => by simp [unquoteStep]⟩
  · subst h6; exact ⟨[116], rfl, fun X => by simp [unquoteStep]⟩
  · refine ⟨[117, 48, 48, hex (b / 16), hex (b % 16)], by simp [ascii], fun X => ?_⟩
    have hg := getu4_eq 48 48 (hex (b / 16)) (hex (b % 16)) 0 0 (b / 16) (b % 16) X
      (by decide) (by decide) (hexVal_hex _ (by omega)) (hexVal_hex _ (by omega))
    have hv : 0 * 4096 + 0 * 256 + b / 16 * 16 + b % 16 = b := by omega
    rw [hv] at hg
    have := unquoteStep_u b X 48 48 (hex (b / 16)) (hex (b % 16)) hg (by omega)
    rw [utf8.EncodeRune_ascii b hb] at this
    simpa using this

end json

/-! ## JSON: the encoder against the decoder -/

namespace json

theorem consBytes_some (bs a b : GoString) : consBytes bs (some (a, b)) = some (bs ++ a, b) := rfl

/-- One iteration of the encoder against one step of the decoder: both stand
for the same number of bytes of the string, the text written starts with a
byte other than the quote, and the decoder reads it back as the bytes of the
string with an invalid byte replaced. -/
theorem appendStep_unquoteStep (b : Nat) (t : GoString) :
    (appendStep b t).2 = (replaceStep b t).2 ∧ 1 ≤ (appendStep b t).2 ∧
      (appendStep b t).2 ≤ (b :: t).length ∧
      ∃ c tl, (appendStep b t).1 = c :: tl ∧ c ≠ 34 ∧
        ∀ Y, unquoteStep c (tl ++ Y) = some ((replaceStep b t).1, Y) := by
  by_cases hb : b < 0x80
  · have hd : utf8.DecodeRune (b :: t) = (b, 1) := utf8.DecodeRune_ascii b t hb
    have hne : b ≠ utf8.RuneError := by
      simp [utf8.RuneError]; omega
    have hr : replaceStep b t = ([b], 1) := by
      simp [replaceStep, hd, hne]
    rw [hr]
    by_cases hsafe : htmlSafe b = true
    · have ha : appendStep b t = ([b], 1) := by simp only [appendStep, hb, hsafe, if_true]
      rw [ha]
      obtain ⟨hq, _⟩ := unquoteStep_plain b [] hsafe
      refine ⟨rfl, le_refl _, by simp, b, [], rfl, hq, fun Y => ?_⟩
      exact (unquoteStep_plain b Y hsafe).2
    · have ha : appendStep b t = (escapeByte b, 1) := by
        simp only [appendStep, hb, hsafe, if_true, if_false]
        rfl
      rw [ha]
      obtain ⟨tl, he, hstep⟩ := unquoteStep_escape b hb
      exact ⟨rfl, le_refl _, by simp, 92, tl, he, by decide, hstep⟩
  · by_cases hinv : (utf8.DecodeRune (b :: t)).1 = utf8.RuneError ∧
        (utf8.DecodeRune (b :: t)).2 = 1
    · have ha : appendStep b t = (ascii "\\ufffd", 1) := by
        simp only [appendStep, hb, hinv, and_self, if_true, if_false]
      have hr : replaceStep b t = ([0xEF, 0xBF, 0xBD], 1) := by
        simp only [replaceStep, hinv, and_self, if_true]
      rw [ha, hr]
      refine ⟨rfl, le_refl _, by simp, 92, [117, 102, 102, 102, 100], by decide, by decide,
        fun Y => ?_⟩
      have hg4 := getu4_eq 102 102 102 100 15 15 15 13 Y
        (by decide) (by decide) (by decide) (by decide)
      have hstep := unquoteStep_u _ _ 102 102 102 100 hg4 (by decide)
      have e2 : utf8.EncodeRune (15 * 4096 + 15 * 256 + 15 * 16 + 13) = [0xEF, 0xBF, 0xBD] := by
        decide
      rw [e2] at hstep
      exact hstep
    · obtain ⟨hn1, hn2, henc, hext⟩ := utf8.DecodeRune_valid b t hinv
      have hr : replaceStep b t =
          ((b :: t).take (utf8.DecodeRune (b :: t)).2, (utf8.DecodeRune (b :: t)).2) := by
        simp only [replaceStep, hinv, if_false]
      rw [hr]
      by_cases hls : (utf8.DecodeRune (b :: t)).1 = 0x2028 ∨
          (utf8.DecodeRune (b :: t)).1 = 0x2029
      · have ha : appendStep b t = (ascii "\\u202" ++ [hex ((utf8.DecodeRune (b :: t)).1 % 16)],
            (utf8.DecodeRune (b :: t)).2) := by
          simp only [appendStep, hb, hinv, hls, if_true, if_false]
        rw [ha]
        refine ⟨rfl, hn1, hn2, 92, [117, 50, 48, 50, hex ((utf8.DecodeRune (b :: t)).1 % 16)],
          by simp [ascii], by decide, fun Y => ?_⟩
        have hhex : hexVal (hex ((utf8.DecodeRune (b :: t)).1 % 16)) =
            some ((utf8.DecodeRune (b :: t)).1 % 16) := hexVal_hex _ (by omega)
        have hg4 := getu4_eq 50 48 50 (hex ((utf8.DecodeRune (b :: t)).1 % 16)) 2 0 2
          ((utf8.DecodeRune (b :: t)).1 % 16) Y (by decide) (by decide) (by decide) hhex
        have hval : 2 * 4096 + 0 * 256 + 2 * 16 + (utf8.DecodeRune (b :: t)).1 % 16 =
            (utf8.DecodeRune (b :: t)).1 := by
          rcases hls with h | h <;> rw [h]
        rw [hval] at hg4
        have hstep := unquoteStep_u _ _ 50 48 50 _ hg4
          (by rcases hls with h | h <;> rw [h] <;> decide)
        rw [henc] at hstep
        exact hstep
      · have ha : appendStep b t =
            ((b :: t).take (utf8.DecodeRune (b :: t)).2, (utf8.DecodeRune (b :: t)).2) := by
          simp only [appendStep, hb, hinv, hls, if_false]
        rw [ha]
        obtain ⟨k, hk⟩ : ∃ k, (utf8.DecodeRune (b :: t)).2 = k + 1 :=
          ⟨(utf8.DecodeRune (b :: t)).2 - 1, by omega⟩
        have htake : (b :: t).take (utf8.DecodeRune (b :: t)).2 = b :: t.take k := by
          rw [hk]; simp
        refine ⟨rfl, hn1, hn2, b, t.take k, htake, by omega, fun Y => ?_⟩
        have h92 : b ≠ 92 := by omega
        have h20 : ¬ b < 0x20 := by omega
        simp only [unquoteStep, h92, h20, hb, if_false]
        have hx := hext Y
        rw [htake, List.cons_append] at hx
        rw [hx, henc, htake]
        congr 2
        rw [hk]
        simp only [List.drop_succ_cons]
        rw [List.drop_append_of_le_length (by
          simp only [List.length_take]
          simp only [List.length_cons] at hn2
          omega)]
        rw [List.drop_eq_nil_of_le (by simp)]
        simp

/-- What the decoder reads back from the text the encoder writes between the
quotes of a string literal: the string with its invalid bytes replaced. -/
theorem unquote_appendStringLoop (fuel : Nat) :
    ∀ (s rest : GoString) (g : Nat), s.length ≤ fuel →
      (appendStringLoop fuel s).length < g →
      unquote g (appendStringLoop fuel s ++ 34 :: rest) =
        some (replaceInvalidLoop fuel s, rest) := by
  induction fuel with
  | zero =>
    intro s rest g hs hg
    have : s = [] := List.length_eq_zero.1 (by omega)
    subst this
    obtain ⟨g, rfl⟩ : ∃ k, g = k + 1 := ⟨g - 1, by omega⟩
    simp [appendStringLoop, replaceInvalidLoop, unquote_quote]
  | succ f ih =>
    intro s rest g hs hg
    obtain ⟨g, rfl⟩ : ∃ k, g = k + 1 := ⟨g - 1, by omega⟩
    rcases s with _ | ⟨b, t⟩
    · simp [appendStringLoop, replaceInvalidLoop, unquote_quote]
    obtain ⟨h2, h1, hle, c, tl, hc, hq, hstep⟩ := appendStep_unquoteStep b t
    rw [appendStringLoop] at hg ⊢
    rw [replaceInvalidLoop, ← h2]
    have hdrop : ((b :: t).drop (appendStep b t).2).length ≤ f := by
      simp only [List.length_drop, List.length_cons] at hs hle ⊢
      omega
    rw [hc] at hg ⊢
    simp only [List.cons_append, List.append_assoc, List.length_cons, List.length_append] at hg ⊢
    rw [unquote_step g c _ _ _ hq (hstep _), ih _ rest g hdrop (by omega), consBytes_some]

/-- A string literal the encoder writes, followed by any text, is read back
as the string with its invalid bytes replaced. -/
theorem unquote_appendString (s rest : GoString) (g : Nat) (hg : (appendString s).length ≤ g + 1) :
    ∃ body, appendString s = 34 :: body ∧
      unquote g (body ++ rest) = some (replaceInvalid s, rest) := by
  refine ⟨appendStringLoop s.length s ++ [34], by simp [appendString], ?_⟩
  rw [List.append_assoc]
  have := unquote_appendStringLoop s.length s rest g le_rfl (by
    simp [appendString] at hg; omega)
  simpa using this


/-! ### Well-formed strings are encoded without loss -/

theorem replaceInvalidLoop_valid (fuel : Nat) :
    ∀ s : GoString, s.length ≤ fuel → utf8.validLoop fuel s = true →
      replaceInvalidLoop fuel s = s := by
  induction fuel with
  | zero =>
    intro s hs _
    have : s = [] := List.length_eq_zero.1 (by omega)
    subst this
    simp [replaceInvalidLoop]
  | succ f ih =>
    intro s hs hv
    rcases s with _ | ⟨b, t⟩
    · simp [replaceInvalidLoop]
    rw [utf8.validLoop] at hv
    rw [replaceInvalidLoop]
    by_cases hinv : (utf8.DecodeRune (b :: t)).1 = utf8.RuneError ∧
        (utf8.DecodeRune (b :: t)).2 = 1
    · simp [hinv] at hv
    · simp only [hinv, if_false] at hv
      obtain ⟨hn1, hn2, _, _⟩ := utf8.DecodeRune_valid b t hinv
      have hr : replaceStep b t =
          ((b :: t).take (utf8.DecodeRune (b :: t)).2, (utf8.DecodeRune (b :: t)).2) := by
        simp only [replaceStep, hinv, if_false]
      rw [hr]
      simp only []
      rw [ih _ (by
        simp only [List.length_drop, List.length_cons] at hs hn2 ⊢
        omega) hv]
      exact List.take_append_drop _ _

/-- A well-formed UTF-8 string has no byte to replace. -/
theorem replaceInvalid_valid (s : GoString) (h : utf8.ValidString s = true) :
    replaceInvalid s = s :=
  replaceInvalidLoop_valid s.length s le_rfl h

/-! ### Integers -/

theorem decimal_pos_spec (n : Nat) :
    0 < n → ∃ c ds, decimal n = c :: ds ∧ 49 ≤ c ∧ c ≤ 57 ∧ ds.all isDigit = true ∧
      digitsVal (c :: ds) = n := by
  induction n using Nat.strong_induction_on with
  | _ n ih =>
    intro hn
    by_cases h10 : n < 10
    · refine ⟨48 + n, [], decimal_small n h10, by omega, by omega, rfl, ?_⟩
      simp [digitsVal]
    · obtain ⟨c, ds, hc, h1, h2, h3, h4⟩ := ih (n / 10) (by omega) (by omega)
      refine ⟨c, ds ++ [48 + n % 10], ?_, h1, h2, ?_, ?_⟩
      · rw [decimal_step n (by omega), hc]; rfl
      · simp only [List.all_append, h3, Bool.true_and]
        simp [isDigit]; omega
      · have : digitsVal (c :: (ds ++ [48 + n % 10])) = digitsVal (c :: ds) * 10 + n % 10 := by
          simp [digitsVal, List.foldl_append]
        rw [this, h4]; omega

theorem takeWhile_digits (ds rest : GoString) (h : ds.all isDigit = true)
    (hr : ∀ c t, rest = c :: t → isDigit c = false) :
    (ds ++ rest).takeWhile isDigit = ds ∧ (ds ++ rest).dropWhile isDigit = rest := by
  induction ds with
  | nil =>
    rcases rest with _ | ⟨c, t⟩
    · simp
    · have := hr c t rfl
      simp [List.takeWhile, List.dropWhile, this]
  | cons d ds ih =>
    simp only [List.all_cons, Bool.and_eq_true] at h
    obtain ⟨h1, h2⟩ := ih h.2
    simp [List.takeWhile, List.dropWhile, h.1, h1, h2]

theorem scanExp_delim (lit rest : GoString)
    (hr : Delim rest) : scanExp lit rest = some (lit, rest) := by
  rcases rest with _ | ⟨c, t⟩
  · simp [Delim] at hr
  · simp [Delim] at hr
    have : ¬ (c = 101 ∨ c = 69) := by omega
    simp [scanExp, this]

theorem scanFrac_delim (lit rest : GoString)
    (hr : Delim rest) : scanFrac lit rest = some (lit, rest) := by
  rcases rest with _ | ⟨c, t⟩
  · simp [Delim] at hr
  · have hc : c ≠ 46 := by simp [Delim] at hr; omega
    unfold scanFrac
    split
    · rename_i heq; simp at heq; omega
    · exact scanExp_delim lit _ hr

theorem delim_not_digit (rest : GoString) (hr : Delim rest) :
    ∀ c t, rest = c :: t → isDigit c = false := by
  intro c t h
  subst h
  simp [Delim] at hr
  simp [isDigit]; omega

theorem scanNumber_natural (n : Nat) (rest : GoString)
    (hr : Delim rest) :
    scanNumber (decimal n ++ rest) = some (decimal n, rest) := by
  by_cases hn : n = 0
  · subst hn
    have : decimal 0 = [48] := by simp [decimal]
    rw [this]
    simp [scanNumber, scanFrac_delim _ rest hr]
  · obtain ⟨c, ds, hc, h1, h2, h3, _⟩ := decimal_pos_spec n (Nat.pos_of_ne_zero hn)
    rw [hc]
    obtain ⟨ht, hdw⟩ := takeWhile_digits ds rest h3 (delim_not_digit rest hr)
    have hc45 : c ≠ 45 := by omega
    have hc48 : c ≠ 48 := by omega
    simp [scanNumber, hc45, hc48, h1, h2, ht, hdw, scanFrac_delim _ rest hr]

theorem scanNumber_negative (n : Nat) (rest : GoString)
    (hr : Delim rest) :
    scanNumber (45 :: decimal n ++ rest) = some (45 :: decimal n, rest) := by
  by_cases hn : n = 0
  · subst hn
    have : decimal 0 = [48] := by simp [decimal]
    rw [this]
    simp [scanNumber, scanFrac_delim _ rest hr]
  · obtain ⟨c, ds, hc, h1, h2, h3, _⟩ := decimal_pos_spec n (Nat.pos_of_ne_zero hn)
    rw [hc]
    obtain ⟨ht, hdw⟩ := takeWhile_digits ds rest h3 (delim_not_digit rest hr)
    have hc48 : c ≠ 48 := by omega
    simp [scanNumber, hc48, h1, h2, ht, hdw, scanFrac_delim _ rest hr]

theorem appendInt_eq (i : Int) :
    appendInt i = if i < 0 then 45 :: decimal i.natAbs else decimal i.natAbs := by
  simp [appendInt, fmt.fmtInteger, fmtDigits_eq]

theorem scanNumber_appendInt (i : Int) (rest : GoString)
    (hr : Delim rest) :
    scanNumber (appendInt i ++ rest) = some (appendInt i, rest) := by
  rw [appendInt_eq]
  split_ifs
  · exact scanNumber_negative _ rest hr
  · exact scanNumber_natural _ rest hr

theorem decimal_spec (n : Nat) :
    decimal n ≠ [] ∧ (decimal n).all isDigit = true ∧ digitsVal (decimal n) = n ∧
      (decimal n).head? ≠ some 45 := by
  by_cases hn : n = 0
  · subst hn
    have : decimal 0 = [48] := by simp [decimal]
    rw [this]; decide
  · obtain ⟨c, ds, hc, h1, h2, h3, h4⟩ := decimal_pos_spec n (Nat.pos_of_ne_zero hn)
    rw [hc]
    refine ⟨by simp, ?_, h4, by simp; omega⟩
    simp only [List.all_cons, h3, Bool.and_true]
    simp [isDigit]; omega

/-- The integer literal the encoder writes is read back as the integer, for
every integer of the int64 range. -/
theorem parseInt64_appendInt (i : Int) (h1 : -(2 : Int) ^ 63 ≤ i) (h2 : i < (2 : Int) ^ 63) :
    parseInt64 (appendInt i) = some i := by
  rw [appendInt_eq]
  obtain ⟨hne, hall, hval, hhead⟩ := decimal_spec i.natAbs
  split_ifs with hneg
  · simp only [parseInt64, hne, hall, hval, ne_eq, not_false_eq_true, true_and]
    have : i.natAbs ≤ 2 ^ 63 := by omega
    simp only [this, if_true]
    congr 1; omega
  · unfold parseInt64
    split
    · rename_i ds heq
      rw [heq] at hhead
      simp at hhead
    · simp only [hne, hall, hval, ne_eq, not_false_eq_true, true_and]
      have : i.natAbs < 2 ^ 63 := by omega
      simp only [this, if_true]
      congr 1; omega


theorem skipWS_cons (c : Nat) (s : GoString) (h : ¬ (c = 32 ∨ c = 9 ∨ c = 13 ∨ c = 10)) :
    skipWS (c :: s) = c :: s := by
  simp only [skipWS, h, if_false]

theorem unquote_literal (s rest : GoString) :
    unquote (appendStringLoop s.length s ++ 34 :: rest).length
      (appendStringLoop s.length s ++ 34 :: rest) = some (replaceInvalid s, rest) :=
  unquote_appendStringLoop s.length s rest _ le_rfl (by simp)

/-- A string literal is read as the string with its invalid bytes replaced. -/
theorem parses_string (s : GoString) : ParsesTo (appendString s) (.string (replaceInvalid s)) := by
  intro fuel rest hf _
  obtain ⟨fuel, rfl⟩ : ∃ k, fuel = k + 1 := ⟨fuel - 1, by
    have : 0 < (appendString s).length := by simp [appendString]
    omega⟩
  have e : appendString s ++ rest = 34 :: (appendStringLoop s.length s ++ 34 :: rest) := by
    simp [appendString]
  rw [e, parseValue, skipWS_cons 34 _ (by decide)]
  simp only [show ¬ ((34 : Nat) = 123) by decide, show ¬ ((34 : Nat) = 91) by decide, if_false,
    if_true, unquote_literal]
  rfl

/-- An integer literal is read as a number holding that literal. -/
theorem parses_int (i : Int) : ParsesTo (appendInt i) (.number (appendInt i)) := by
  intro fuel rest hf hd
  have hne : appendInt i ≠ [] := by
    rw [appendInt_eq]
    split_ifs
    · simp
    · exact (decimal_spec _).1
  obtain ⟨fuel, rfl⟩ : ∃ k, fuel = k + 1 := ⟨fuel - 1, by
    have : 0 < (appendInt i).length := List.length_pos.2 hne
    omega⟩
  have hscan := scanNumber_appendInt i rest hd
  -- the first byte is a minus sign or a digit
  obtain ⟨c, tl, hc, hcr⟩ : ∃ c tl, appendInt i = c :: tl ∧ (c = 45 ∨ (48 ≤ c ∧ c ≤ 57)) := by
    rw [appendInt_eq]
    split_ifs
    · exact ⟨45, _, rfl, Or.inl rfl⟩
    · obtain ⟨h1, h2, _, _⟩ := decimal_spec i.natAbs
      rcases hdec : decimal i.natAbs with _ | ⟨c, tl⟩
      · exact absurd hdec h1
      · rw [hdec] at h2
        simp [isDigit] at h2
        exact ⟨c, tl, rfl, Or.inr h2.1⟩
  rw [hc] at hscan ⊢
  rw [List.cons_append] at hscan ⊢
  rw [parseValue, skipWS_cons c _ (by omega)]
  have n1 : c ≠ 123 := by omega
  have n2 : c ≠ 91 := by omega
  have n3 : c ≠ 34 := by omega
  have n4 : c ≠ 116 := by omega
  have n5 : c ≠ 102 := by omega
  have n6 : c ≠ 110 := by omega
  simp only [n1, n2, n3, n4, n5, n6, if_false, hscan]
  rfl

/-- An object key made of safe ASCII bytes is read back as it is. -/
theorem unquote_key (k : GoString) (hk : k.all htmlSafe = true) :
    ∀ (g : Nat) (X : GoString), k.length < g → unquote g (k ++ 34 :: X) = some (k, X) := by
  induction k with
  | nil =>
    intro g X hg
    obtain ⟨g, rfl⟩ : ∃ n, g = n + 1 := ⟨g - 1, by simp at hg; omega⟩
    exact unquote_quote g X
  | cons c k ih =>
    intro g X hg
    obtain ⟨g, rfl⟩ : ∃ n, g = n + 1 := ⟨g - 1, by simp at hg; omega⟩
    simp only [List.all_cons, Bool.and_eq_true] at hk
    obtain ⟨hq, hstep⟩ := unquoteStep_plain c (k ++ 34 :: X) hk.1
    rw [List.cons_append, unquote_step g c _ _ _ hq hstep, ih hk.2 g X (by simp at hg; omega)]
    rfl


theorem delim_comma (X : GoString) : Delim (44 :: X) := Or.inl rfl
theorem delim_brace (X : GoString) : Delim (125 :: X) := Or.inr (Or.inl rfl)
theorem delim_bracket (X : GoString) : Delim (93 :: X) := Or.inr (Or.inr (Or.inl rfl))
theorem delim_newline (X : GoString) : Delim (10 :: X) := Or.inr (Or.inr (Or.inr rfl))

/-- One member of an object followed by more text: the key, the colon and
the value are read, and the text after the value is left. -/
theorem parseMember_prefix (k : String) (enc : GoString) (v : Value) (hp : ParsesTo enc v)
    (hk : (ascii k).all htmlSafe = true) (fuel : Nat) (Y : GoString) (hf : enc.length ≤ fuel)
    (hY : Delim Y) :
    unquote (ascii k ++ 34 :: 58 :: (enc ++ Y)).length (ascii k ++ 34 :: 58 :: (enc ++ Y)) =
        some (ascii k, 58 :: (enc ++ Y)) ∧
      parseValue fuel (enc ++ Y) = some (v, Y) :=
  ⟨unquote_key (ascii k) hk _ _ (by simp), hp fuel Y hf hY⟩

/-- The members the struct encoder writes, up to the closing brace, are read
as the list of the keys with their values. -/
theorem parseMembers_join (fields : List (String × GoString)) (vals : List Value)
    (hfv : List.Forall₂ (fun f v => ParsesTo f.2 v) fields vals) :
    fields ≠ [] → (∀ f ∈ fields, (ascii f.1).all htmlSafe = true) →
    ∀ (fuel : Nat) (rest : GoString), (joinMembers fields).length < fuel →
      parseMembers fuel (joinMembers fields ++ 125 :: rest) =
        some ((fields.map (fun f => ascii f.1)).zip vals, rest) := by
  induction hfv with
  | nil => intro h; exact absurd rfl h
  | @cons f v fs vs hp hrest ih =>
    intro _ hk fuel rest hfuel
    obtain ⟨k, enc⟩ := f
    have hk1 : (ascii k).all htmlSafe = true := hk (k, enc) (by simp)
    obtain ⟨fuel, rfl⟩ : ∃ n, fuel = n + 1 := ⟨fuel - 1, by omega⟩
    rcases fs with _ | ⟨f2, fs2⟩
    · -- the last member
      cases hrest
      have e : joinMembers [(k, enc)] ++ 125 :: rest =
          34 :: (ascii k ++ 34 :: 58 :: (enc ++ 125 :: rest)) := by
        simp [joinMembers]
      have hlen : enc.length ≤ fuel := by
        simp [joinMembers] at hfuel; omega
      obtain ⟨h1, h2⟩ := parseMember_prefix k enc v hp hk1 fuel (125 :: rest) hlen (delim_brace _)
      rw [e, parseMembers, skipWS_cons 34 _ (by decide)]
      simp only [h1, skipWS_cons 58 _ (by decide), h2, skipWS_cons 125 _ (by decide)]
      rfl
    · -- a member followed by others
      have e : joinMembers ((k, enc) :: f2 :: fs2) ++ 125 :: rest =
          34 :: (ascii k ++ 34 :: 58 :: (enc ++ 44 :: (joinMembers (f2 :: fs2) ++ 125 :: rest))) := by
        simp [joinMembers]
      have hlen : enc.length ≤ fuel ∧ (joinMembers (f2 :: fs2)).length < fuel := by
        simp [joinMembers] at hfuel ⊢
        omega
      obtain ⟨h1, h2⟩ := parseMember_prefix k enc v hp hk1 fuel
        (44 :: (joinMembers (f2 :: fs2) ++ 125 :: rest)) hlen.1 (delim_comma _)
      have ih' := ih (by simp) (fun f hf => hk f (by simp [hf])) fuel rest hlen.2
      rw [e, parseMembers, skipWS_cons 34 _ (by decide)]
      simp only [h1, skipWS_cons 58 _ (by decide), h2, skipWS_cons 44 _ (by decide), ih']
      rfl

/-- The struct encoder's text is read as the object of its keys and values. -/
theorem parses_struct (fields : List (String × GoString)) (vals : List Value)
    (hfv : List.Forall₂ (fun f v => ParsesTo f.2 v) fields vals) (hne : fields ≠ [])
    (hk : ∀ f ∈ fields, (ascii f.1).all htmlSafe = true) :
    ParsesTo (encodeStruct fields) (.object ((fields.map (fun f => ascii f.1)).zip vals)) := by
  intro fuel rest hf _
  obtain ⟨fuel, rfl⟩ : ∃ n, fuel = n + 1 := ⟨fuel - 1, by
    simp [encodeStruct] at hf; omega⟩
  have e : encodeStruct fields ++ rest = 123 :: (joinMembers fields ++ 125 :: rest) := by
    simp [encodeStruct]
  have hm := parseMembers_join fields vals hfv hne hk fuel rest (by
    simp [encodeStruct] at hf; omega)
  -- the text after the opening brace starts with the quote of the first key
  obtain ⟨tl, htl⟩ : ∃ tl, joinMembers fields ++ 125 :: rest = 34 :: tl := by
    rcases fields with _ | ⟨⟨k, enc⟩, _ | ⟨f2, fs2⟩⟩
    · exact absurd rfl hne
    · exact ⟨_, by simp [joinMembers]; rfl⟩
    · exact ⟨_, by simp [joinMembers]; rfl⟩
  rw [e, parseValue, skipWS_cons 123 _ (by decide)]
  simp only [if_true]
  rw [htl] at hm ⊢
  rw [skipWS_cons 34 _ (by decide)]
  simp only [hm]
  rfl


/-- The elements the slice encoder writes, up to the closing bracket, are
read as the list of their values. -/
theorem parseElems_join (encs : List GoString) (vals : List Value)
    (hev : List.Forall₂ ParsesTo encs vals) :
    encs ≠ [] →
    ∀ (fuel : Nat) (rest : GoString), (joinElems encs).length < fuel →
      parseElems fuel (joinElems encs ++ 93 :: rest) = some (vals, rest) := by
  induction hev with
  | nil => intro h; exact absurd rfl h
  | @cons enc v es vs hp hrest ih =>
    intro _ fuel rest hfuel
    obtain ⟨fuel, rfl⟩ : ∃ n, fuel = n + 1 := ⟨fuel - 1, by omega⟩
    rcases es with _ | ⟨e2, es2⟩
    · cases hrest
      have e : joinElems [enc] ++ 93 :: rest = enc ++ 93 :: rest := by simp [joinElems]
      have h2 := hp fuel (93 :: rest) (by simp [joinElems] at hfuel; omega) (delim_bracket _)
      rw [e, parseElems]
      simp only [h2, skipWS_cons 93 _ (by decide)]
    · have e : joinElems (enc :: e2 :: es2) ++ 93 :: rest =
          enc ++ 44 :: (joinElems (e2 :: es2) ++ 93 :: rest) := by
        simp [joinElems]
      have hlen : enc.length ≤ fuel ∧ (joinElems (e2 :: es2)).length < fuel := by
        simp [joinElems] at hfuel ⊢
        omega
      have h2 := hp fuel (44 :: (joinElems (e2 :: es2) ++ 93 :: rest)) hlen.1 (delim_comma _)
      have ih' := ih (by simp) fuel rest hlen.2
      rw [e, parseElems]
      simp only [h2, skipWS_cons 44 _ (by decide), ih']
      rfl

/-- The slice encoder's text for elements that are objects is read as the
array of their values. -/
theorem parses_array (encs : List GoString) (vals : List Value)
    (hev : List.Forall₂ ParsesTo encs vals) (hobj : ∀ e ∈ encs, e.head? = some 123) :
    ParsesTo (encodeArray encs) (.array vals) := by
  intro fuel rest hf _
  obtain ⟨fuel, rfl⟩ : ∃ n, fuel = n + 1 := ⟨fuel - 1, by
    simp [encodeArray] at hf; omega⟩
  have e : encodeArray encs ++ rest = 91 :: (joinElems encs ++ 93 :: rest) := by
    simp [encodeArray]
  rw [e, parseValue, skipWS_cons 91 _ (by decide)]
  simp only [show ¬ ((91 : Nat) = 123) by decide, if_false, if_true]
  rcases encs with _ | ⟨e1, es⟩
  · cases hev
    simp only [joinElems, List.nil_append, skipWS_cons 93 _ (by decide)]
  · have hm := parseElems_join (e1 :: es) vals hev (by simp) fuel rest (by
      simp [encodeArray] at hf; omega)
    obtain ⟨tl, htl⟩ : ∃ tl, joinElems (e1 :: es) ++ 93 :: rest = 123 :: tl := by
      have h1 := hobj e1 (by simp)
      rcases e1 with _ | ⟨c, t⟩
      · simp at h1
      · simp at h1; subst h1
        rcases es with _ | ⟨e2, es2⟩
        · exact ⟨_, by simp [joinElems]; rfl⟩
        · exact ⟨_, by simp [joinElems]; rfl⟩
    rw [htl] at hm ⊢
    rw [skipWS_cons 123 _ (by decide)]
    simp only [hm]
    rfl

/-! ### The response types -/

theorem parses_ErrorResponse (x : ErrorResponse) :
    ParsesTo (encodeErrorResponse x)
      (.object [(ascii "error", .string (replaceInvalid x.Error)),
        (ascii "message", .string (replaceInvalid x.Message))]) :=
  parses_struct _ _
    (.cons (parses_string _) (.cons (parses_string _) .nil)) (by simp) (by intro f hf; fin_cases hf <;> rfl)

theorem parses_Service (x : Service) :
    ParsesTo (encodeService x)
      (.object [(ascii "name", .string (replaceInvalid x.Name)),
        (ascii "version", .string (replaceInvalid x.Version)),
        (ascii "description", .string (replaceInvalid x.Description)),
        (ascii "framework", .string (replaceInvalid x.Framework))]) :=
  parses_struct _ _
    (.cons (parses_string _) (.cons (parses_string _) (.cons (parses_string _)
      (.cons (parses_string _) .nil)))) (by simp) (by intro f hf; fin_cases hf <;> rfl)

theorem parses_System (x : System) :
    ParsesTo (encodeSystem x)
      (.object [(ascii "hostname", .string (replaceInvalid x.Hostname)),
        (ascii "platform", .string (replaceInvalid x.Platform)),
        (ascii "platform_version", .string (replaceInvalid x.PlatformVersion)),
        (ascii "architecture", .string (replaceInvalid x.Architecture)),
        (ascii "cpu_count", .number (appendInt x.CPUCount)),
        (ascii "go_version", .string (replaceInvalid x.GoVersion))]) :=
  parses_struct _ _
    (.cons (parses_string _) (.cons (parses_string _) (.cons (parses_string _)
      (.cons (parses_string _) (.cons (parses_int _) (.cons (parses_string _) .nil))))))
    (by simp) (by intro f hf; fin_cases hf <;> rfl)

theorem parses_Runtime (x : Runtime) :
    ParsesTo (encodeRuntime x)
      (.object [(ascii "uptime_seconds", .number (appendInt x.UptimeSeconds)),
        (ascii "uptime_human", .string (replaceInvalid x.UptimeHuman)),
        (ascii "current_time", .string (replaceInvalid x.CurrentTime)),
        (ascii "timezone", .string (replaceInvalid x.Timezone))]) :=
  parses_struct _ _
    (.cons (parses_int _) (.cons (parses_string _) (.cons (parses_string _)
      (.cons (parses_string _) .nil)))) (by simp) (by intro f hf; fin_cases hf <;> rfl)

theorem parses_Request (x : Request) :
    ParsesTo (encodeRequest x)
      (.object [(ascii "client_ip", .string (replaceInvalid x.ClientIP)),
        (ascii "user_agent", .string (replaceInvalid x.UserAgent)),
        (ascii "method", .string (replaceInvalid x.Method)),
        (ascii "path", .string (replaceInvalid x.Path))]) :=
  parses_struct _ _
    (.cons (parses_string _) (.cons (parses_string _) (.cons (parses_string _)
      (.cons (parses_string _) .nil)))) (by simp) (by intro f hf; fin_cases hf <;> rfl)

theorem parses_Endpoint (x : Endpoint) : ParsesTo (encodeEndpoint x) (valueOfEndpoint x) :=
  parses_struct _ _
    (.cons (parses_string _) (.cons (parses_string _) (.cons (parses_string _) .nil)))
    (by simp) (by intro f hf; fin_cases hf <;> rfl)

theorem parses_Endpoints (xs : List Endpoint) :
    ParsesTo (encodeArray (xs.map encodeEndpoint)) (.array (xs.map valueOfEndpoint)) := by
  apply parses_array
  · induction xs with
    | nil => exact .nil
    | cons x xs ih => exact .cons (parses_Endpoint x) ih
  · intro e he
    simp only [List.mem_map] at he
    obtain ⟨x, _, rfl⟩ := he
    rfl

theorem parses_HealthResponse (x : HealthResponse) :
    ParsesTo (encodeHealthResponse x)
      (.object [(ascii "status", .string (replaceInvalid x.Status)),
        (ascii "timestamp", .string (replaceInvalid x.Timestamp)),
        (ascii "uptime_seconds", .number (appendInt x.UptimeSeconds))]) :=
  parses_struct _ _
    (.cons (parses_string _) (.cons (parses_string _) (.cons (parses_int _) .nil)))
    (by simp) (by intro f hf; fin_cases hf <;> rfl)


theorem parses_ServiceInfo (x : ServiceInfo) :
    ParsesTo (encodeServiceInfo x)
      (.object [(ascii "service",
          .object [(ascii "name", .string (replaceInvalid x.Service.Name)),
            (ascii "version", .string (replaceInvalid x.Service.Version)),
            (ascii "description", .string (replaceInvalid x.Service.Description)),
            (ascii "framework", .string (replaceInvalid x.Service.Framework))]),
        (ascii "system",
          .object [(ascii "hostname", .string (replaceInvalid x.System.Hostname)),
            (ascii "platform", .string (replaceInvalid x.System.Platform)),
            (ascii "platform_version", .string (replaceInvalid x.System.PlatformVersion)),
            (ascii "architecture", .string (replaceInvalid x.System.Architecture)),
            (ascii "cpu_count", .number (appendInt x.System.CPUCount)),
            (ascii "go_version", .string (replaceInvalid x.System.GoVersion))]),
        (ascii "runtime",
          .object [(ascii "uptime_seconds", .number (appendInt x.Runtime.UptimeSeconds)),
            (ascii "uptime_human", .string (replaceInvalid x.Runtime.UptimeHuman)),
            (ascii "current_time", .string (replaceInvalid x.Runtime.CurrentTime)),
            (ascii "timezone", .string (replaceInvalid x.Runtime.Timezone))]),
        (ascii "request",
          .object [(ascii "client_ip", .string (replaceInvalid x.Request.ClientIP)),
            (ascii "user_agent", .string (replaceInvalid x.Request.UserAgent)),
            (ascii "method", .string (replaceInvalid x.Request.Method)),
            (ascii "path", .string (replaceInvalid x.Request.Path))]),
        (ascii "endpoints", .array (x.Endpoints.map valueOfEndpoint))]) :=
  parses_struct _ _
    (.cons (parses_Service _) (.cons (parses_System _) (.cons (parses_Runtime _)
      (.cons (parses_Request _) (.cons (parses_Endpoints _) .nil)))))
    (by simp) (by intro f hf; fin_cases hf <;> rfl)

/-- A document made of an encoded value and the final line feed. -/
theorem parseDocument_of_parses (enc : GoString) (v : Value) (h : ParsesTo enc v) :
    parseDocument (enc ++ [10]) = some v := by
  unfold parseDocument
  rw [h _ [10] (by simp only [List.length_append, List.length_singleton]; omega)
    (delim_newline _)]
  rfl

theorem decodeMembers_cons {T : Type} (step : GoString → Value → T → Option T) (k : GoString)
    (v : Value) (ms : List (GoString × Value)) (t t1 : T) (h : step k v t = some t1) :
    decodeMembers step ((k, v) :: ms) t = decodeMembers step ms t1 := by
  simp only [decodeMembers, h]

theorem decode_Endpoint (x old : Endpoint) :
    decodeStruct stepEndpoint (valueOfEndpoint x) old = some (coerceEndpoint x) := rfl

theorem decode_Endpoints (xs : List Endpoint) :
    ∀ old, decodeEndpointElems (xs.map valueOfEndpoint) old = some (xs.map coerceEndpoint) := by
  induction xs with
  | nil => intro old; rfl
  | cons x xs ih =>
    intro old
    simp only [List.map_cons, decodeEndpointElems, decode_Endpoint, ih]
    rfl

theorem decode_Service (x old : Service) :
    decodeStruct stepService
      (.object [(ascii "name", .string (replaceInvalid x.Name)),
        (ascii "version", .string (replaceInvalid x.Version)),
        (ascii "description", .string (replaceInvalid x.Description)),
        (ascii "framework", .string (replaceInvalid x.Framework))]) old =
      some (coerceService x) := rfl

theorem decode_Request (x old : Request) :
    decodeStruct stepRequest
      (.object [(ascii "client_ip", .string (replaceInvalid x.ClientIP)),
        (ascii "user_agent", .string (replaceInvalid x.UserAgent)),
        (ascii "method", .string (replaceInvalid x.Method)),
        (ascii "path", .string (replaceInvalid x.Path))]) old =
      some (coerceRequest x) := rfl

theorem decode_System (x old : System) (hi : IsInt64 x.CPUCount) :
    decodeStruct stepSystem
      (.object [(ascii "hostname", .string (replaceInvalid x.Hostname)),
        (ascii "platform", .string (replaceInvalid x.Platform)),
        (ascii "platform_version", .string (replaceInvalid x.PlatformVersion)),
        (ascii "architecture", .string (replaceInvalid x.Architecture)),
        (ascii "cpu_count", .number (appendInt x.CPUCount)),
        (ascii "go_version", .string (replaceInvalid x.GoVersion))]) old =
      some (coerceSystem x) := by
  have hp := parseInt64_appendInt _ hi.1 hi.2
  show decodeMembers stepSystem _ old = _
  rw [decodeMembers_cons _ _ _ _ _ _ rfl, decodeMembers_cons _ _ _ _ _ _ rfl,
    decodeMembers_cons _ _ _ _ _ _ rfl, decodeMembers_cons _ _ _ _ _ _ rfl,
    decodeMembers_cons stepSystem _ _ _ _
      { Hostname := replaceInvalid x.Hostname, Platform := replaceInvalid x.Platform,
        PlatformVersion := replaceInvalid x.PlatformVersion,
        Architecture := replaceInvalid x.Architecture, CPUCount := x.CPUCount,
        GoVersion := old.GoVersion }
      (by
        show (parseInt64 (appendInt x.CPUCount)).map _ = _
        rw [hp]; rfl)]
  rfl

theorem decode_Runtime (x old : Runtime) (hi : IsInt64 x.UptimeSeconds) :
    decodeStruct stepRuntime
      (.object [(ascii "uptime_seconds", .number (appendInt x.UptimeSeconds)),
        (ascii "uptime_human", .string (replaceInvalid x.UptimeHuman)),
        (ascii "current_time", .string (replaceInvalid x.CurrentTime)),
        (ascii "timezone", .string (replaceInvalid x.Timezone))]) old =
      some (coerceRuntime x) := by
  have hp := parseInt64_appendInt _ hi.1 hi.2
  show decodeMembers stepRuntime _ old = _
  rw [decodeMembers_cons stepRuntime _ _ _ _
      { UptimeSeconds := x.UptimeSeconds, UptimeHuman := old.UptimeHuman,
        CurrentTime := old.CurrentTime, Timezone := old.Timezone }
      (by
        show (parseInt64 (appendInt x.UptimeSeconds)).map _ = _
        rw [hp]; rfl)]
  rfl

/-- Go `Unmarshal` of the text `Encode` writes for an `ErrorResponse`. -/
theorem Unmarshal_ErrorResponse (x old : ErrorResponse) :
    Unmarshal stepErrorResponse (encodeErrorResponse x ++ [10]) old =
      some (coerceErrorResponse x) := by
  unfold Unmarshal
  rw [parseDocument_of_parses _ _ (parses_ErrorResponse x)]
  rfl

/-- Go `Unmarshal` of the text `Encode` writes for a `HealthResponse`. -/
theorem Unmarshal_HealthResponse (x old : HealthResponse) (hi : IsInt64 x.UptimeSeconds) :
    Unmarshal stepHealthResponse (encodeHealthResponse x ++ [10]) old =
      some (coerceHealthResponse x) := by
  have hp := parseInt64_appendInt _ hi.1 hi.2
  unfold Unmarshal
  rw [parseDocument_of_parses _ _ (parses_HealthResponse x)]
  show decodeMembers stepHealthResponse _ old = _
  rw [decodeMembers_cons _ _ _ _ _ _ rfl, decodeMembers_cons _ _ _ _ _ _ rfl,
    decodeMembers_cons stepHealthResponse _ _ _ _
      { Status := replaceInvalid x.Status, Timestamp := replaceInvalid x.Timestamp,
        UptimeSeconds := x.UptimeSeconds }
      (by
        show (parseInt64 (appendInt x.UptimeSeconds)).map _ = _
        rw [hp]; rfl)]
  rfl

/-- Go `Unmarshal` of the text `Encode` writes for a `ServiceInfo`. -/
theorem Unmarshal_ServiceInfo (x old : ServiceInfo) (hc : IsInt64 x.System.CPUCount)
    (hu : IsInt64 x.Runtime.UptimeSeconds) :
    Unmarshal stepServiceInfo (encodeServiceInfo x ++ [10]) old =
      some (coerceServiceInfo x) := by
  unfold Unmarshal
  rw [parseDocument_of_parses _ _ (parses_ServiceInfo x)]
  show decodeMembers stepServiceInfo _ old = _
  rw [decodeMembers_cons stepServiceInfo _ _ _ _ { old with Service := coerceService x.Service }
      (by rfl),
    decodeMembers_cons stepServiceInfo _ _ _ _
      { old with Service := coerceService x.Service, System := coerceSystem x.System }
      (by
        show (decodeStruct stepSystem _ _).map _ = _
        rw [decode_System _ _ hc]; rfl),
    decodeMembers_cons stepServiceInfo _ _ _ _
      { old with Service := coerceService x.Service, System := coerceSystem x.System,
                 Runtime := coerceRuntime x.Runtime }
      (by
        show (decodeStruct stepRuntime _ _).map _ = _
        rw [decode_Runtime _ _ hu]; rfl),
    decodeMembers_cons stepServiceInfo _ _ _ _
      { old with Service := coerceService x.Service, System := coerceSystem x.System,
                 Runtime := coerceRuntime x.Runtime, Request := coerceRequest x.Request }
      (by rfl),
    decodeMembers_cons stepServiceInfo _ _ _ _ (coerceServiceInfo x)
      (by
        show (decodeEndpointElems _ _).map _ = _
        rw [decode_Endpoints]; rfl)]
  rfl

end json

/-! ## The handlers -/

theorem canonical_content_type :
    textproto.CanonicalMIMEHeaderKey (ascii "Content-Type") = ascii "Content-Type" := by decide

/-- A fresh writer after `Content-Type` is set and a body written: status 200,
that content type, that body. -/
theorem write_json (b : GoString) :
    ((({} : http.ResponseWriter).SetHeader (ascii "Content-Type")
        (ascii "application/json")).Write b).Code = 200 ∧
      ((({} : http.ResponseWriter).SetHeader (ascii "Content-Type")
        (ascii "application/json")).Write b).SentHeader.Get (ascii "Content-Type") =
        ascii "application/json" ∧
      ((({} : http.ResponseWriter).SetHeader (ascii "Content-Type")
        (ascii "application/json")).Write b).body = b := by
  refine ⟨rfl, ?_, ?_⟩
  · simp [http.ResponseWriter.SetHeader, http.ResponseWriter.Write, http.ResponseWriter.WriteHeader,
      http.ResponseWriter.SentHeader, http.Header.Set, http.Header.Get, canonical_content_type,
      List.lookup]
  · simp [http.ResponseWriter.SetHeader, http.ResponseWriter.Write, http.ResponseWriter.WriteHeader]

theorem mainHandler_eq (env : Env) (r : http.Request) :
    mainHandler env {} r =
      (({} : http.ResponseWriter).SetHeader (ascii "Content-Type")
        (ascii "application/json")).Write (json.encodeServiceInfo (mainInfo env r) ++ [10]) := rfl

theorem healthHandler_eq (env : Env) (r : http.Request) :
    healthHandler env {} r =
      (({} : http.ResponseWriter).SetHeader (ascii "Content-Type")
        (ascii "application/json")).Write (json.encodeHealthResponse (healthInfo env) ++ [10]) :=
  rfl

theorem notFoundHandler_eq (r : http.Request) :
    (notFoundHandler {} r).Code = 404 ∧
      (notFoundHandler {} r).SentHeader.Get (ascii "Content-Type") = ascii "application/json" ∧
      (notFoundHandler {} r).body =
        ascii "\x7b\"error\":\"Not Found\",\"message\":\"Endpoint does not exist\"\x7d\n" := by
  exact ⟨rfl, rfl, rfl⟩


/-! ## Routing -/

namespace url

theorem hex_roundtrip : ∀ n < 16, ishex (upperhex n) = true ∧ unhex (upperhex n) = n := by
  decide

theorem upperhex_large (n : Nat) (h : 16 ≤ n) : upperhex n = 0 := by
  unfold upperhex
  apply List.getD_eq_default
  simpa [ascii] using h

theorem shouldEscape_percent : shouldEscape 37 = true := by decide

theorem shouldEscape_slash : shouldEscape 47 = false := by decide

theorem unescape_cons (c : Nat) (s : GoString) (h : c ≠ 37) :
    unescape (c :: s) = (unescape s).map (fun o => c :: o) := by
  rcases s with _ | ⟨a, _ | ⟨b, t⟩⟩ <;> simp [unescape, h]

theorem unescape_percent (a b : Nat) (t : GoString) :
    unescape (37 :: a :: b :: t) =
      if ishex a = true ∧ ishex b = true then
        (unescape t).map (fun o => (unhex a * 16 + unhex b) :: o)
      else none := by
  simp [unescape]

/-- Unescaping the default encoding of a path gives the path back. -/
theorem unescape_escape (p : GoString) :
    ∀ t : GoString, unescape (escape p) = some t → t = p := by
  induction p with
  | nil =>
    intro t h
    simpa [escape, unescape] using h.symm
  | cons c s ih =>
    intro t h
    by_cases hc : shouldEscape c = true
    · simp only [escape, hc, if_true, unescape_percent] at h
      split_ifs at h with hh
      · cases hu : unescape (escape s) with
        | none => simp [hu] at h
        | some t' =>
          rw [hu] at h
          simp only [Option.map_some', Option.some.injEq] at h
          have ht' := ih t' hu
          by_cases hlt : c < 256
          · have h1 := (hex_roundtrip (c / 16) (by omega)).2
            have h2 := (hex_roundtrip (c % 16) (Nat.mod_lt _ (by norm_num))).2
            rw [h1, h2] at h
            rw [← h, ht']
            congr 1
            omega
          · exfalso
            have := upperhex_large (c / 16) (by omega)
            rw [this] at hh
            exact absurd hh.1 (by decide)
    · have hc37 : c ≠ 37 := by
        rintro rfl
        exact hc shouldEscape_percent
      rw [Bool.not_eq_true] at hc
      simp only [escape, hc, if_false, Bool.false_eq_true, unescape_cons _ _ hc37] at h
      cases hu : unescape (escape s) with
      | none => simp [hu] at h
      | some t' =>
        rw [hu] at h
        simp only [Option.map_some', Option.some.injEq] at h
        rw [← h, ih t' hu]

/-- A default encoding without a percent sign is the path itself. -/
theorem escape_eq_self (p : GoString) : 37 ∉ escape p → escape p = p := by
  induction p with
  | nil => intro _; rfl
  | cons c s ih =>
    intro h
    by_cases hc : shouldEscape c = true
    · simp [escape, hc] at h
    · rw [Bool.not_eq_true] at hc
      simp only [escape, hc, if_false, Bool.false_eq_true] at h ⊢
      rw [ih (fun hm => h (List.mem_cons_of_mem _ hm))]

end url

namespace http

theorem pathUnescape_escape (p t : GoString) (h : pathUnescape (url.escape p) = t)
    (ht : 37 ∉ t) : p = t := by
  unfold pathUnescape at h
  cases hu : url.unescape (url.escape p) with
  | none =>
    rw [hu] at h
    simp only [Option.getD_none] at h
    rw [← h, url.escape_eq_self p (by rw [h]; exact ht)]
  | some t' =>
    rw [hu] at h
    simp only [Option.getD_some] at h
    rw [← h, url.unescape_escape p t' hu]

/-- A URL whose escaped path is a slash followed by a segment that unescapes
to `health` has the path `/health`. -/
theorem EscapedPath_health (u : URL) (s : GoString) (hE : u.EscapedPath = 47 :: s)
    (hs : pathUnescape s = ascii "health") : u.Path = ascii "/health" := by
  unfold URL.EscapedPath at hE
  split_ifs at hE with hraw hstar
  · obtain ⟨_, _, hun⟩ := hraw
    rw [hE] at hun
    rw [url.unescape_cons _ _ (by decide)] at hun
    cases hu : url.unescape s with
    | none => simp [hu] at hun
    | some t =>
      rw [hu] at hun
      simp only [Option.map_some', Option.some.injEq] at hun
      simp only [pathUnescape, hu, Option.getD_some] at hs
      rw [← hun, hs]
      rfl
  · simp [ascii] at hE
  · rcases hp : u.Path with _ | ⟨c, p⟩
    · rw [hp] at hE
      simp [url.escape] at hE
    · rw [hp] at hE
      by_cases hc : url.shouldEscape c = true
      · simp [url.escape, hc] at hE
      · rw [Bool.not_eq_true] at hc
        simp only [url.escape, hc, if_false, Bool.false_eq_true, List.cons.injEq] at hE
        obtain ⟨rfl, rfl⟩ := hE
        have := pathUnescape_escape p _ hs (by decide)
        rw [this]
        rfl

end http

theorem indexByte_lt (s : GoString) (c i : Nat) (h : indexByte s c = some i) : i < s.length := by
  induction s generalizing i with
  | nil => simp [indexByte] at h
  | cons b s ih =>
    simp only [indexByte] at h
    split_ifs at h with hb
    · simp at h; subst h; simp
    · cases hi : indexByte s c with
      | none => simp [hi] at h
      | some j =>
        simp [hi] at h
        subst h
        have := ih j hi
        simp
        exact this

theorem indexByte_isSome (s : GoString) (c : Nat) (h : c ∈ s) : ∃ i, indexByte s c = some i := by
  induction s with
  | nil => simp at h
  | cons b s ih =>
    simp only [indexByte]
    split_ifs with hb
    · exact ⟨0, rfl⟩
    · rcases List.mem_cons.1 h with rfl | hm
      · exact absurd rfl hb
      · obtain ⟨i, hi⟩ := ih hm
        exact ⟨i + 1, by simp [hi]⟩

theorem indexByte_none (s : GoString) (c : Nat) (h : c ∉ s) : indexByte s c = none := by
  cases hi : indexByte s c with
  | none => rfl
  | some i =>
    exfalso
    apply h
    have := indexByte_split s c i hi
    rw [this]
    simp

namespace http

/-- A path with a slash after its first byte falls to the wildcard of `/`. -/
theorem matchPath_root (p : GoString) (h : 47 ∈ p.drop 1) : matchPath p = some .root := by
  have hne : p ≠ [] := by rintro rfl; simp at h
  have hne2 : p ≠ ascii "/" := by rintro rfl; simp [ascii] at h
  obtain ⟨i, hi⟩ := indexByte_isSome _ _ h
  have hlt := indexByte_lt _ _ _ hi
  have hrest : (firstSegment p).2 ≠ [] := by
    simp only [firstSegment, hne2, if_false, hi, Option.getD_some]
    intro hd
    have := congrArg List.length hd
    simp only [List.length_drop, List.length_nil] at this hlt
    omega
  simp [matchPath, hne, hrest]

theorem matchPath_append_slash (p : GoString) : matchPath (p ++ [47]) = some .root := by
  rcases p with _ | ⟨c, s⟩
  · decide
  · apply matchPath_root
    simp

/-- The path the leaf of `/health` is reached with: one byte and a segment
without slash that unescapes to `health`. -/
theorem matchPath_health (p : GoString) (h : matchPath p = some .health) :
    ∃ c s, p = c :: s ∧ 47 ∉ s ∧ pathUnescape s = ascii "health" := by
  rcases p with _ | ⟨c, s⟩
  · simp [matchPath] at h
  refine ⟨c, s, rfl, ?_⟩
  by_cases hs : 47 ∈ s
  · rw [matchPath_root (c :: s) (by simpa using hs)] at h
    simp at h
  · refine ⟨hs, ?_⟩
    by_cases h2 : (firstSegment (c :: s)).1 = ascii "health" ∧ (firstSegment (c :: s)).2 = []
    · by_cases hsl : c :: s = ascii "/"
      · simp only [firstSegment, hsl, if_true] at h2
        exact absurd h2.1 (by decide)
      · simp only [firstSegment, hsl, if_false, List.drop_succ_cons, List.drop_zero,
          indexByte_none s 47 hs, Option.getD_none, List.take_length] at h2
        exact h2.1
    · simp [matchPath, h2] at h

theorem exactMatch_root_append_slash (p : GoString) :
    exactMatch (some .root) (p ++ [47]) = decide (47 ∉ p) := by
  simp only [exactMatch]
  have h1 : (p ++ [47]).getLast? = some 47 := by simp
  simp only [h1, ne_eq, not_true_eq_false, and_false, if_false, List.count_append]
  by_cases hm : 47 ∈ p
  · have := List.count_pos_iff.2 hm
    simp [hm]
    omega
  · simp [hm, List.count_eq_zero_of_not_mem hm]

theorem getLast_ne_of_not_mem (p : GoString) (h : 47 ∉ p) : p.getLast? ≠ some 47 := by
  intro hl
  exact h (List.mem_of_getLast?_eq_some hl)

/-- A path with a slash is never redirected to the path with a slash appended. -/
theorem matchOrRedirect_of_mem (p : GoString) (u : Option URL) (h : 47 ∈ p) :
    matchOrRedirect p u = (matchPath p, none) := by
  rcases u with _ | u
  · rfl
  · simp only [matchOrRedirect, matchPath_append_slash, exactMatch_root_append_slash]
    simp [h]

theorem matchOrRedirect_health (p : GoString) (u : Option URL)
    (h : matchPath p = some .health) : matchOrRedirect p u = (some .health, none) := by
  rcases u with _ | u
  · simp [matchOrRedirect, h]
  · simp [matchOrRedirect, h, exactMatch]

/-- A path without slash that does not reach `/health` is redirected to the
cleaned path of the URL with a slash appended. -/
theorem matchOrRedirect_of_not_mem (p : GoString) (u : URL) (h : 47 ∉ p)
    (hh : matchPath p ≠ some .health) :
    matchOrRedirect p (some u) =
      (none, some { Path := cleanPath u.Path ++ [47], RawQuery := u.RawQuery }) := by
  have hl := getLast_ne_of_not_mem p h
  have he : exactMatch (matchPath p) p = false := by
    rcases hm : matchPath p with _ | n
    · rfl
    · cases n
      · exact absurd hm hh
      · have hne : p ≠ [] := by rintro rfl; simp [matchPath] at hm
        simp [exactMatch, hne, hl]
  simp only [matchOrRedirect, matchPath_append_slash, exactMatch_root_append_slash, he]
  simp [h, hl]

theorem cleanPath_head (p : GoString) : (cleanPath p).head? = some 47 := by
  unfold cleanPath
  simp only []
  split_ifs <;> simp [path.Clean, ascii]

theorem mem_of_head (p : GoString) (h : p.head? = some 47) : 47 ∈ p := by
  rcases p with _ | ⟨c, s⟩
  · simp at h
  · simp at h; subst h; simp

end http

namespace http

/-- A request whose escaped path has a slash and whose path is not `/health`
falls to the wildcard of `/`. -/
theorem matchPath_EscapedPath (u : URL) (h : 47 ∈ u.EscapedPath)
    (hp : u.Path ≠ ascii "/health") : matchPath u.EscapedPath = some .root := by
  rcases hm : matchPath u.EscapedPath with _ | n
  · have : u.EscapedPath = [] := by
      by_contra hne
      simp only [matchPath, hne, if_false] at hm
      split_ifs at hm
    rw [this] at h
    simp at h
  · cases n
    · exfalso
      obtain ⟨c, s, hE, hs, hun⟩ := matchPath_health _ hm
      rw [hE] at h
      rcases List.mem_cons.1 h with rfl | hmem
      · exact hp (EscapedPath_health u s hE hun)
      · exact hs hmem
    · rfl

theorem findHandler_connect_root (r : Request) (hm : r.Method = ascii "CONNECT")
    (h : 47 ∈ r.URL.EscapedPath) (hp : r.URL.Path ≠ ascii "/health") :
    findHandler r = .root := by
  simp only [findHandler, hm, if_true, matchOrRedirect_of_mem _ _ h,
    matchPath_EscapedPath _ h hp]
  rfl

theorem findHandler_clean_root (r : Request) (hm : r.Method ≠ ascii "CONNECT")
    (h : cleanPath r.URL.EscapedPath = r.URL.EscapedPath) (hp : r.URL.Path ≠ ascii "/health") :
    findHandler r = .root := by
  have hmem : 47 ∈ r.URL.EscapedPath := by
    apply mem_of_head
    rw [← h]
    exact cleanPath_head _
  simp only [findHandler, hm, if_false, h, matchOrRedirect_of_mem _ _ hmem,
    matchPath_EscapedPath _ hmem hp]
  simp [Target.ofNode]

theorem findHandler_unclean (r : Request) (hm : r.Method ≠ ascii "CONNECT")
    (h : cleanPath r.URL.EscapedPath ≠ r.URL.EscapedPath) :
    findHandler r =
      .redirect { Path := cleanPath r.URL.EscapedPath, RawQuery := r.URL.RawQuery } := by
  have hmem : 47 ∈ cleanPath r.URL.EscapedPath := mem_of_head _ (cleanPath_head _)
  simp only [findHandler, hm, if_false, matchOrRedirect_of_mem _ _ hmem]
  simp [h]

theorem findHandler_connect_no_slash (r : Request) (hm : r.Method = ascii "CONNECT")
    (h : 47 ∉ r.URL.EscapedPath) :
    findHandler r = .health ∨ ∃ u, findHandler r = .redirect u := by
  by_cases hh : matchPath r.URL.EscapedPath = some .health
  · left
    simp only [findHandler, hm, if_true, matchOrRedirect_health _ _ hh]
    rfl
  · right
    refine ⟨{ Path := cleanPath r.URL.Path ++ [47], RawQuery := r.URL.RawQuery }, ?_⟩
    simp only [findHandler, hm, if_true, matchOrRedirect_of_not_mem _ _ h hh]

end http

theorem serve_root (st : http.RedirectStatus) (env : Env) (r : http.Request)
    (huri : r.RequestURI ≠ ascii "*") (hf : http.findHandler r = .root)
    (hp : r.URL.Path ≠ ascii "/") : serve st env r = notFoundHandler {} r := by
  simp only [serve, huri, if_false, hf, rootFunc, hp]

theorem serve_redirect (st : http.RedirectStatus) (env : Env) (r : http.Request)
    (huri : r.RequestURI ≠ ascii "*") (u : http.URL) (hf : http.findHandler r = .redirect u) :
    (serve st env r).Code = st.code := by
  simp only [serve, huri, if_false, hf]
  rfl

theorem serve_health (st : http.RedirectStatus) (env : Env) (r : http.Request)
    (huri : r.RequestURI ≠ ascii "*") (hf : http.findHandler r = .health) :
    (serve st env r).Code = 200 := by
  simp only [serve, huri, if_false, hf]
  rw [healthHandler_eq]
  exact (write_json _).1

theorem redirect_code_ne (st : http.RedirectStatus) : st.code ≠ 404 ∧ st.code ≠ 200 := by
  cases st <;> decide

namespace url

theorem upperhex_ne_slash (n : Nat) : upperhex n ≠ 47 := by
  by_cases h : n < 16
  · have : ∀ m < 16, upperhex m ≠ 47 := by decide
    exact this n h
  · rw [upperhex_large n (by omega)]
    decide

theorem escape_append (a b : GoString) : escape (a ++ b) = escape a ++ escape b := by
  induction a with
  | nil => rfl
  | cons c s ih =>
    show escape (c :: (s ++ b)) = escape (c :: s) ++ escape b
    simp only [escape]
    split_ifs <;> simp [ih]

theorem escape_eq_nil (p : GoString) : escape p = [] ↔ p = [] := by
  rcases p with _ | ⟨c, s⟩
  · simp [escape]
  · simp only [escape]
    split_ifs <;> simp

theorem mem_escape_slash (p : GoString) : 47 ∈ escape p ↔ 47 ∈ p := by
  induction p with
  | nil => simp [escape]
  | cons c s ih =>
    simp only [escape]
    split_ifs with hc
    · have hc47 : c ≠ 47 := by
        rintro rfl
        exact absurd hc (by decide)
      have h1 := upperhex_ne_slash (c / 16)
      have h2 := upperhex_ne_slash (c % 16)
      simp only [List.mem_cons, ih]
      constructor
      · rintro (h | h | h | h)
        · exact absurd h (by decide)
        · exact absurd h.symm h1
        · exact absurd h.symm h2
        · exact Or.inr h
      · rintro (h | h)
        · exact absurd h.symm hc47
        · exact Or.inr (Or.inr (Or.inr h))
    · simp only [List.mem_cons, ih]

theorem escape_head (p : GoString) : (escape p).head? = some 47 ↔ p.head? = some 47 := by
  rcases p with _ | ⟨c, s⟩
  · simp [escape]
  · simp only [escape]
    split_ifs with hc
    · have hc47 : c ≠ 47 := by
        rintro rfl
        exact absurd hc (by decide)
      simp [hc47]
    · simp

theorem escape_getLast (p : GoString) :
    (escape p).getLast? = some 47 ↔ p.getLast? = some 47 := by
  rcases List.eq_nil_or_concat p with rfl | ⟨s, c, rfl⟩
  · simp [escape]
  · rw [List.concat_eq_append, escape_append]
    simp only [escape]
    split_ifs with hc
    · have hc47 : c ≠ 47 := by
        rintro rfl
        exact absurd hc (by decide)
      have h2 := upperhex_ne_slash (c % 16)
      have e : escape s ++ [37, upperhex (c / 16), upperhex (c % 16)] =
          (escape s ++ [37, upperhex (c / 16)]) ++ [upperhex (c % 16)] := by simp
      rw [e, List.getLast?_concat, List.getLast?_concat]
      simp [hc47, h2]
    · rw [List.getLast?_concat, List.getLast?_concat]

/-- An element is made of dots exactly when its encoding is. -/
theorem escape_eq_dots (e : GoString) (n : Nat) :
    escape e = List.replicate n 46 ↔ e = List.replicate n 46 := by
  induction e generalizing n with
  | nil =>
    rcases n with _ | n <;> simp [escape, List.replicate]
  | cons c s ih =>
    simp only [escape]
    split_ifs with hc
    · have hc46 : c ≠ 46 := by
        rintro rfl
        exact absurd hc (by decide)
      rcases n with _ | n
      · simp
      · simp [List.replicate, hc46]
    · rcases n with _ | n
      · simp
      · simp [List.replicate, ih n]

theorem escape_eq_slash (p : GoString) : escape p = ascii "/" ↔ p = ascii "/" := by
  rcases p with _ | ⟨c, s⟩
  · simp [escape, ascii]
  · simp only [escape]
    split_ifs with hc
    · have hc47 : c ≠ 47 := by
        rintro rfl
        exact absurd hc (by decide)
      simp [ascii, hc47]
    · simp [ascii, escape_eq_nil]

end url

namespace path

theorem splitSlash_append (x rest acc : GoString) (h : 47 ∉ x) :
    splitSlash (x ++ rest) acc = splitSlash rest (x.reverse ++ acc) := by
  induction x generalizing acc with
  | nil => rfl
  | cons c s ih =>
    have hc : c ≠ 47 := fun e => h (by simp [e])
    have hs : 47 ∉ s := fun m => h (List.mem_cons_of_mem _ m)
    show splitSlash (c :: (s ++ rest)) acc = _
    simp only [splitSlash, hc, if_false]
    rw [ih _ hs]
    simp

theorem escByte_no_slash (c : Nat) (hc : c ≠ 47) : 47 ∉ url.escape [c] := by
  rw [url.mem_escape_slash]
  simpa using hc.symm

theorem splitSlash_escape (s cur : GoString) :
    splitSlash (url.escape s) (url.escape cur.reverse).reverse =
      (splitSlash s cur).map url.escape := by
  induction s generalizing cur with
  | nil => simp [url.escape, splitSlash]
  | cons c s ih =>
    by_cases hc : c = 47
    · subst hc
      have := ih []
      simp only [List.reverse_nil, url.escape] at this
      simp [url.escape, splitSlash, url.shouldEscape_slash, this]
    · have e : url.escape (c :: s) = url.escape [c] ++ url.escape s := by
        rw [← url.escape_append]; rfl
      rw [e, splitSlash_append _ _ _ (escByte_no_slash c hc)]
      have := ih (c :: cur)
      simp only [List.reverse_cons, url.escape_append, List.reverse_append] at this
      simp only [splitSlash, hc, if_false]
      rw [← this]

theorem cleanElems_escape (es out : List GoString) :
    cleanElems (es.map url.escape) (out.map url.escape) =
      (cleanElems es out).map url.escape := by
  induction es generalizing out with
  | nil => simp [cleanElems]
  | cons e es ih =>
    have h0 : url.escape e = [] ↔ e = [] := url.escape_eq_nil e
    have h1 : url.escape e = ascii "." ↔ e = ascii "." := url.escape_eq_dots e 1
    have h2 : url.escape e = ascii ".." ↔ e = ascii ".." := url.escape_eq_dots e 2
    simp only [List.map_cons, cleanElems, h0, h1, h2]
    split_ifs
    · exact ih out
    · have := ih out.tail
      rw [List.map_tail] at this
      exact this
    · have := ih (e :: out)
      rw [List.map_cons] at this
      exact this

theorem intercalate_escape (l : List GoString) :
    url.escape ((ascii "/").intercalate l) = (ascii "/").intercalate (l.map url.escape) := by
  induction l with
  | nil => rfl
  | cons a l ih =>
    rcases l with _ | ⟨b, l⟩
    · simp [List.intercalate, List.intersperse]
    · simp only [List.intercalate, List.intersperse, List.map_cons, List.flatten_cons] at ih ⊢
      rw [url.escape_append, url.escape_append, ih]
      rfl

theorem Clean_escape (p : GoString) : Clean (url.escape p) = url.escape (Clean p) := by
  unfold Clean
  have h := splitSlash_escape p []
  simp only [List.reverse_nil, url.escape] at h
  have h2 := cleanElems_escape (splitSlash p []) []
  simp only [List.map_nil] at h2
  rw [h, h2, url.escape_append, intercalate_escape]
  rfl

end path

namespace http

/-- Cleaning commutes with the default encoding of a path. -/
theorem cleanPath_escape (p : GoString) : cleanPath (url.escape p) = url.escape (cleanPath p) := by
  by_cases hp : p = []
  · subst hp; rfl
  have hp2 : url.escape p ≠ [] := fun h => hp ((url.escape_eq_nil p).1 h)
  simp only [cleanPath, hp, hp2, if_false]
  by_cases hh : p.head? = some 47
  · have hh2 := (url.escape_head p).2 hh
    simp only [hh, hh2, ne_eq, not_true_eq_false, if_false, path.Clean_escape,
      url.escape_getLast, url.escape_eq_slash]
    split_ifs
    · rw [url.escape_append]; rfl
    · rfl
  · have hh2 : (url.escape p).head? ≠ some 47 := fun h => hh ((url.escape_head p).1 h)
    have e : (47 :: url.escape p) = url.escape (47 :: p) := by
      simp [url.escape, url.shouldEscape_slash]
    simp only [hh, hh2, ne_eq, not_false_eq_true, if_true, e, path.Clean_escape,
      url.escape_getLast, url.escape_eq_slash]
    split_ifs
    · rw [url.escape_append]; rfl
    · rfl

theorem unescape_escape_bytes (p : GoString) (h : ∀ b ∈ p, b < 256) :
    url.unescape (url.escape p) = some p := by
  induction p with
  | nil => rfl
  | cons c s ih =>
    have hs := ih (fun b hb => h b (List.mem_cons_of_mem _ hb))
    have hc : c < 256 := h c (by simp)
    by_cases he : url.shouldEscape c = true
    · have h1 := url.hex_roundtrip (c / 16) (by omega)
      have h2 := url.hex_roundtrip (c % 16) (Nat.mod_lt _ (by norm_num))
      simp only [url.escape, he, if_true, url.unescape_percent, h1.1, h2.1, and_self, hs,
        Option.map_some', h1.2, h2.2]
      congr 2
      omega
    · have hc37 : c ≠ 37 := by
        rintro rfl
        exact he url.shouldEscape_percent
      rw [Bool.not_eq_true] at he
      simp only [url.escape, he, Bool.false_eq_true, if_false, url.unescape_cons _ _ hc37, hs,
        Option.map_some']

theorem escape_injective (a b : GoString) (ha : ∀ x ∈ a, x < 256)
    (h : url.escape a = url.escape b) : a = b := by
  have h1 := unescape_escape_bytes a ha
  rw [h] at h1
  exact url.unescape_escape b a h1

/-- For a URL without `RawPath` whose path is a byte string, the escaped path
has a slash, or is in canonical form, exactly when the path is. -/
theorem EscapedPath_canonical (u : URL) (hraw : u.RawPath = []) (hb : ∀ b ∈ u.Path, b < 256) :
    (47 ∈ u.EscapedPath ↔ 47 ∈ u.Path) ∧
      (cleanPath u.EscapedPath = u.EscapedPath ↔ cleanPath u.Path = u.Path) := by
  unfold URL.EscapedPath
  simp only [hraw, ne_eq, not_true_eq_false, false_and, if_false]
  split_ifs with hstar
  · rw [hstar]
    exact ⟨Iff.rfl, Iff.rfl⟩
  · refine ⟨url.mem_escape_slash _, ?_⟩
    rw [cleanPath_escape]
    constructor
    · intro h
      exact (escape_injective _ _ hb h.symm).symm
    · intro h
      rw [h]

end http

/-- C7 (counterexample): a `GET` request for the path `//missing`, which is
neither `/` nor `/health`, is answered by the mux with a redirect to
`/missing`, with status 301 or 307 (whichever the net/http release redirects
with), not with 404. -/
theorem serve_unclean_path_redirects :
    ascii "//missing" ≠ ascii "/" ∧ ascii "//missing" ≠ ascii "/health" ∧
    http.findHandler
        { Method := ascii "GET", URL := { Path := ascii "//missing" },
          RequestURI := ascii "//missing" } =
      .redirect { Path := ascii "/missing" } ∧
    ∀ env : Env,
      (serve .MovedPermanently env
        { Method := ascii "GET", URL := { Path := ascii "//missing" },
          RequestURI := ascii "//missing" }).Code = 301 ∧
      (serve .TemporaryRedirect env
        { Method := ascii "GET", URL := { Path := ascii "//missing" },
          RequestURI := ascii "//missing" }).Code = 307 := by
  refine ⟨by decide, by decide, by decide, fun env => ⟨rfl, rfl⟩⟩

/-- C7 (amended): for every request, of any method, whose request URI is not
`*` and whose path is neither `/` nor `/health`, the registered routing
answers with status 404, `Content-Type: application/json` and the body
`{"error":"Not Found","message":"Endpoint does not exist"}` followed by a
line feed exactly when the escaped path of the URL (`URL.EscapedPath`, the
text the mux examines) contains a slash, if the method is `CONNECT`, and is
in canonical form (equal to its `cleanPath`), if the method is any other; for
a request of a method other than `CONNECT` whose escaped path is not in
canonical form the mux selects its redirect handler for the cleaned path and
the response has the redirect status of the net/http release (301 or 307);
the request URI `*` is answered with 400; for a URL without `RawPath` whose
path is a byte string, the escaped path contains a slash, or is in canonical
form, exactly when the path itself is; the function registered for `/` runs
`notFoundHandler` for every path other than `/`, and whenever the response
is that of `mainHandler` the path is exactly `/`. -/
theorem serve_not_found :
    (∀ (st : http.RedirectStatus) (env : Env) (r : http.Request),
      r.RequestURI ≠ ascii "*" → r.URL.Path ≠ ascii "/" → r.URL.Path ≠ ascii "/health" →
      (((serve st env r).Code = 404 ∧
          (serve st env r).SentHeader.Get (ascii "Content-Type") = ascii "application/json" ∧
          (serve st env r).body =
            ascii "\x7b\"error\":\"Not Found\",\"message\":\"Endpoint does not exist\"\x7d\n") ↔
        (if r.Method = ascii "CONNECT" then 47 ∈ r.URL.EscapedPath
          else http.cleanPath r.URL.EscapedPath = r.URL.EscapedPath))) ∧
    (∀ (st : http.RedirectStatus) (env : Env) (r : http.Request),
      r.RequestURI ≠ ascii "*" → r.Method ≠ ascii "CONNECT" →
      http.cleanPath r.URL.EscapedPath ≠ r.URL.EscapedPath →
      http.findHandler r =
          .redirect { Path := http.cleanPath r.URL.EscapedPath, RawQuery := r.URL.RawQuery } ∧
        (serve st env r).Code = st.code ∧ (st.code = 301 ∨ st.code = 307)) ∧
    (∀ (st : http.RedirectStatus) (env : Env) (r : http.Request),
      r.RequestURI = ascii "*" → (serve st env r).Code = 400) ∧
    (∀ u : http.URL, u.RawPath = [] → (∀ b ∈ u.Path, b < 256) →
      (47 ∈ u.EscapedPath ↔ 47 ∈ u.Path) ∧
        (http.cleanPath u.EscapedPath = u.EscapedPath ↔ http.cleanPath u.Path = u.Path)) ∧
    (∀ (env : Env) (w : http.ResponseWriter) (r : http.Request),
      r.URL.Path ≠ ascii "/" → rootFunc env w r = notFoundHandler w r) ∧
    (∀ (st : http.RedirectStatus) (env : Env) (r : http.Request),
      serve st env r = mainHandler env {} r → r.URL.Path = ascii "/") := by
  refine ⟨?_, ?_, ?_, http.EscapedPath_canonical, ?_, ?_⟩
  · intro st env r huri h1 h2
    constructor
    · intro hres
      by_contra hcond
      by_cases hm : r.Method = ascii "CONNECT"
      · simp only [hm, if_true] at hcond
        rcases http.findHandler_connect_no_slash r hm hcond with hf | ⟨u, hf⟩
        · have := serve_health st env r huri hf
          rw [hres.1] at this
          exact absurd this (by decide)
        · have := serve_redirect st env r huri u hf
          rw [hres.1] at this
          exact (redirect_code_ne st).1 this.symm
      · simp only [hm, if_false] at hcond
        have := serve_redirect st env r huri _ (http.findHandler_unclean r hm hcond)
        rw [hres.1] at this
        exact (redirect_code_ne st).1 this.symm
    · intro hcond
      have hf : http.findHandler r = .root := by
        by_cases hm : r.Method = ascii "CONNECT"
        · simp only [hm, if_true] at hcond
          exact http.findHandler_connect_root r hm hcond h2
        · simp only [hm, if_false] at hcond
          exact http.findHandler_clean_root r hm hcond h2
      rw [serve_root st env r huri hf h1]
      exact notFoundHandler_eq r
  · intro st env r huri hm hc
    have hf := http.findHandler_unclean r hm hc
    exact ⟨hf, serve_redirect st env r huri _ hf, by cases st <;> simp [http.RedirectStatus.code]⟩
  · intro st env r huri
    simp only [serve, huri, if_true]
    rfl
  · intro env w r h
    simp [rootFunc, h]
  · intro st env r h
    by_contra hp
    have hcode : (serve st env r).Code = 200 := by rw [h, mainHandler_eq]; exact (write_json _).1
    have hbody : (serve st env r).body = json.encodeServiceInfo (mainInfo env r) ++ [10] := by
      rw [h, mainHandler_eq]; exact (write_json _).2.2
    by_cases huri : r.RequestURI = ascii "*"
    · simp only [serve, huri, if_true] at hcode
      exact absurd hcode (by decide)
    · cases hf : http.findHandler r with
      | health =>
        simp only [serve, huri, if_false, hf] at hbody
        rw [healthHandler_eq, (write_json _).2.2] at hbody
        have := congrArg (fun l => l.take 4) hbody
        simp [json.encodeHealthResponse, json.encodeServiceInfo, json.encodeStruct,
          json.joinMembers, ascii] at this
      | root =>
        rw [serve_root st env r huri hf hp, (notFoundHandler_eq r).1] at hcode
        exact absurd hcode (by decide)
      | redirect u =>
        rw [serve_redirect st env r huri u hf] at hcode
        exact (redirect_code_ne st).2 hcode
      | notFound =>
        simp only [serve, huri, if_false, hf] at hcode
        exact absurd hcode (by decide)

theorem serve_not_found_witness :
    (serve .TemporaryRedirect ⟨0, [], [], [], [], 1, []⟩
        { Method := ascii "POST", URL := { Path := ascii "/health/" } }).Code = 404 ∧
      (serve .TemporaryRedirect ⟨0, [], [], [], [], 1, []⟩
        { Method := ascii "POST", URL := { Path := ascii "/health/" } }).SentHeader.Get
          (ascii "Content-Type") = ascii "application/json" ∧
      (serve .TemporaryRedirect ⟨0, [], [], [], [], 1, []⟩
        { Method := ascii "POST", URL := { Path := ascii "/health/" } }).body =
        ascii "\x7b\"error\":\"Not Found\",\"message\":\"Endpoint does not exist\"\x7d\n" :=
  (serve_not_found.1 .TemporaryRedirect ⟨0, [], [], [], [], 1, []⟩
    { Method := ascii "POST", URL := { Path := ascii "/health/" } }
    (by decide) (by decide) (by decide)).2 (by decide)

/-! ## The handlers' bodies decoded -/

/-- The seconds count of a non-negative duration is the whole seconds or one
more. -/
theorem uptime_seconds_range (n : Nat) (hn : n < 2 ^ 63) :
    ((n / 1000000000 : Nat) : Int) ≤ (getUptime (n : Int)).1 ∧
      (getUptime (n : Int)).1 ≤ ((n / 1000000000 : Nat) : Int) + 1 := by
  have hs2 : n / 1000000000 + 1 ≤ 2 ^ 53 := by
    have : n / 1000000000 < 2 ^ 40 := by
      apply Nat.div_lt_of_lt_mul
      norm_num at hn ⊢; omega
    norm_num at this ⊢; omega
  simp only [getUptime]
  have hb := Seconds_bounds n hs2
  have h1 := toInt_ge _ (Seconds_neg n) _ hb.1
  have h2 := toInt_le _ (Seconds_neg n) (n / 1000000000 + 1)
    (by rw [Nat.cast_add, Nat.cast_one]; exact hb.2)
  rw [Nat.cast_add, Nat.cast_one] at h2
  exact ⟨h1, h2⟩

theorem uptime_isInt64 (env : Env) (h : env.WellFormed) :
    json.IsInt64 (getUptime env.delta).1 := by
  obtain ⟨h0, hmax, _⟩ := h
  obtain ⟨n, hn⟩ := Int.eq_ofNat_of_zero_le h0
  rw [hn] at hmax ⊢
  have hn2 : n < 2 ^ 63 := by
    unfold time.maxDuration at hmax
    have : (n : Int) < 2 ^ 63 := by omega
    exact_mod_cast this
  obtain ⟨h1, h2⟩ := uptime_seconds_range n hn2
  have h3 : n / 1000000000 < 2 ^ 62 := by
    apply Nat.div_lt_of_lt_mul
    norm_num at hn2 ⊢; omega
  unfold json.IsInt64
  norm_num at h3 ⊢
  omega

namespace utf8

theorem validLoop_ascii (fuel : Nat) :
    ∀ s : GoString, s.length ≤ fuel → (∀ b ∈ s, b < 0x80) → validLoop fuel s = true := by
  induction fuel with
  | zero =>
    intro s hs _
    have : s = [] := List.length_eq_zero.1 (by omega)
    subst this
    simp [validLoop]
  | succ f ih =>
    intro s hs hb
    rcases s with _ | ⟨b, t⟩
    · simp [validLoop]
    have hb0 : b < 0x80 := hb b (by simp)
    have hne : b ≠ RuneError := by simp [RuneError]; omega
    rw [validLoop, DecodeRune_ascii b t hb0]
    simp only [hne, false_and, if_false, List.drop_succ_cons, List.drop_zero]
    exact ih t (by simpa using hs) (fun c hc => hb c (by simp [hc]))

/-- A string of ASCII bytes is well-formed UTF-8. -/
theorem ValidString_ascii (s : GoString) (h : ∀ b ∈ s, b < 0x80) : ValidString s = true :=
  validLoop_ascii s.length s le_rfl h

theorem validLoop_mono (f : Nat) :
    ∀ (g : Nat) (s : GoString), f ≤ g → validLoop f s = true → validLoop g s = true := by
  induction f with
  | zero =>
    intro g s _ h
    rcases s with _ | ⟨b, t⟩
    · cases g <;> simp [validLoop]
    · simp [validLoop] at h
  | succ f ih =>
    intro g s hfg h
    obtain ⟨g, rfl⟩ : ∃ k, g = k + 1 := ⟨g - 1, by omega⟩
    rcases s with _ | ⟨b, t⟩
    · simp [validLoop]
    rw [validLoop] at h ⊢
    split_ifs at h ⊢ with hinv
    exact ih g _ (by omega) h

/-- Enough fuel: the loop with fuel for the length decides validity. -/
theorem validLoop_fuel (f : Nat) :
    ∀ s : GoString, s.length ≤ f → validLoop f s = true → ValidString s = true := by
  induction f with
  | zero =>
    intro s hs _
    have : s = [] := List.length_eq_zero.1 (by omega)
    subst this
    rfl
  | succ f ih =>
    intro s hs h
    rcases s with _ | ⟨b, t⟩
    · rfl
    unfold ValidString
    rw [validLoop] at h
    rw [List.length_cons, validLoop]
    split_ifs at h ⊢ with hinv
    obtain ⟨hn1, hn2, _, _⟩ := DecodeRune_valid b t hinv
    have hlen : ((b :: t).drop (DecodeRune (b :: t)).2).length ≤ f := by
      simp only [List.length_drop, List.length_cons] at hs hn2 ⊢
      omega
    have := ih _ hlen h
    unfold ValidString at this
    exact validLoop_mono _ _ _ (by
      simp only [List.length_drop, List.length_cons] at hn2 ⊢
      omega) this

theorem validLoop_append (f : Nat) :
    ∀ a b : GoString, a.length ≤ f → validLoop f a = true → ValidString b = true →
      validLoop (f + b.length) (a ++ b) = true := by
  induction f with
  | zero =>
    intro a b ha _ hb
    have : a = [] := List.length_eq_zero.1 (by omega)
    subst this
    simpa [ValidString] using hb
  | succ f ih =>
    intro a b ha hva hb
    rcases a with _ | ⟨c, t⟩
    · exact validLoop_mono _ _ _ (by omega) hb
    rw [validLoop] at hva
    have e : f + 1 + b.length = (f + b.length) + 1 := by omega
    rw [e, List.cons_append, validLoop]
    split_ifs at hva with hinv
    obtain ⟨hn1, hn2, _, hext⟩ := DecodeRune_valid c t hinv
    have hd : DecodeRune (c :: (t ++ b)) = DecodeRune (c :: t) := by
      have := hext ((c :: t).drop (DecodeRune (c :: t)).2 ++ b)
      rw [← List.append_assoc, List.take_append_drop] at this
      exact this
    rw [hd]
    simp only [hinv, if_false]
    have hdrop : (c :: (t ++ b)).drop (DecodeRune (c :: t)).2 =
        (c :: t).drop (DecodeRune (c :: t)).2 ++ b := by
      rw [← List.cons_append, List.drop_append_of_le_length hn2]
    rw [hdrop]
    apply ih _ b _ hva hb
    simp only [List.length_drop, List.length_cons] at ha hn2 ⊢
    omega

/-- The concatenation of two well-formed strings is well-formed. -/
theorem ValidString_append (a b : GoString) (ha : ValidString a = true)
    (hb : ValidString b = true) : ValidString (a ++ b) = true := by
  have := validLoop_append a.length a b le_rfl ha hb
  unfold ValidString
  rw [List.length_append]
  exact this

/-- The text after a leading ASCII byte of a well-formed string is well-formed. -/
theorem ValidString_tail (c : Nat) (x : GoString) (hc : c < 0x80)
    (h : ValidString (c :: x) = true) : ValidString x = true := by
  unfold ValidString at h ⊢
  rw [List.length_cons, validLoop, DecodeRune_ascii c x hc] at h
  have hne : c ≠ RuneError := by simp [RuneError]; omega
  simpa [hne] using h

theorem validLoop_prefix (f : Nat) :
    ∀ (g c : Nat) (x y : GoString), c < 0x80 → x.length ≤ f →
      validLoop g (x ++ c :: y) = true → validLoop f x = true := by
  induction f with
  | zero =>
    intro g c x y _ hx _
    have : x = [] := List.length_eq_zero.1 (by omega)
    subst this
    simp [validLoop]
  | succ f ih =>
    intro g c x y hc hx h
    rcases x with _ | ⟨b, t⟩
    · simp [validLoop]
    obtain ⟨g, rfl⟩ : ∃ k, g = k + 1 := ⟨g - 1, by
      rcases g with _ | g
      · simp [validLoop] at h
      · omega⟩
    rw [List.cons_append, validLoop] at h
    rw [validLoop]
    split_ifs at h with hinv
    -- the first rune of the longer string lies inside `b :: t`
    have key : DecodeRune (b :: t) = DecodeRune (b :: (t ++ c :: y)) ∧
        (DecodeRune (b :: (t ++ c :: y))).2 ≤ (b :: t).length := by
      rcases DecodeRune_cases b (t ++ c :: y) with h0 | ⟨h0, h1⟩ |
        ⟨s1, t1, he, h0, h0', h1, h1'⟩ | ⟨s1, s2, t2, he, h0, h0', hlo, hhi, h2, h2'⟩ |
        ⟨s1, s2, s3, t3, he, h0, h0', hlo, hhi, h2, h2', h3, h3'⟩
      · exfalso; apply hinv; rw [h0]; exact ⟨rfl, rfl⟩
      · rw [h1, DecodeRune_ascii b t h0]; exact ⟨rfl, by simp⟩
      · rcases t with _ | ⟨u1, t'⟩
        · simp at he; omega
        · simp at he
          obtain ⟨rfl, rfl⟩ := he
          rw [List.cons_append, DecodeRune_two b u1 _ h0 h0' h1 h1',
            DecodeRune_two b u1 _ h0 h0' h1 h1']
          exact ⟨rfl, by simp⟩
      · have hlo' : 0x80 ≤ s1 := by split_ifs at hlo <;> omega
        rcases t with _ | ⟨u1, _ | ⟨u2, t'⟩⟩
        · simp at he; omega
        · simp at he; omega
        · simp at he
          obtain ⟨rfl, rfl, rfl⟩ := he
          rw [List.cons_append, List.cons_append, DecodeRune_three b u1 u2 _ h0 h0' hlo hhi h2 h2',
            DecodeRune_three b u1 u2 _ h0 h0' hlo hhi h2 h2']
          exact ⟨rfl, by simp⟩
      · have hlo' : 0x80 ≤ s1 := by split_ifs at hlo <;> omega
        rcases t with _ | ⟨u1, _ | ⟨u2, _ | ⟨u3, t'⟩⟩⟩
        · simp at he; omega
        · simp at he; omega
        · simp at he; omega
        · simp at he
          obtain ⟨rfl, rfl, rfl, rfl⟩ := he
          rw [List.cons_append, List.cons_append, List.cons_append,
            DecodeRune_four b u1 u2 u3 _ h0 h0' hlo hhi h2 h2' h3 h3',
            DecodeRune_four b u1 u2 u3 _ h0 h0' hlo hhi h2 h2' h3 h3']
          exact ⟨rfl, by simp⟩
    obtain ⟨hk1, hk2⟩ := key
    rw [hk1]
    simp only [hinv, if_false]
    obtain ⟨hn1, _, _, _⟩ := DecodeRune_valid b (t ++ c :: y) hinv
    have hdrop : (b :: (t ++ c :: y)).drop (DecodeRune (b :: (t ++ c :: y))).2 =
        (b :: t).drop (DecodeRune (b :: (t ++ c :: y))).2 ++ c :: y :=
      List.drop_append_of_le_length hk2
    rw [hdrop] at h
    apply ih g c _ y hc _ h
    simp only [List.length_drop, List.length_cons] at hx hk2 ⊢
    omega

/-- The text before an ASCII byte of a well-formed string is well-formed. -/
theorem ValidString_prefix (c : Nat) (x y : GoString) (hc : c < 0x80)
    (h : ValidString (x ++ c :: y) = true) : ValidString x = true :=
  validLoop_prefix x.length _ c x y hc le_rfl h

end utf8

theorem token_lt (c : Nat) (h : textproto.validHeaderFieldByte c = true) : c < 0x80 := by
  simp only [textproto.validHeaderFieldByte, Bool.or_eq_true, decide_eq_true_eq,
    List.contains_eq_any_beq, List.any_eq_true, beq_iff_eq] at h
  rcases h with ((((h | h) | h) | ⟨x, hx, hxc⟩) | h) | h
  · omega
  · omega
  · omega
  · subst hxc
    have hall : ∀ y ∈ ascii "!#$%&*+-.^_|~", y < 0x80 := by decide
    exact hall _ hx
  · omega
  · omega

/-- An HTTP method (a token) is well-formed UTF-8, so JSON encoding keeps it. -/
theorem validMethod_replaceInvalid (m : GoString) (h : http.validMethod m = true) :
    json.replaceInvalid m = m := by
  apply json.replaceInvalid_valid
  apply utf8.ValidString_ascii
  intro b hb
  simp only [http.validMethod, Bool.decide_and, Bool.and_eq_true, decide_eq_true_eq,
    List.all_eq_true] at h
  exact token_lt b (h.2 b hb)

theorem coerceServiceInfo_valid (x : ServiceInfo) (h : x.ValidStrings) :
    json.coerceServiceInfo x = x := by
  obtain ⟨h1, h2, h3, h4, h5, h6, h7, h8, h9, h10, h11, h12, h13, h14, h15, h16, h17⟩ := h
  have he : x.Endpoints.map json.coerceEndpoint = x.Endpoints := by
    conv_rhs => rw [← List.map_id x.Endpoints]
    apply List.map_congr_left
    intro e he
    obtain ⟨a, b, c⟩ := h17 e he
    simp [json.coerceEndpoint, json.replaceInvalid_valid, a, b, c]
  obtain ⟨s, y, rt, rq, es⟩ := x
  simp only [json.coerceServiceInfo, json.coerceService, json.coerceSystem, json.coerceRuntime,
    json.coerceRequest] at *
  simp only [json.replaceInvalid_valid, h1, h2, h3, h4, h5, h6, h7, h8, h9, h10, h11, h12, h13,
    h14, h15, h16, he]

theorem decimal_ascii(n : Nat) : ∀ b ∈ decimal n, b < 0x80 := by
  intro b hb
  have h := (json.decimal_spec n).2.1
  rw [List.all_eq_true] at h
  have := h b hb
  simp [json.isDigit] at this
  omega

theorem fmtInteger_ascii (i : Int) : ∀ b ∈ fmt.fmtInteger i, b < 0x80 := by
  intro b hb
  have e : fmt.fmtInteger i = if i < 0 then 45 :: decimal i.natAbs else decimal i.natAbs := by
    simp [fmt.fmtInteger, fmtDigits_eq]
  rw [e] at hb
  split_ifs at hb
  · rcases List.mem_cons.1 hb with rfl | hb
    · norm_num
    · exact decimal_ascii _ b hb
  · exact decimal_ascii _ b hb

/-- The human uptime string is made of ASCII bytes. -/
theorem getUptime_ascii (delta : Int) : ∀ b ∈ (getUptime delta).2, b < 0x80 := by
  intro b hb
  simp only [getUptime, Sprintf_uptime] at hb
  have hc : ∀ s : GoString, s ∈ [ascii " ", ascii ", ", ascii "hour", ascii "hours",
      ascii "minute", ascii "minutes"] → ∀ y ∈ s, y < 0x80 := by decide
  simp only [List.mem_append] at hb
  rcases hb with ((((((hb | hb) | hb) | hb) | hb) | hb) | hb)
  · exact fmtInteger_ascii _ b hb
  · exact hc _ (by simp) b hb
  · split_ifs at hb
    · exact hc _ (by simp) b hb
    · exact hc _ (by simp) b hb
  · exact hc _ (by simp) b hb
  · exact fmtInteger_ascii _ b hb
  · exact hc _ (by simp) b hb
  · split_ifs at hb
    · exact hc _ (by simp) b hb
    · exact hc _ (by simp) b hb

/-- The client address is well-formed UTF-8 whenever the two headers and
`RemoteAddr` are. -/
theorem getClientIP_valid (r : http.Request)
    (h1 : utf8.ValidString (r.Header.Get (ascii "X-Forwarded-For")) = true)
    (h2 : utf8.ValidString (r.Header.Get (ascii "X-Real-IP")) = true)
    (h3 : utf8.ValidString r.RemoteAddr = true) :
    utf8.ValidString (getClientIP r) = true := by
  unfold getClientIP
  simp only []
  split_ifs with a b c d
  · exact h1
  · exact h2
  · decide
  · cases hs : net.SplitHostPort r.RemoteAddr with
    | error e => simpa [hs] using h3
    | ok hp =>
      obtain ⟨h, p⟩ := hp
      simp only []
      rcases SplitHostPort_ok _ h p hs with e | e
      · rw [e] at h3
        exact utf8.ValidString_prefix 58 h p (by norm_num)
          (by simpa [ascii, List.append_assoc] using h3)
      · rw [e] at h3
        have h4 : utf8.ValidString (91 :: (h ++ 93 :: (58 :: p))) = true := by
          simpa [ascii, List.append_assoc] using h3
        exact utf8.ValidString_prefix 93 h (58 :: p) (by norm_num)
          (utf8.ValidString_tail 91 _ (by norm_num) h4)
  · decide

/-- Every string of the value `mainHandler` builds is well-formed UTF-8
whenever the strings of the request and of the environment are. -/
theorem mainInfo_valid (env : Env) (r : http.Request) (he : env.ValidStrings)
    (hr : r.ValidStrings) : (mainInfo env r).ValidStrings := by
  obtain ⟨e1, e2, e3, e4, e5⟩ := he
  obtain ⟨r1, r2, r3, r4, r5, r6⟩ := hr
  have hsp : utf8.ValidString (ascii " ") = true := by decide
  refine ⟨by rfl, by rfl, by rfl, by rfl, e2, e3, ?_, e4, e5, ?_, e1, by rfl,
    getClientIP_valid r r1 r2 r4, ?_, r5, r6, ?_⟩
  · exact utf8.ValidString_append _ _ (utf8.ValidString_append _ _ e3 hsp) e4
  · exact utf8.ValidString_ascii _ (getUptime_ascii env.delta)
  · show utf8.ValidString (if r.Header.Get (ascii "User-Agent") = [] then ascii "unknown"
      else r.Header.Get (ascii "User-Agent")) = true
    split_ifs
    · decide
    · exact r3
  · intro e he
    have hall : ∀ e ∈ (mainInfo env r).Endpoints, utf8.ValidString e.Path = true ∧
        utf8.ValidString e.Method = true ∧ utf8.ValidString e.Description = true := by
      show ∀ e ∈ [_, _], _
      decide
    exact hall e he

theorem sampleEnv_wellFormed : sampleEnv.WellFormed := by
  unfold Env.WellFormed json.IsInt64 sampleEnv time.maxDuration
  norm_num

/-- C9: for every request, whatever its method, `mainHandler` answers on a
fresh writer with status 200, `Content-Type: application/json` and the JSON
text of a `ServiceInfo` whose `request.method` is the method of the request
and whose `service.name`, `service.version` and `service.framework` are
`devops-info-service`, `1.0.0` and `Go`; for every HTTP method (a token) that
text decodes to a `ServiceInfo` with exactly these values. -/
theorem mainHandler_ok :
    (∀ (env : Env) (r : http.Request),
      (mainHandler env {} r).Code = 200 ∧
      (mainHandler env {} r).SentHeader.Get (ascii "Content-Type") = ascii "application/json" ∧
      (mainHandler env {} r).body = json.encodeServiceInfo (mainInfo env r) ++ [10] ∧
      (mainInfo env r).Request.Method = r.Method ∧
      (mainInfo env r).Service.Name = ascii "devops-info-service" ∧
      (mainInfo env r).Service.Version = ascii "1.0.0" ∧
      (mainInfo env r).Service.Framework = ascii "Go") ∧
    (∀ (env : Env) (r : http.Request), env.WellFormed → http.validMethod r.Method = true →
      ∃ info, json.Unmarshal json.stepServiceInfo (mainHandler env {} r).body zeroServiceInfo =
          some info ∧
        info.Request.Method = r.Method ∧
        info.Service.Name = ascii "devops-info-service" ∧
        info.Service.Version = ascii "1.0.0" ∧
        info.Service.Framework = ascii "Go") := by
  constructor
  · intro env r
    rw [mainHandler_eq]
    exact ⟨(write_json _).1, (write_json _).2.1, (write_json _).2.2, rfl, rfl, rfl, rfl⟩
  · intro env r hw hm
    rw [mainHandler_eq, (write_json _).2.2,
      json.Unmarshal_ServiceInfo _ _ hw.2.2 (uptime_isInt64 env hw)]
    refine ⟨_, rfl, ?_, ?_, ?_, ?_⟩
    · exact validMethod_replaceInvalid _ hm
    · rfl
    · rfl
    · rfl

theorem mainHandler_ok_witness :
    ∃ info, json.Unmarshal json.stepServiceInfo (mainHandler sampleEnv {} sampleRequest).body
        zeroServiceInfo = some info ∧
      info.Request.Method = sampleRequest.Method ∧
      info.Service.Name = ascii "devops-info-service" ∧
      info.Service.Version = ascii "1.0.0" ∧
      info.Service.Framework = ascii "Go" :=
  mainHandler_ok.2 sampleEnv sampleRequest sampleEnv_wellFormed (by decide)

/-- C10 (counterexample): for a request whose `User-Agent` value is the byte
0xFF, the body of `mainHandler` decodes to a `ServiceInfo` whose `user_agent`
is U+FFFD (bytes EF BF BD), not the 0xFF the handler encoded. -/
theorem mainHandler_invalid_utf8_not_preserved :
    (mainInfo sampleEnv badAgentRequest).Request.UserAgent = [0xFF] ∧
    (json.Unmarshal json.stepServiceInfo (mainHandler sampleEnv {} badAgentRequest).body
        zeroServiceInfo).map (fun info => info.Request.UserAgent) = some [0xEF, 0xBF, 0xBD] ∧
    json.Unmarshal json.stepServiceInfo (mainHandler sampleEnv {} badAgentRequest).body
        zeroServiceInfo ≠ some (mainInfo sampleEnv badAgentRequest) := by
  have h : json.Unmarshal json.stepServiceInfo (mainHandler sampleEnv {} badAgentRequest).body
      zeroServiceInfo = some (json.coerceServiceInfo (mainInfo sampleEnv badAgentRequest)) := by
    rw [mainHandler_eq, (write_json _).2.2,
      json.Unmarshal_ServiceInfo _ _ sampleEnv_wellFormed.2.2
        (uptime_isInt64 sampleEnv sampleEnv_wellFormed)]
  have hua : (json.coerceServiceInfo (mainInfo sampleEnv badAgentRequest)).Request.UserAgent =
      [0xEF, 0xBF, 0xBD] := by decide
  refine ⟨by decide, ?_, ?_⟩
  · rw [h]; simp only [Option.map_some']; rw [hua]
  · rw [h]
    intro hc
    have := congrArg (fun x => x.Request.UserAgent) (Option.some.inj hc)
    simp only [hua] at this
    revert this
    decide

/-- C10 (amended): the body `mainHandler`, `healthHandler` and
`notFoundHandler` write on a fresh writer is the JSON text of the value they
built followed by a line feed; `Unmarshal` decodes it into `ServiceInfo`,
`HealthResponse` and `ErrorResponse` with the numbers equal to the encoded
ones and every string equal to the encoded one with each byte that is not
part of a well-formed UTF-8 encoding replaced by U+FFFD; so every field is
equal to the encoded value whenever the strings the handler reads (the
`X-Forwarded-For`, `X-Real-IP` and `User-Agent` values, `RemoteAddr`, the
method, the path, and the host name, platform, Go version and time stamp of
the environment) are well-formed UTF-8. -/
theorem handlers_json_roundtrip :
    (∀ (env : Env) (r : http.Request), env.WellFormed →
      json.Unmarshal json.stepServiceInfo (mainHandler env {} r).body zeroServiceInfo =
          some (json.coerceServiceInfo (mainInfo env r)) ∧
        (env.ValidStrings → r.ValidStrings →
          json.Unmarshal json.stepServiceInfo (mainHandler env {} r).body zeroServiceInfo =
            some (mainInfo env r))) ∧
    (∀ (env : Env) (r : http.Request), env.WellFormed →
      json.Unmarshal json.stepHealthResponse (healthHandler env {} r).body zeroHealthResponse =
          some (json.coerceHealthResponse (healthInfo env)) ∧
        (utf8.ValidString env.now = true →
          json.Unmarshal json.stepHealthResponse (healthHandler env {} r).body
            zeroHealthResponse = some (healthInfo env))) ∧
    (∀ r : http.Request,
      json.Unmarshal json.stepErrorResponse (notFoundHandler {} r).body zeroErrorResponse =
        some ⟨ascii "Not Found", ascii "Endpoint does not exist"⟩) := by
  refine ⟨?_, ?_, ?_⟩
  · intro env r hw
    have h : json.Unmarshal json.stepServiceInfo (mainHandler env {} r).body zeroServiceInfo =
        some (json.coerceServiceInfo (mainInfo env r)) := by
      rw [mainHandler_eq, (write_json _).2.2,
        json.Unmarshal_ServiceInfo _ _ hw.2.2 (uptime_isInt64 env hw)]
    exact ⟨h, fun he hr => by rw [h, coerceServiceInfo_valid _ (mainInfo_valid env r he hr)]⟩
  · intro env r hw
    have h : json.Unmarshal json.stepHealthResponse (healthHandler env {} r).body
        zeroHealthResponse = some (json.coerceHealthResponse (healthInfo env)) := by
      rw [healthHandler_eq, (write_json _).2.2,
        json.Unmarshal_HealthResponse _ _ (uptime_isInt64 env hw)]
    refine ⟨h, fun hv => ?_⟩
    rw [h]
    have hs : json.replaceInvalid (ascii "healthy") = ascii "healthy" := by decide
    simp only [json.coerceHealthResponse, healthInfo, json.replaceInvalid_valid _ hv, hs]
  · intro r
    have hb : (notFoundHandler {} r).body = json.encodeErrorResponse
        ⟨ascii "Not Found", ascii "Endpoint does not exist"⟩ ++ [10] := rfl
    rw [hb, json.Unmarshal_ErrorResponse]
    decide

theorem handlers_json_roundtrip_witness :
    json.Unmarshal json.stepServiceInfo (mainHandler sampleEnv {} sampleRequest).body
      zeroServiceInfo = some (mainInfo sampleEnv sampleRequest) :=
  (handlers_json_roundtrip.1 sampleEnv sampleRequest sampleEnv_wellFormed).2
    (by unfold Env.ValidStrings; decide) (by unfold http.Request.ValidStrings; decide)
